import Mathlib

/-!
# Collision simulation: a shallow embedding of `collision.cpp`

The C++ `float` is modelled by an arbitrary linearly ordered field `K`
(exact arithmetic); `std::sqrt` is a parameter `sqrt : K → K`, about which
each theorem states the facts it uses.  Over `ℚ` the parameter is
instantiated by `Rat.sqrt`, which makes every definition executable.
The `color` field of `Ball` has no influence on the simulation and is left out.

The constant `dt` is the binary32 value of `1.f / 120.f`.  Where the rounding of `float`
decides a property, the code is given a second time with a rounding `rnd` after every
arithmetic operation (names ending in `R`); `round32` is the rounding of binary32 over `ℚ`,
and the theorems of the last two sections evaluate the rounded code with it.
-/

namespace Collision

/-! ## Vector utilities -/

/-- The struct `Vec`: a pair of coordinates. -/
structure Vec (K : Type) where
  x : K
  y : K
deriving DecidableEq

/-- The struct `Ball` without its colour. -/
structure Ball (K : Type) where
  pos : Vec K
  vel : Vec K
  radius : K
  mass : K
deriving DecidableEq

section Defs

variable {K : Type} [LinearOrderedField K]

/-- The member `Vec::operator+`. -/
def Vec.add (a o : Vec K) : Vec K := ⟨a.x + o.x, a.y + o.y⟩

/-- The member `Vec::operator-`. -/
def Vec.sub (a o : Vec K) : Vec K := ⟨a.x - o.x, a.y - o.y⟩

/-- The member `Vec::operator*(float)`. -/
def Vec.mul (a : Vec K) (s : K) : Vec K := ⟨a.x * s, a.y * s⟩

/-- The member `Vec::operator/(float)`. -/
def Vec.div (a : Vec K) (s : K) : Vec K := ⟨a.x / s, a.y / s⟩

/-- The function `dot`. -/
def dot (a b : Vec K) : K := a.x * b.x + a.y * b.y

/-- The function `len`, with `std::sqrt` as a parameter. -/
def len (sqrt : K → K) (a : Vec K) : K := sqrt (a.x * a.x + a.y * a.y)

/-- The function `normalize`. -/
def normalize (sqrt : K → K) (a : Vec K) : Vec K :=
  if len sqrt a = 0 then ⟨0, 0⟩ else a.div (len sqrt a)

/-! ## Collision response -/

/-- The function `resolveCollision(Ball &a, Ball &b)`: the pair of balls after the call. -/
def resolveCollision (sqrt : K → K) (a b : Ball K) : Ball K × Ball K :=
  let n₀ := a.pos.sub b.pos
  let dist₀ := len sqrt n₀
  let n : Vec K := if dist₀ = 0 then ⟨1 / 100, 1 / 100⟩ else n₀
  let dist : K := if dist₀ = 0 then len sqrt ⟨1 / 100, 1 / 100⟩ else dist₀
  let penetration := a.radius + b.radius - dist
  if penetration > 0 then
    let n_norm := n.div dist
    let totalMass := a.mass + b.mass
    let correction : K := 1 / 2
    let a₁ : Ball K :=
      { a with pos := a.pos.add (n_norm.mul (penetration * (b.mass / totalMass) * correction)) }
    let b₁ : Ball K :=
      { b with pos := b.pos.sub (n_norm.mul (penetration * (a.mass / totalMass) * correction)) }
    let rv := a₁.vel.sub b₁.vel
    let normal := n_norm
    let velAlongNormal := dot rv normal
    if velAlongNormal > 0 then (a₁, b₁)
    else
      let e : K := 1
      let j₀ := -(1 + e) * velAlongNormal
      let j := j₀ / (1 / a₁.mass + 1 / b₁.mass)
      let impulse := normal.mul j
      let a₂ : Ball K := { a₁ with vel := a₁.vel.add (impulse.mul (1 / a₁.mass)) }
      let b₂ : Ball K := { b₁ with vel := b₁.vel.sub (impulse.mul (1 / b₁.mass)) }
      (a₂, b₂)
  else (a, b)

/-- Division that fails on a zero divisor; used to track the divisions of `resolveCollision`. -/
def checkedDiv (x y : K) : Option K := if y = 0 then none else some (x / y)

/-- The function `resolveCollision` with every division checked: `none` as soon as a
divisor is zero, otherwise the same computation as `resolveCollision`. -/
def resolveCollisionChecked (sqrt : K → K) (a b : Ball K) : Option (Ball K × Ball K) :=
  let n₀ := a.pos.sub b.pos
  let dist₀ := len sqrt n₀
  let n : Vec K := if dist₀ = 0 then ⟨1 / 100, 1 / 100⟩ else n₀
  let dist : K := if dist₀ = 0 then len sqrt ⟨1 / 100, 1 / 100⟩ else dist₀
  let penetration := a.radius + b.radius - dist
  if penetration > 0 then
    (checkedDiv n.x dist).bind fun nx =>
    (checkedDiv n.y dist).bind fun ny =>
    let n_norm : Vec K := ⟨nx, ny⟩
    let totalMass := a.mass + b.mass
    let correction : K := 1 / 2
    (checkedDiv b.mass totalMass).bind fun fb =>
    (checkedDiv a.mass totalMass).bind fun fa =>
    let a₁ : Ball K := { a with pos := a.pos.add (n_norm.mul (penetration * fb * correction)) }
    let b₁ : Ball K := { b with pos := b.pos.sub (n_norm.mul (penetration * fa * correction)) }
    let rv := a₁.vel.sub b₁.vel
    let normal := n_norm
    let velAlongNormal := dot rv normal
    if velAlongNormal > 0 then some (a₁, b₁)
    else
      let e : K := 1
      let j₀ := -(1 + e) * velAlongNormal
      (checkedDiv 1 a₁.mass).bind fun ia =>
      (checkedDiv 1 b₁.mass).bind fun ib =>
      (checkedDiv j₀ (ia + ib)).bind fun j =>
      let impulse := normal.mul j
      let a₂ : Ball K := { a₁ with vel := a₁.vel.add (impulse.mul ia) }
      let b₂ : Ball K := { b₁ with vel := b₁.vel.sub (impulse.mul ib) }
      some (a₂, b₂)
  else some (a, b)

/-- The value of `std::sqrt` at `s` is exact: non-negative with square `s`. -/
def SqrtExactAt (sqrt : K → K) (s : K) : Prop := 0 ≤ sqrt s ∧ sqrt s * sqrt s = s

/-- The local `n` of `resolveCollision` after the coincidence test. -/
def contactNormal (sqrt : K → K) (a b : Ball K) : Vec K :=
  if len sqrt (a.pos.sub b.pos) = 0 then ⟨1 / 100, 1 / 100⟩ else a.pos.sub b.pos

/-- The local `dist` of `resolveCollision` after the coincidence test. -/
def contactDist (sqrt : K → K) (a b : Ball K) : K :=
  if len sqrt (a.pos.sub b.pos) = 0 then len sqrt ⟨1 / 100, 1 / 100⟩
  else len sqrt (a.pos.sub b.pos)

/-- The local `penetration` of `resolveCollision`. -/
def penetration (sqrt : K → K) (a b : Ball K) : K :=
  a.radius + b.radius - contactDist sqrt a b

/-- The local `n_norm` of `resolveCollision`. -/
def unitNormal (sqrt : K → K) (a b : Ball K) : Vec K :=
  (contactNormal sqrt a b).div (contactDist sqrt a b)

/-- The local `velAlongNormal` of `resolveCollision`. -/
def velAlongNormal (sqrt : K → K) (a b : Ball K) : K :=
  dot (a.vel.sub b.vel) (unitNormal sqrt a b)

/-- Total kinetic energy of two balls, `(1/2) m_a |v_a|^2 + (1/2) m_b |v_b|^2`. -/
def kineticEnergy (a b : Ball K) : K :=
  1 / 2 * a.mass * dot a.vel a.vel + 1 / 2 * b.mass * dot b.vel b.vel

/-- Total linear momentum of two balls, `m_a v_a + m_b v_b`. -/
def momentum (a b : Ball K) : Vec K := (a.vel.mul a.mass).add (b.vel.mul b.mass)

/-- The mass-weighted centre of two balls, `m_a p_a + m_b p_b`. -/
def massCentre (a b : Ball K) : Vec K := (a.pos.mul a.mass).add (b.pos.mul b.mass)

/-! ## Boundary reflection -/

/-- The constant `W` of `main`, converted to `float`. -/
def worldW : K := 1000

/-- The constant `H` of `main`, converted to `float`. -/
def worldH : K := 700

/-- The body of the boundary-reflection loop of `main`, for one ball. -/
def reflect (b : Ball K) : Ball K :=
  let b₁ : Ball K :=
    if b.pos.x - b.radius < 0 then
      { b with pos := ⟨b.radius, b.pos.y⟩, vel := ⟨b.vel.x * -1, b.vel.y⟩ } else b
  let b₂ : Ball K :=
    if b₁.pos.x + b₁.radius > worldW then
      { b₁ with pos := ⟨worldW - b₁.radius, b₁.pos.y⟩, vel := ⟨b₁.vel.x * -1, b₁.vel.y⟩ } else b₁
  let b₃ : Ball K :=
    if b₂.pos.y - b₂.radius < 0 then
      { b₂ with pos := ⟨b₂.pos.x, b₂.radius⟩, vel := ⟨b₂.vel.x, b₂.vel.y * -1⟩ } else b₂
  let b₄ : Ball K :=
    if b₃.pos.y + b₃.radius > worldH then
      { b₃ with pos := ⟨b₃.pos.x, worldH - b₃.radius⟩, vel := ⟨b₃.vel.x, b₃.vel.y * -1⟩ } else b₃
  b₄

/-- The boundary-reflection loop of `main` over all balls. -/
def reflectAll (balls : List (Ball K)) : List (Ball K) := balls.map reflect

/-! ## The same code with a rounding after every float operation

`rnd` is the rounding of the float type: every `+`, `-`, `*`, `/` of the source is followed
by it, and the literal `0.01f` is `rnd (1/100)`; the literals `0.5f`, `1.0f`, `0`, `-1` and
the converted `W`, `H` are exact.  With `rnd := id` these are the definitions above; with
`rnd := round32` (below) they are the binary32 program. -/

/-- The member `Vec::operator+`, rounded. -/
def Vec.addR (rnd : K → K) (a o : Vec K) : Vec K := ⟨rnd (a.x + o.x), rnd (a.y + o.y)⟩

/-- The member `Vec::operator-`, rounded. -/
def Vec.subR (rnd : K → K) (a o : Vec K) : Vec K := ⟨rnd (a.x - o.x), rnd (a.y - o.y)⟩

/-- The member `Vec::operator*(float)`, rounded. -/
def Vec.mulR (rnd : K → K) (a : Vec K) (s : K) : Vec K := ⟨rnd (a.x * s), rnd (a.y * s)⟩

/-- The member `Vec::operator/(float)`, rounded. -/
def Vec.divR (rnd : K → K) (a : Vec K) (s : K) : Vec K := ⟨rnd (a.x / s), rnd (a.y / s)⟩

/-- The function `dot`, rounded. -/
def dotR (rnd : K → K) (a b : Vec K) : K := rnd (rnd (a.x * b.x) + rnd (a.y * b.y))

/-- The function `len`, rounded; `sqrt` is the `std::sqrt` of the float type. -/
def lenR (rnd sqrt : K → K) (a : Vec K) : K := sqrt (rnd (rnd (a.x * a.x) + rnd (a.y * a.y)))

/-- The function `resolveCollision(Ball &a, Ball &b)` with rounded operations. -/
def resolveCollisionR (rnd sqrt : K → K) (a b : Ball K) : Ball K × Ball K :=
  let n₀ := a.pos.subR rnd b.pos
  let dist₀ := lenR rnd sqrt n₀
  let n : Vec K := if dist₀ = 0 then ⟨rnd (1 / 100), rnd (1 / 100)⟩ else n₀
  let dist : K :=
    if dist₀ = 0 then lenR rnd sqrt ⟨rnd (1 / 100), rnd (1 / 100)⟩ else dist₀
  let penetration := rnd (rnd (a.radius + b.radius) - dist)
  if penetration > 0 then
    let n_norm := n.divR rnd dist
    let totalMass := rnd (a.mass + b.mass)
    let correction : K := 1 / 2
    let a₁ : Ball K :=
      { a with pos := (a.pos.addR rnd
          (n_norm.mulR rnd (rnd (rnd (penetration * rnd (b.mass / totalMass)) * correction)))) }
    let b₁ : Ball K :=
      { b with pos := (b.pos.subR rnd
          (n_norm.mulR rnd (rnd (rnd (penetration * rnd (a.mass / totalMass)) * correction)))) }
    let rv := a₁.vel.subR rnd b₁.vel
    let normal := n_norm
    let velAlongNormal := dotR rnd rv normal
    if velAlongNormal > 0 then (a₁, b₁)
    else
      let e : K := 1
      let j₀ := rnd (-(rnd (1 + e)) * velAlongNormal)
      let j := rnd (j₀ / rnd (rnd (1 / a₁.mass) + rnd (1 / b₁.mass)))
      let impulse := normal.mulR rnd j
      let a₂ : Ball K :=
        { a₁ with vel := a₁.vel.addR rnd (impulse.mulR rnd (rnd (1 / a₁.mass))) }
      let b₂ : Ball K :=
        { b₁ with vel := b₁.vel.subR rnd (impulse.mulR rnd (rnd (1 / b₁.mass))) }
      (a₂, b₂)
  else (a, b)

/-- The body of the boundary-reflection loop of `main` with rounded operations. -/
def reflectR (rnd : K → K) (b : Ball K) : Ball K :=
  let b₁ : Ball K :=
    if rnd (b.pos.x - b.radius) < 0 then
      { b with pos := ⟨b.radius, b.pos.y⟩, vel := ⟨rnd (b.vel.x * -1), b.vel.y⟩ } else b
  let b₂ : Ball K :=
    if rnd (b₁.pos.x + b₁.radius) > worldW then
      { b₁ with pos := ⟨rnd (worldW - b₁.radius), b₁.pos.y⟩,
                vel := ⟨rnd (b₁.vel.x * -1), b₁.vel.y⟩ } else b₁
  let b₃ : Ball K :=
    if rnd (b₂.pos.y - b₂.radius) < 0 then
      { b₂ with pos := ⟨b₂.pos.x, b₂.radius⟩, vel := ⟨b₂.vel.x, rnd (b₂.vel.y * -1)⟩ } else b₂
  let b₄ : Ball K :=
    if rnd (b₃.pos.y + b₃.radius) > worldH then
      { b₃ with pos := ⟨b₃.pos.x, rnd (worldH - b₃.radius)⟩,
                vel := ⟨b₃.vel.x, rnd (b₃.vel.y * -1)⟩ } else b₃
  b₄

/-- The boundary-reflection loop of `main` over all balls, with rounded operations. -/
def reflectAllR (rnd : K → K) (balls : List (Ball K)) : List (Ball K) :=
  balls.map (reflectR rnd)

end Defs

/-! ## Quadtree structure -/

/-- The struct `AABB`. -/
structure AABB (K : Type) where
  x : K
  y : K
  w : K
  h : K
deriving DecidableEq

/-- The struct `Quadtree`.  A `Ball*` is an index into the vector `balls`.
`leaf` is a node with `divided = false` (no children), `split` a node with
`divided = true` and its four children `nw`, `ne`, `sw`, `se`. -/
inductive Quadtree (K : Type) where
  | leaf (box : AABB K) (capacity : Int) (points : List Nat) : Quadtree K
  | split (box : AABB K) (capacity : Int) (points : List Nat)
      (nw ne sw se : Quadtree K) : Quadtree K

/-- The four children of a divided node. -/
inductive Quadrant where
  | nw : Quadrant
  | ne : Quadrant
  | sw : Quadrant
  | se : Quadrant
deriving DecidableEq

section QuadDefs

variable {K : Type} [LinearOrderedField K]

/-- The member `AABB::contains`. -/
def AABB.contains (bx : AABB K) (b : Ball K) : Bool :=
  decide (b.pos.x ≥ bx.x) && decide (b.pos.x ≤ bx.x + bx.w) &&
    decide (b.pos.y ≥ bx.y) && decide (b.pos.y ≤ bx.y + bx.h)

/-- The member `AABB::intersects`. -/
def AABB.intersects (bx o : AABB K) : Bool :=
  !(decide (o.x > bx.x + bx.w) || decide (o.x + o.w < bx.x) ||
    decide (o.y > bx.y + bx.h) || decide (o.y + o.h < bx.y))

namespace Quadtree

/-- The field `box`. -/
def box : Quadtree K → AABB K
  | leaf bx _ _ => bx
  | split bx _ _ _ _ _ _ => bx

/-- The field `capacity`. -/
def capacity : Quadtree K → Int
  | leaf _ c _ => c
  | split _ c _ _ _ _ _ => c

/-- The field `points`. -/
def points : Quadtree K → List Nat
  | leaf _ _ ps => ps
  | split _ _ ps _ _ _ _ => ps

/-- The field `divided`. -/
def divided : Quadtree K → Bool
  | leaf _ _ _ => false
  | split _ _ _ _ _ _ _ => true

/-- The statement `points.push_back(b)`. -/
def pushPoint : Quadtree K → Nat → Quadtree K
  | leaf bx c ps, b => leaf bx c (ps ++ [b])
  | split bx c ps nw ne sw se, b => split bx c (ps ++ [b]) nw ne sw se

/-- The member `subdivide`: four fresh children on the quadrants of the box, `divided = true`. -/
def subdivide (t : Quadtree K) : Quadtree K :=
  let hw := t.box.w / 2
  let hh := t.box.h / 2
  split t.box t.capacity t.points
    (leaf ⟨t.box.x, t.box.y, hw, hh⟩ t.capacity [])
    (leaf ⟨t.box.x + hw, t.box.y, hw, hh⟩ t.capacity [])
    (leaf ⟨t.box.x, t.box.y + hh, hw, hh⟩ t.capacity [])
    (leaf ⟨t.box.x + hw, t.box.y + hh, hw, hh⟩ t.capacity [])

/-- The member `insert`, with `mem` the dereference of a `Ball*`.  The recursion of the
source is bounded by a fuel argument; `none` means that the fuel ran out.  The result is
the returned boolean and the tree after the call.  After `if (!divided) subdivide();` the
node is divided, so the `leaf` branch of the inner match (null children) is never taken. -/
def insert (mem : Nat → Ball K) : Nat → Quadtree K → Nat → Option (Bool × Quadtree K)
  | 0, _, _ => none
  | fuel + 1, t, b =>
    if !t.box.contains (mem b) then some (false, t)
    else if (t.points.length : Int) < t.capacity then some (true, t.pushPoint b)
    else
      match (if !t.divided then t.subdivide else t) with
      | leaf _ _ _ => none
      | split bx c ps nw ne sw se =>
        match insert mem fuel nw b with
        | none => none
        | some (true, nw₁) => some (true, split bx c ps nw₁ ne sw se)
        | some (false, nw₁) =>
          match insert mem fuel ne b with
          | none => none
          | some (true, ne₁) => some (true, split bx c ps nw₁ ne₁ sw se)
          | some (false, ne₁) =>
            match insert mem fuel sw b with
            | none => none
            | some (true, sw₁) => some (true, split bx c ps nw₁ ne₁ sw₁ se)
            | some (false, sw₁) =>
              match insert mem fuel se b with
              | none => none
              | some (true, se₁) => some (true, split bx c ps nw₁ ne₁ sw₁ se₁)
              | some (false, se₁) => some (false, split bx c ps nw₁ ne₁ sw₁ se₁)

/-- The member `query`: the vector `out` after the call. -/
def query (mem : Nat → Ball K) (range : AABB K) : Quadtree K → List Nat → List Nat
  | leaf bx _ ps, out =>
    if !bx.intersects range then out
    else out ++ ps.filter fun b => range.contains (mem b)
  | split bx _ ps nw ne sw se, out =>
    if !bx.intersects range then out
    else
      let out₁ := out ++ ps.filter fun b => range.contains (mem b)
      let out₂ := nw.query mem range out₁
      let out₃ := ne.query mem range out₂
      let out₄ := sw.query mem range out₃
      se.query mem range out₄

/-- The loop `for (auto &b : balls) qt.insert(&b)` over a list of references: the tree after
the loop, together with the references for which `insert` returned `true` (the accepted
bodies; `main` itself ignores the returned booleans). -/
def insertAll (mem : Nat → Ball K) (fuel : Nat) :
    Quadtree K → List Nat → Option (Quadtree K × List Nat)
  | t, [] => some (t, [])
  | t, b :: bs =>
    match t.insert mem fuel b with
    | none => none
    | some (r, t₁) =>
      match insertAll mem fuel t₁ bs with
      | none => none
      | some (t₂, acc) => some (t₂, if r then b :: acc else acc)

/-- All references stored in the tree, node first, then `nw`, `ne`, `sw`, `se`. -/
def allPoints : Quadtree K → List Nat
  | leaf _ _ ps => ps
  | split _ _ ps nw ne sw se => ps ++ nw.allPoints ++ ne.allPoints ++ sw.allPoints ++ se.allPoints

/-- The number of levels of the tree. -/
def height : Quadtree K → Nat
  | leaf _ _ _ => 1
  | split _ _ _ nw ne sw se => 1 + max (max nw.height ne.height) (max sw.height se.height)

/-- Well-formedness with respect to the memory `mem` and the construction capacity `cap`:
every node has capacity `cap` and at most `cap` references, each inside the node's box;
a divided node is full and its children sit on the four quadrants of its box. -/
def Inv (mem : Nat → Ball K) (cap : Int) : Quadtree K → Prop
  | leaf bx c ps => c = cap ∧ (ps.length : Int) ≤ cap ∧ ∀ p ∈ ps, bx.contains (mem p) = true
  | split bx c ps nw ne sw se =>
    c = cap ∧ (ps.length : Int) = cap ∧ (∀ p ∈ ps, bx.contains (mem p) = true) ∧
    nw.box = ⟨bx.x, bx.y, bx.w / 2, bx.h / 2⟩ ∧
    ne.box = ⟨bx.x + bx.w / 2, bx.y, bx.w / 2, bx.h / 2⟩ ∧
    sw.box = ⟨bx.x, bx.y + bx.h / 2, bx.w / 2, bx.h / 2⟩ ∧
    se.box = ⟨bx.x + bx.w / 2, bx.y + bx.h / 2, bx.w / 2, bx.h / 2⟩ ∧
    nw.Inv mem cap ∧ ne.Inv mem cap ∧ sw.Inv mem cap ∧ se.Inv mem cap

/-- The outcome of `insert` of `b` into a well-formed `t` with fuel `fuel`: the call returns,
the boolean is `t.box.contains`, a rejected call leaves the tree as it is, an accepted one
keeps it well-formed with the same box, lets the height grow by at most `g` and adds exactly
`b` to the stored references. -/
def InsOK (mem : Nat → Ball K) (cap : Int) (b g fuel : Nat) (t : Quadtree K) : Prop :=
  ∃ t₁, t.insert mem fuel b = some (t.box.contains (mem b), t₁) ∧
    (t.box.contains (mem b) = false → t₁ = t) ∧
    (t.box.contains (mem b) = true →
      t₁.Inv mem cap ∧ t₁.box = t.box ∧ t₁.height ≤ t.height + g ∧
        t₁.allPoints.Perm (b :: t.allPoints))

/-- The subtree reached from the node by a path of quadrants, if the path exists. -/
def sub : Quadtree K → List Quadrant → Option (Quadtree K)
  | t, [] => some t
  | leaf _ _ _, _ :: _ => none
  | split _ _ _ nw _ _ _, Quadrant.nw :: ds => nw.sub ds
  | split _ _ _ _ ne _ _, Quadrant.ne :: ds => ne.sub ds
  | split _ _ _ _ _ sw _, Quadrant.sw :: ds => sw.sub ds
  | split _ _ _ _ _ _ se, Quadrant.se :: ds => se.sub ds

/-- The tree `t₁` extends `t` by the reference `b`, `r` telling whether `b` was stored:
every node of `t` is still there, at the same path, with the same box and capacity, its
references at the same positions of its list (the list is the same or, when `r` is `true`,
got `b` appended), divided if it was divided; and the stored references are those of `t`,
plus `b` exactly once when `r` is `true`, and nothing else. -/
def Extends (b : Nat) (r : Bool) (t t₁ : Quadtree K) : Prop :=
  (∀ path s, t.sub path = some s →
    ∃ s₁, t₁.sub path = some s₁ ∧ s₁.box = s.box ∧ s₁.capacity = s.capacity ∧
      (s₁.points = s.points ∨ (r = true ∧ s₁.points = s.points ++ [b])) ∧
      (s.divided = true → s₁.divided = true)) ∧
  ∀ a, t₁.allPoints.count a = t.allPoints.count a + if a = b then r.toNat else 0

/-- Every node of the tree has capacity at least 1. -/
def CapPos : Quadtree K → Prop
  | leaf _ c _ => 1 ≤ c
  | split _ c _ nw ne sw se => 1 ≤ c ∧ nw.CapPos ∧ ne.CapPos ∧ sw.CapPos ∧ se.CapPos

end Quadtree

/-! ## Broad phase of one tick -/

/-- The element `balls[i]`; the indices read by the loops are always in range. -/
def deref (balls : List (Ball K)) (i : Nat) : Ball K :=
  balls.getD i ⟨⟨0, 0⟩, ⟨0, 0⟩, 0, 0⟩

/-- The axis-aligned pre-check of both broad phases: `false` when one of the two
`continue` statements is taken. -/
def precheck (a b : Ball K) : Bool :=
  let dx := |a.pos.x - b.pos.x|
  let dy := |a.pos.y - b.pos.y|
  if dx > a.radius + b.radius then false
  else if dy > a.radius + b.radius then false
  else true

/-- The state of the collision phase: the vector `balls` and the trace of the calls
`resolveCollision(balls[i], balls[j])` made so far, as index pairs `(i, j)`. -/
abbrev PhaseState (K : Type) := List (Ball K) × List (Nat × Nat)

/-- One call `res(balls[i], balls[j])` on references: both balls are written back and the
call is recorded. -/
def resolveAt (res : Ball K → Ball K → Ball K × Ball K) (st : PhaseState K) (i j : Nat) :
    PhaseState K :=
  let r := res (deref st.1 i) (deref st.1 j)
  ((st.1.set i r.1).set j r.2, st.2 ++ [(i, j)])

/-- The body of the inner loop of the brute-force broad phase. -/
def bruteStep (res : Ball K → Ball K → Ball K × Ball K) (i : Nat) (st : PhaseState K) (j : Nat) :
    PhaseState K :=
  if precheck (deref st.1 i) (deref st.1 j) then resolveAt res st i j else st

/-- The brute-force broad phase of `main`, with the resolver as a parameter. -/
def bruteForcePhase (res : Ball K → Ball K → Ball K × Ball K) (balls : List (Ball K)) :
    PhaseState K :=
  let n := balls.length
  (List.range n).foldl
    (fun st i => (List.range' (i + 1) (n - (i + 1))).foldl (bruteStep res i) st) (balls, [])

/-- The body of the loop over `candidates` of the quadtree broad phase. -/
def quadStep (res : Ball K → Ball K → Ball K × Ball K) (i : Nat) (st : PhaseState K) (j : Nat) :
    PhaseState K :=
  if j = i then st
  else if j < i then st
  else if precheck (deref st.1 i) (deref st.1 j) then resolveAt res st i j else st

/-- The query region around `a` in the quadtree broad phase. -/
def queryRange (a : Ball K) : AABB K :=
  let r := a.radius + 30
  ⟨a.pos.x - r, a.pos.y - r, r * 2, r * 2⟩

/-- The tree `qt` of the quadtree broad phase after all balls were inserted.  The fuel
`balls.length + 1` covers every insert of the loop (`buildTree_ok`). -/
def buildTree (balls : List (Ball K)) : Option (Quadtree K) :=
  (Quadtree.insertAll (deref balls) (balls.length + 1)
    (Quadtree.leaf ⟨0, 0, worldW, worldH⟩ 6 []) (List.range balls.length)).map Prod.fst

/-- The body of the loop over `i` of the quadtree broad phase. -/
def quadIter (res : Ball K → Ball K → Ball K × Ball K) (qt : Quadtree K) (st : PhaseState K)
    (i : Nat) : PhaseState K :=
  let candidates := qt.query (deref st.1) (queryRange (deref st.1 i)) []
  candidates.foldl (quadStep res i) st

/-- The quadtree broad phase of `main`, with the resolver as a parameter. -/
def quadtreePhase (res : Ball K → Ball K → Ball K × Ball K) (balls : List (Ball K)) :
    Option (PhaseState K) :=
  (buildTree balls).map fun qt => (List.range balls.length).foldl (quadIter res qt) (balls, [])

/-- The resolver that changes nothing: with it a broad phase runs on a fixed body list. -/
def keep (a b : Ball K) : Ball K × Ball K := (a, b)

/-- The centre of the ball lies in the world box `[0, 1000] × [0, 700]`. -/
def InWorld (b : Ball K) : Prop :=
  0 ≤ b.pos.x ∧ b.pos.x ≤ 1000 ∧ 0 ≤ b.pos.y ∧ b.pos.y ≤ 700

/-- The brute-force pass as the spec describes it without its optimisation: every pair
`i < j` goes to the resolver, with no pre-check. -/
def bruteForceNoPrecheck (res : Ball K → Ball K → Ball K × Ball K) (balls : List (Ball K)) :
    PhaseState K :=
  let n := balls.length
  (List.range n).foldl
    (fun st i => (List.range' (i + 1) (n - (i + 1))).foldl (fun st j => resolveAt res st i j) st)
    (balls, [])

/-! ## The fixed-timestep loop of `main` -/

/-- The constant `dt` of `main`: `const float dt = 1.f / 120.f` is the binary32 number
nearest to `1/120`, which is `8947849 / 2^30` and slightly above `1/120`. -/
def dt : K := 8947849 / 1073741824

/-- The body of the integration loop of `main`, for one ball. -/
def integrate (b : Ball K) : Ball K :=
  { b with pos := ⟨b.pos.x + b.vel.x * dt, b.pos.y + b.vel.y * dt⟩ }

/-- The body of `if (!paused) { ... }`: integration, boundary reflection, then the broad
phase selected by `useQuadtree`, calling `resolveCollision`.  The vector `balls` after it
(`none` only if the quadtree build ran out of fuel). -/
def tick (sqrt : K → K) (useQuadtree : Bool) (balls : List (Ball K)) : Option (List (Ball K)) :=
  let balls₁ := balls.map integrate
  let balls₂ := reflectAll balls₁
  if !useQuadtree then some (bruteForcePhase (resolveCollision sqrt) balls₂).1
  else (quadtreePhase (resolveCollision sqrt) balls₂).map Prod.fst

/-- The state of the loop `while (accumulator >= dt)`: the vector `balls`, `accumulator`
and the number of iterations made so far. -/
abbrev LoopState (K : Type) := List (Ball K) × K × Nat

/-- The loop `while (accumulator >= dt) { accumulator -= dt; if (!paused) { ... } }`,
bounded by a fuel argument; `none` means that the fuel ran out. -/
def accumulatorLoop (sqrt : K → K) (paused useQuadtree : Bool) :
    Nat → LoopState K → Option (LoopState K)
  | 0, _ => none
  | fuel + 1, (balls, accumulator, n) =>
    if accumulator ≥ dt then
      let accumulator₁ := accumulator - dt
      if !paused then
        match tick sqrt useQuadtree balls with
        | none => none
        | some balls₁ => accumulatorLoop sqrt paused useQuadtree fuel (balls₁, accumulator₁, n + 1)
      else accumulatorLoop sqrt paused useQuadtree fuel (balls, accumulator₁, n + 1)
    else some (balls, accumulator, n)

/-- One frame of `main` after event polling: the elapsed time of the clock is clamped to
`0.25`, added to the accumulator, and the loop runs.  The result is the vector `balls`, the
accumulator and the number of iterations of the loop in this frame. -/
def frame (sqrt : K → K) (fuel : Nat) (paused useQuadtree : Bool) (elapsed : K)
    (st : List (Ball K) × K) : Option (LoopState K) :=
  let frameTime := if elapsed > 1 / 4 then 1 / 4 else elapsed
  accumulatorLoop sqrt paused useQuadtree fuel (st.1, st.2 + frameTime, 0)

/-- The inputs of one frame: the elapsed time and the two toggles as the event polling of
that frame left them. -/
structure FrameInput (K : Type) where
  elapsed : K
  paused : Bool
  useQuadtree : Bool

/-- A sequence of frames of `main`. -/
def runFrames (sqrt : K → K) (fuel : Nat) :
    List (FrameInput K) → List (Ball K) × K → Option (List (Ball K) × K)
  | [], st => some st
  | inp :: rest, st =>
    match frame sqrt fuel inp.paused inp.useQuadtree inp.elapsed st with
    | none => none
    | some (balls, accumulator, _) => runFrames sqrt fuel rest (balls, accumulator)

/-! ## The quadtree and the broad phases with a rounding after every float operation

As for `resolveCollisionR`: `rnd` follows every `+`, `-`, `*`, `/` of the source; comparisons
and `std::abs` are exact.  With `rnd := round32` these are the binary32 program. -/

/-- The member `AABB::contains`, with rounded operations. -/
def AABB.containsR (rnd : K → K) (bx : AABB K) (b : Ball K) : Bool :=
  decide (b.pos.x ≥ bx.x) && decide (b.pos.x ≤ rnd (bx.x + bx.w)) &&
    decide (b.pos.y ≥ bx.y) && decide (b.pos.y ≤ rnd (bx.y + bx.h))

/-- The member `AABB::intersects`, with rounded operations. -/
def AABB.intersectsR (rnd : K → K) (bx o : AABB K) : Bool :=
  !(decide (o.x > rnd (bx.x + bx.w)) || decide (rnd (o.x + o.w) < bx.x) ||
    decide (o.y > rnd (bx.y + bx.h)) || decide (rnd (o.y + o.h) < bx.y))

namespace Quadtree

/-- The member `subdivide`, with rounded operations. -/
def subdivideR (rnd : K → K) (t : Quadtree K) : Quadtree K :=
  let hw := rnd (t.box.w / 2)
  let hh := rnd (t.box.h / 2)
  split t.box t.capacity t.points
    (leaf ⟨t.box.x, t.box.y, hw, hh⟩ t.capacity [])
    (leaf ⟨rnd (t.box.x + hw), t.box.y, hw, hh⟩ t.capacity [])
    (leaf ⟨t.box.x, rnd (t.box.y + hh), hw, hh⟩ t.capacity [])
    (leaf ⟨rnd (t.box.x + hw), rnd (t.box.y + hh), hw, hh⟩ t.capacity [])

/-- The member `insert`, with rounded operations; the fuel is as for `insert`. -/
def insertR (rnd : K → K) (mem : Nat → Ball K) :
    Nat → Quadtree K → Nat → Option (Bool × Quadtree K)
  | 0, _, _ => none
  | fuel + 1, t, b =>
    if !t.box.containsR rnd (mem b) then some (false, t)
    else if (t.points.length : Int) < t.capacity then some (true, t.pushPoint b)
    else
      match (if !t.divided then t.subdivideR rnd else t) with
      | leaf _ _ _ => none
      | split bx c ps nw ne sw se =>
        match insertR rnd mem fuel nw b with
        | none => none
        | some (true, nw₁) => some (true, split bx c ps nw₁ ne sw se)
        | some (false, nw₁) =>
          match insertR rnd mem fuel ne b with
          | none => none
          | some (true, ne₁) => some (true, split bx c ps nw₁ ne₁ sw se)
          | some (false, ne₁) =>
            match insertR rnd mem fuel sw b with
            | none => none
            | some (true, sw₁) => some (true, split bx c ps nw₁ ne₁ sw₁ se)
            | some (false, sw₁) =>
              match insertR rnd mem fuel se b with
              | none => none
              | some (true, se₁) => some (true, split bx c ps nw₁ ne₁ sw₁ se₁)
              | some (false, se₁) => some (false, split bx c ps nw₁ ne₁ sw₁ se₁)

/-- The member `query`, with rounded operations. -/
def queryR (rnd : K → K) (mem : Nat → Ball K) (range : AABB K) :
    Quadtree K → List Nat → List Nat
  | leaf bx _ ps, out =>
    if !bx.intersectsR rnd range then out
    else out ++ ps.filter fun b => range.containsR rnd (mem b)
  | split bx _ ps nw ne sw se, out =>
    if !bx.intersectsR rnd range then out
    else
      let out₁ := out ++ ps.filter fun b => range.containsR rnd (mem b)
      let out₂ := nw.queryR rnd mem range out₁
      let out₃ := ne.queryR rnd mem range out₂
      let out₄ := sw.queryR rnd mem range out₃
      se.queryR rnd mem range out₄

/-- The loop `for (auto &b : balls) qt.insert(&b)`, with rounded operations: the tree after
the loop and the references for which `insert` returned `true`. -/
def insertAllR (rnd : K → K) (mem : Nat → Ball K) (fuel : Nat) :
    Quadtree K → List Nat → Option (Quadtree K × List Nat)
  | t, [] => some (t, [])
  | t, b :: bs =>
    match t.insertR rnd mem fuel b with
    | none => none
    | some (r, t₁) =>
      match insertAllR rnd mem fuel t₁ bs with
      | none => none
      | some (t₂, acc) => some (t₂, if r then b :: acc else acc)

end Quadtree

/-- The pre-check of both broad phases, with rounded operations. -/
def precheckR (rnd : K → K) (a b : Ball K) : Bool :=
  let dx := |rnd (a.pos.x - b.pos.x)|
  let dy := |rnd (a.pos.y - b.pos.y)|
  if dx > rnd (a.radius + b.radius) then false
  else if dy > rnd (a.radius + b.radius) then false
  else true

/-- The body of the inner loop of the brute-force broad phase, with rounded operations. -/
def bruteStepR (rnd : K → K) (res : Ball K → Ball K → Ball K × Ball K) (i : Nat)
    (st : PhaseState K) (j : Nat) : PhaseState K :=
  if precheckR rnd (deref st.1 i) (deref st.1 j) then resolveAt res st i j else st

/-- The brute-force broad phase of `main`, with rounded operations. -/
def bruteForcePhaseR (rnd : K → K) (res : Ball K → Ball K → Ball K × Ball K)
    (balls : List (Ball K)) : PhaseState K :=
  let n := balls.length
  (List.range n).foldl
    (fun st i => (List.range' (i + 1) (n - (i + 1))).foldl (bruteStepR rnd res i) st) (balls, [])

/-- The body of the loop over `candidates` of the quadtree broad phase, with rounded
operations. -/
def quadStepR (rnd : K → K) (res : Ball K → Ball K → Ball K × Ball K) (i : Nat)
    (st : PhaseState K) (j : Nat) : PhaseState K :=
  if j = i then st
  else if j < i then st
  else if precheckR rnd (deref st.1 i) (deref st.1 j) then resolveAt res st i j else st

/-- The query region around `a` in the quadtree broad phase, with rounded operations. -/
def queryRangeR (rnd : K → K) (a : Ball K) : AABB K :=
  let r := rnd (a.radius + 30)
  ⟨rnd (a.pos.x - r), rnd (a.pos.y - r), rnd (r * 2), rnd (r * 2)⟩

/-- The tree `qt` of the quadtree broad phase after all balls were inserted, with rounded
operations; the fuel is as for `buildTree`. -/
def buildTreeR (rnd : K → K) (balls : List (Ball K)) : Option (Quadtree K) :=
  (Quadtree.insertAllR rnd (deref balls) (balls.length + 1)
    (Quadtree.leaf ⟨0, 0, worldW, worldH⟩ 6 []) (List.range balls.length)).map Prod.fst

/-- The body of the loop over `i` of the quadtree broad phase, with rounded operations. -/
def quadIterR (rnd : K → K) (res : Ball K → Ball K → Ball K × Ball K) (qt : Quadtree K)
    (st : PhaseState K) (i : Nat) : PhaseState K :=
  let candidates := qt.queryR rnd (deref st.1) (queryRangeR rnd (deref st.1 i)) []
  candidates.foldl (quadStepR rnd res i) st

/-- The quadtree broad phase of `main`, with rounded operations. -/
def quadtreePhaseR (rnd : K → K) (res : Ball K → Ball K → Ball K × Ball K)
    (balls : List (Ball K)) : Option (PhaseState K) :=
  (buildTreeR rnd balls).map fun qt =>
    (List.range balls.length).foldl (quadIterR rnd res qt) (balls, [])

/-! ## Concrete data used by the closed statements -/

/-- The first ball of the spec's scenario. -/
def scenarioA : Ball K := ⟨⟨90, 100⟩, ⟨50, 0⟩, 10, 1⟩

/-- The second ball of the spec's scenario. -/
def scenarioB : Ball K := ⟨⟨115, 100⟩, ⟨-50, 0⟩, 10, 1⟩

/-- Two balls of radius 12 far from each other. -/
def farPair : List (Ball K) := [⟨⟨100, 100⟩, ⟨0, 0⟩, 12, 1⟩, ⟨⟨300, 100⟩, ⟨0, 0⟩, 12, 1⟩]

end QuadDefs

/-- The resting ball of radius `r` and mass `1` centred at `(x, y)`, over `ℚ`. -/
def ballAt (x y r : ℚ) : Ball ℚ := ⟨⟨x, y⟩, ⟨0, 0⟩, r, 1⟩

/-- The rounding of binary32: the nearest number with a 24-bit significand, ties to the even
significand.  Exponent range and special values are not modelled: the function agrees with
binary32 for rationals of magnitude in the normal range `[2^-126, 2^128)`. -/
def round32 (q : ℚ) : ℚ :=
  if q = 0 then 0
  else
    let ulp : ℚ := (2 : ℚ) ^ (Int.log 2 |q| - 23)
    let n : ℚ := q / ulp
    let f : ℤ := ⌊n⌋
    if n - f < 1 / 2 then f * ulp
    else if 1 / 2 < n - f then (f + 1) * ulp
    else if f % 2 = 0 then f * ulp else (f + 1) * ulp

/-- A ball of radius `0.1f`, the binary32 number `13421773 / 2^27`, beyond the right wall. -/
def tenthBall : Ball ℚ := ⟨⟨2000, 350⟩, ⟨10, 0⟩, 13421773 / 134217728, 1⟩

/-- Two overlapping balls in the world box, the second of radius 100, above the margin 30. -/
def bigPair : List (Ball ℚ) := [ballAt 100 100 10, ballAt 200 100 100]

/-- Two overlapping balls of radius 12 in the world box. -/
def closePair : List (Ball ℚ) := [ballAt 100 100 12, ballAt 103 104 12]

/-- A ball at the origin moving away from `(3, 4)` with speed 5. -/
def apartA : Ball ℚ := ⟨⟨0, 0⟩, ⟨-3, -4⟩, 3, 1⟩

/-- A ball at `(3, 4)` moving away from the origin with speed 5. -/
def apartB : Ball ℚ := ⟨⟨3, 4⟩, ⟨3, 4⟩, 3, 1⟩

/-- A ball at the origin moving with speed 5 toward `(3, 4)`. -/
def headOnA : Ball ℚ := ⟨⟨0, 0⟩, ⟨3, 4⟩, 3, 1⟩

/-- A ball at `(3, 4)` moving with speed 5 toward the origin. -/
def headOnB : Ball ℚ := ⟨⟨3, 4⟩, ⟨-3, -4⟩, 3, 1⟩

section Theorems

variable {K : Type} [LinearOrderedField K]

/-! ## Facts about `Rat.sqrt` and small helpers -/

theorem ratSqrt_sq (q : ℚ) (hq : 0 ≤ q) : Rat.sqrt (q * q) = q := by
  rw [Rat.sqrt_eq, abs_of_nonneg hq]

theorem ratSqrt_zero : Rat.sqrt 0 = 0 := by
  have h := ratSqrt_sq 0 le_rfl
  rwa [mul_zero] at h

theorem ratSqrt_25 : Rat.sqrt 25 = 5 := by
  have h : (25 : ℚ) = 5 * 5 := by norm_num
  rw [h]
  exact ratSqrt_sq 5 (by norm_num)

theorem ratSqrt_625 : Rat.sqrt 625 = 25 := by
  have h : (625 : ℚ) = 25 * 25 := by norm_num
  rw [h]
  exact ratSqrt_sq 25 (by norm_num)

theorem ratSqrt_offset : Rat.sqrt (1 / 100 * (1 / 100) + 1 / 100 * (1 / 100)) = 1 / 70 := by
  have h : ((1 : ℚ) / 100 * (1 / 100) + 1 / 100 * (1 / 100)) = 1 / 5000 := by norm_num
  rw [h]
  have hn : ((1 : ℚ) / 5000).num = 1 := by norm_num
  have hd : ((1 : ℚ) / 5000).den = 5000 := by norm_num
  have hs : Nat.sqrt 5000 = 70 := by
    symm
    rw [Nat.eq_sqrt]
    norm_num
  have hi : Int.sqrt 1 = 1 := by
    simp [Int.sqrt]
  rw [Rat.sqrt, hn, hd, hs, hi]
  norm_num [Rat.mkRat_eq_div]

theorem len_three_four : len Rat.sqrt (⟨-3, -4⟩ : Vec ℚ) = 5 := by
  have h : ((-3 : ℚ) * -3 + -4 * -4) = 25 := by norm_num
  simp only [len, h]
  exact ratSqrt_25

omit [LinearOrderedField K] in
theorem Vec.eq_iff (u v : Vec K) : u = v ↔ u.x = v.x ∧ u.y = v.y := by
  cases u
  cases v
  simp

theorem sqDist_pos (p q : Vec K) (h : p ≠ q) :
    0 < (p.sub q).x * (p.sub q).x + (p.sub q).y * (p.sub q).y := by
  have hne : p.x - q.x ≠ 0 ∨ p.y - q.y ≠ 0 := by
    by_contra hc
    push_neg at hc
    apply h
    rw [Vec.eq_iff]
    exact ⟨sub_eq_zero.mp hc.1, sub_eq_zero.mp hc.2⟩
  simp only [Vec.sub]
  rcases hne with h1 | h1
  · have := mul_self_pos.mpr h1
    have := mul_self_nonneg (p.y - q.y)
    linarith
  · have := mul_self_pos.mpr h1
    have := mul_self_nonneg (p.x - q.x)
    linarith

theorem len_swap (sqrt : K → K) (p q : Vec K) : len sqrt (q.sub p) = len sqrt (p.sub q) := by
  simp only [len, Vec.sub]
  congr 1
  ring

theorem checkedDiv_of_ne (x y : K) (h : y ≠ 0) : checkedDiv x y = some (x / y) := by
  simp [checkedDiv, h]

theorem len_scenario (sqrt : K → K) (h : sqrt 625 = 25) :
    len sqrt ((scenarioA : Ball K).pos.sub scenarioB.pos) = 25 := by
  have e : ((90 : K) - 115) * (90 - 115) + (100 - 100) * (100 - 100) = 625 := by norm_num
  simp only [len, scenarioA, scenarioB, Vec.sub, e, h]

theorem scenario_unchanged (sqrt : K → K) (h : sqrt 625 = 25) :
    resolveCollision sqrt (scenarioA : Ball K) scenarioB = (scenarioA, scenarioB) := by
  have hl := len_scenario sqrt h
  have hne : len sqrt ((scenarioA : Ball K).pos.sub scenarioB.pos) ≠ 0 := by
    rw [hl]
    norm_num
  have hpen : ¬ ((scenarioA : Ball K).radius + (scenarioB : Ball K).radius
      - len sqrt ((scenarioA : Ball K).pos.sub scenarioB.pos) > 0) := by
    rw [hl]
    norm_num [scenarioA, scenarioB]
  simp only [resolveCollision, if_neg hne, if_neg hpen]

/-! ## C1: no overlap, no effect -/

/-- C1: when the centre distance is at least the sum of the (positive) radii,
`resolveCollision` returns both balls exactly as they were. -/
theorem resolveCollision_no_overlap (sqrt : K → K) (a b : Ball K)
    (hra : 0 < a.radius) (hrb : 0 < b.radius)
    (h : a.radius + b.radius ≤ len sqrt (a.pos.sub b.pos)) :
    resolveCollision sqrt a b = (a, b) := by
  have hne : len sqrt (a.pos.sub b.pos) ≠ 0 := by
    intro h0
    rw [h0] at h
    linarith
  have hpen : ¬ (a.radius + b.radius - len sqrt (a.pos.sub b.pos) > 0) := by
    intro hp
    linarith
  simp only [resolveCollision, if_neg hne, if_neg hpen]

theorem resolveCollision_no_overlap_witness :
    (0 : ℚ) < (ballAt 0 0 2).radius ∧ (0 : ℚ) < (ballAt 3 4 3).radius ∧
      (ballAt 0 0 2).radius + (ballAt 3 4 3).radius
        ≤ len Rat.sqrt ((ballAt 0 0 2).pos.sub (ballAt 3 4 3).pos) ∧
      resolveCollision Rat.sqrt (ballAt 0 0 2) (ballAt 3 4 3)
        = (ballAt 0 0 2, ballAt 3 4 3) := by
  have hl : len Rat.sqrt ((ballAt 0 0 2).pos.sub (ballAt 3 4 3).pos) = 5 := by
    have : (ballAt 0 0 2).pos.sub (ballAt 3 4 3).pos = (⟨-3, -4⟩ : Vec ℚ) := by
      simp [ballAt, Vec.sub]
    rw [this]
    exact len_three_four
  have h1 : (0 : ℚ) < (ballAt 0 0 2).radius := by norm_num [ballAt]
  have h2 : (0 : ℚ) < (ballAt 3 4 3).radius := by norm_num [ballAt]
  have h3 : (ballAt 0 0 2).radius + (ballAt 3 4 3).radius
      ≤ len Rat.sqrt ((ballAt 0 0 2).pos.sub (ballAt 3 4 3).pos) := by
    rw [hl]
    norm_num [ballAt]
  exact ⟨h1, h2, h3, resolveCollision_no_overlap Rat.sqrt _ _ h1 h2 h3⟩

/-! ## C2: the scenario of the spec -/

/-- C2, as the claim states it, fails: in the scenario the first velocity does not become
`(-50, 0)`; the conjunction of the three stated outcomes is false. -/
theorem resolveCollision_scenario_no_flip :
    ¬ ((resolveCollision Rat.sqrt (scenarioA : Ball ℚ) scenarioB).1.vel = ⟨-50, 0⟩ ∧
       (resolveCollision Rat.sqrt (scenarioA : Ball ℚ) scenarioB).2.vel = ⟨50, 0⟩ ∧
       (20 : ℚ) ≤ len Rat.sqrt
        ((resolveCollision Rat.sqrt (scenarioA : Ball ℚ) scenarioB).1.pos.sub
          (resolveCollision Rat.sqrt (scenarioA : Ball ℚ) scenarioB).2.pos)) := by
  rw [scenario_unchanged Rat.sqrt ratSqrt_625]
  rintro ⟨h1, -, -⟩
  have : (50 : ℚ) = -50 := congrArg Vec.x h1
  norm_num at this

/-- C2 (amended): in the scenario the centres are 25 apart, not less than the radius sum 20,
so one `resolveCollision` changes nothing: the velocities stay `(50, 0)` and `(-50, 0)` and
the centre distance stays 25, which is at least 20. -/
theorem resolveCollision_scenario (sqrt : K → K) (h : sqrt 625 = 25) :
    resolveCollision sqrt (scenarioA : Ball K) scenarioB = (scenarioA, scenarioB) ∧
      (resolveCollision sqrt (scenarioA : Ball K) scenarioB).1.vel = ⟨50, 0⟩ ∧
      (resolveCollision sqrt (scenarioA : Ball K) scenarioB).2.vel = ⟨-50, 0⟩ ∧
      len sqrt ((resolveCollision sqrt (scenarioA : Ball K) scenarioB).1.pos.sub
        (resolveCollision sqrt (scenarioA : Ball K) scenarioB).2.pos) = 25 ∧
      (20 : K) ≤ len sqrt ((resolveCollision sqrt (scenarioA : Ball K) scenarioB).1.pos.sub
        (resolveCollision sqrt (scenarioA : Ball K) scenarioB).2.pos) := by
  have hres := scenario_unchanged sqrt h
  have hl := len_scenario sqrt h
  refine ⟨hres, ?_, ?_, ?_, ?_⟩
  · rw [hres]
    rfl
  · rw [hres]
    rfl
  · rw [hres]
    exact hl
  · rw [hres, hl]
    norm_num

theorem resolveCollision_scenario_witness :
    Rat.sqrt 625 = 25 ∧
      resolveCollision Rat.sqrt (scenarioA : Ball ℚ) scenarioB = (scenarioA, scenarioB) :=
  ⟨ratSqrt_625, (resolveCollision_scenario Rat.sqrt ratSqrt_625).1⟩

/-! ## C3: head-on collision of equal masses -/

/-- C3: two overlapping, non-coincident balls of equal positive mass with velocities `v * u`
and `-v * u`, `v ≥ 0`, `u` the unit vector from `a` toward `b`, exchange their velocities in
one `resolveCollision`, when `std::sqrt` is exact at the squared centre distance. -/
theorem resolveCollision_head_on (sqrt : K → K) (a b : Ball K) (v : K)
    (hex : SqrtExactAt sqrt ((a.pos.sub b.pos).x * (a.pos.sub b.pos).x
      + (a.pos.sub b.pos).y * (a.pos.sub b.pos).y))
    (hnc : a.pos ≠ b.pos)
    (hov : len sqrt (a.pos.sub b.pos) < a.radius + b.radius)
    (hm : a.mass = b.mass) (hmp : 0 < a.mass) (hv : 0 ≤ v)
    (hva : a.vel = ((b.pos.sub a.pos).div (len sqrt (b.pos.sub a.pos))).mul v)
    (hvb : b.vel = ((b.pos.sub a.pos).div (len sqrt (b.pos.sub a.pos))).mul (-v)) :
    (resolveCollision sqrt a b).1.vel = b.vel ∧ (resolveCollision sqrt a b).2.vel = a.vel := by
  have hs := sqDist_pos a.pos b.pos hnc
  obtain ⟨hd0, hdd⟩ := hex
  rw [len_swap sqrt a.pos b.pos] at hva hvb
  have hlen : len sqrt (a.pos.sub b.pos) = sqrt ((a.pos.sub b.pos).x * (a.pos.sub b.pos).x
      + (a.pos.sub b.pos).y * (a.pos.sub b.pos).y) := rfl
  set d := len sqrt (a.pos.sub b.pos) with hd
  rw [← hlen] at hd0 hdd
  have hdne : d ≠ 0 := by
    intro h0
    rw [h0] at hdd
    simp only [mul_zero] at hdd
    rw [← hdd] at hs
    exact lt_irrefl _ hs
  have hdpos : 0 < d := lt_of_le_of_ne hd0 (Ne.symm hdne)
  have hpen : a.radius + b.radius - d > 0 := by linarith
  have hmb : b.mass ≠ 0 := by rw [← hm]; exact ne_of_gt hmp
  have hma : a.mass ≠ 0 := ne_of_gt hmp
  obtain ⟨⟨ax, ay⟩, ⟨avx, avy⟩, ar, am⟩ := a
  obtain ⟨⟨bx, by_⟩, ⟨bvx, bvy⟩, br, bm⟩ := b
  simp only [Vec.sub, Vec.div, Vec.mul, Vec.mk.injEq] at hva hvb hdd hm hma hmb
  obtain ⟨hvax, hvay⟩ := hva
  obtain ⟨hvbx, hvby⟩ := hvb
  subst hm
  have hvan : dot (Vec.sub (⟨avx, avy⟩ : Vec K) ⟨bvx, bvy⟩) (Vec.div (Vec.sub ⟨ax, ay⟩ ⟨bx, by_⟩) d)
      = -(2 * v) := by
    simp only [dot, Vec.sub, Vec.div, hvax, hvay, hvbx, hvby]
    field_simp
    linear_combination (2 * v) * hdd
  have hnot : ¬ (-(2 * v) > 0) := by
    intro h; linarith
  simp only [resolveCollision, ← hd, if_neg hdne, if_pos hpen, if_neg hnot, hvan]
  simp only [Vec.sub, Vec.div, Vec.mul, Vec.add, Vec.mk.injEq, hvax, hvay, hvbx, hvby]
  refine ⟨⟨?_, ?_⟩, ⟨?_, ?_⟩⟩ <;> field_simp <;> ring

theorem resolveCollision_head_on_witness :
    (resolveCollision Rat.sqrt headOnA headOnB).1.vel = headOnB.vel ∧
      (resolveCollision Rat.sqrt headOnA headOnB).2.vel = headOnA.vel := by
  have hs : (headOnA.pos.sub headOnB.pos).x * (headOnA.pos.sub headOnB.pos).x
      + (headOnA.pos.sub headOnB.pos).y * (headOnA.pos.sub headOnB.pos).y = 25 := by
    norm_num [headOnA, headOnB, Vec.sub]
  have hl : len Rat.sqrt (headOnA.pos.sub headOnB.pos) = 5 := by
    simp only [len, hs, ratSqrt_25]
  have hl2 : len Rat.sqrt (headOnB.pos.sub headOnA.pos) = 5 := by
    rw [len_swap]
    exact hl
  apply resolveCollision_head_on Rat.sqrt headOnA headOnB 5
  · rw [hs, SqrtExactAt, ratSqrt_25]
    norm_num
  · intro h
    have : (0 : ℚ) = 3 := congrArg Vec.x h
    norm_num at this
  · rw [hl]
    norm_num [headOnA, headOnB]
  · rfl
  · norm_num [headOnA]
  · norm_num
  · rw [hl2]
    norm_num [headOnA, headOnB, Vec.sub, Vec.div, Vec.mul]
  · rw [hl2]
    norm_num [headOnA, headOnB, Vec.sub, Vec.div, Vec.mul]

/-! ## C4: coincident centres -/

/-- C4: for two balls at the same position with equal velocities, positive masses and a
radius sum above the length of the substituted offset `(0.01, 0.01)`, no division of
`resolveCollision` has a zero divisor (the checked run succeeds with the same result; the
divisor `dist` is the non-zero length of the offset and `1/a.mass + 1/b.mass` is non-zero),
the resulting positions differ, and both velocities are unchanged.  Of `std::sqrt` only
`sqrt 0 = 0` and `sqrt 0.0002 ≠ 0` are used. -/
theorem resolveCollision_coincident (sqrt : K → K) (a b : Ball K)
    (hs0 : sqrt 0 = 0)
    (hoff : sqrt (1 / 100 * (1 / 100) + 1 / 100 * (1 / 100)) ≠ 0)
    (hpos : a.pos = b.pos) (hvel : a.vel = b.vel)
    (hma : 0 < a.mass) (hmb : 0 < b.mass)
    (hr : len sqrt ⟨1 / 100, 1 / 100⟩ < a.radius + b.radius) :
    resolveCollisionChecked sqrt a b = some (resolveCollision sqrt a b) ∧
      len sqrt ⟨1 / 100, 1 / 100⟩ ≠ 0 ∧ 1 / a.mass + 1 / b.mass ≠ 0 ∧
      (resolveCollision sqrt a b).1.pos ≠ (resolveCollision sqrt a b).2.pos ∧
      (resolveCollision sqrt a b).1.vel = a.vel ∧ (resolveCollision sqrt a b).2.vel = b.vel := by
  have hd0 : len sqrt (a.pos.sub b.pos) = 0 := by
    simp only [len, Vec.sub, hpos, sub_self, mul_zero, add_zero, hs0]
  have hlen : len sqrt (⟨1 / 100, 1 / 100⟩ : Vec K) ≠ 0 := hoff
  set d := len sqrt (⟨1 / 100, 1 / 100⟩ : Vec K) with hd
  have hpen : a.radius + b.radius - d > 0 := by linarith
  have hma' : a.mass ≠ 0 := ne_of_gt hma
  have hmb' : b.mass ≠ 0 := ne_of_gt hmb
  have htot : a.mass + b.mass ≠ 0 := ne_of_gt (add_pos hma hmb)
  have hinv : 1 / a.mass + 1 / b.mass ≠ 0 :=
    ne_of_gt (add_pos (one_div_pos.mpr hma) (one_div_pos.mpr hmb))
  have hvan : dot (a.vel.sub b.vel) ((⟨1 / 100, 1 / 100⟩ : Vec K).div d) = 0 := by
    simp only [dot, Vec.sub, hvel, sub_self, zero_mul, add_zero]
  have hvan' : dot (a.vel.sub b.vel) (⟨1 / 100 / d, 1 / 100 / d⟩ : Vec K) = 0 := hvan
  have hnot : ¬ ((0 : K) > 0) := lt_irrefl 0
  refine ⟨?_, hlen, hinv, ?_, ?_, ?_⟩
  · simp only [resolveCollisionChecked, resolveCollision, hd0, if_true, ← hd, if_pos hpen,
      checkedDiv_of_ne _ _ hlen, checkedDiv_of_ne _ _ htot, checkedDiv_of_ne _ _ hma',
      checkedDiv_of_ne _ _ hmb', checkedDiv_of_ne _ _ hinv, Option.bind_some, Option.some_bind,
      Vec.div, hvan', if_neg hnot]
  · simp only [resolveCollision, hd0, if_true, ← hd, if_pos hpen, hvan, if_neg hnot]
    intro heq
    have hx := congrArg Vec.x heq
    simp only [Vec.add, Vec.sub, Vec.mul, Vec.div, hpos] at hx
    have hfa : 0 < a.mass / (a.mass + b.mass) := div_pos hma (add_pos hma hmb)
    have hfb : 0 < b.mass / (a.mass + b.mass) := div_pos hmb (add_pos hma hmb)
    have hq : (1 / 100 / d) * ((a.radius + b.radius - d) * (b.mass / (a.mass + b.mass)) * (1 / 2)
        + (a.radius + b.radius - d) * (a.mass / (a.mass + b.mass)) * (1 / 2)) = 0 := by
      linear_combination hx
    have hq1 : (1 : K) / 100 / d ≠ 0 := by
      apply div_ne_zero _ hlen
      norm_num
    have hq2 : 0 < (a.radius + b.radius - d) * (b.mass / (a.mass + b.mass)) * (1 / 2)
        + (a.radius + b.radius - d) * (a.mass / (a.mass + b.mass)) * (1 / 2) := by
      have h1 : 0 < (a.radius + b.radius - d) * (b.mass / (a.mass + b.mass)) * (1 / 2) :=
        mul_pos (mul_pos hpen hfb) (by norm_num)
      have h2 : 0 < (a.radius + b.radius - d) * (a.mass / (a.mass + b.mass)) * (1 / 2) :=
        mul_pos (mul_pos hpen hfa) (by norm_num)
      linarith
    rcases mul_eq_zero.mp hq with h | h
    · exact hq1 h
    · exact (ne_of_gt hq2) h
  · simp only [resolveCollision, hd0, if_true, ← hd, if_pos hpen, hvan, if_neg hnot]
    simp [Vec.add, Vec.mul]
  · simp only [resolveCollision, hd0, if_true, ← hd, if_pos hpen, hvan, if_neg hnot]
    simp [Vec.sub, Vec.mul]

theorem resolveCollision_coincident_witness :
    resolveCollisionChecked Rat.sqrt (ballAt 100 100 10) (ballAt 100 100 10)
        = some (resolveCollision Rat.sqrt (ballAt 100 100 10) (ballAt 100 100 10)) ∧
      (resolveCollision Rat.sqrt (ballAt 100 100 10) (ballAt 100 100 10)).1.pos
        ≠ (resolveCollision Rat.sqrt (ballAt 100 100 10) (ballAt 100 100 10)).2.pos := by
  have hoff : Rat.sqrt (1 / 100 * (1 / 100) + 1 / 100 * (1 / 100)) ≠ 0 := by
    rw [ratSqrt_offset]
    norm_num
  have hr : len Rat.sqrt ⟨1 / 100, 1 / 100⟩
      < (ballAt 100 100 10).radius + (ballAt 100 100 10).radius := by
    simp only [len, ratSqrt_offset, ballAt]
    norm_num
  have h := resolveCollision_coincident Rat.sqrt (ballAt 100 100 10) (ballAt 100 100 10)
    ratSqrt_zero hoff rfl rfl (by norm_num [ballAt]) (by norm_num [ballAt]) hr
  exact ⟨h.1, h.2.2.2.1⟩

/-! ## C5: boundary containment -/

/-- C5 (amended): in exact arithmetic, after the boundary-reflection loop every ball with
`2 * radius ≤ 700` has its centre in `[radius, 1000 - radius] × [radius, 700 - radius]`, for
any position and velocity (the radius is unchanged by the loop; its positivity is not
needed). -/
theorem reflect_within_world (balls : List (Ball K)) (i : Nat) (b : Ball K)
    (hb : balls[i]? = some b) (h2 : 2 * b.radius ≤ 700) :
    ∃ b₁, (reflectAll balls)[i]? = some b₁ ∧ b₁.radius = b.radius ∧
      b.radius ≤ b₁.pos.x ∧ b₁.pos.x ≤ 1000 - b.radius ∧
      b.radius ≤ b₁.pos.y ∧ b₁.pos.y ≤ 700 - b.radius := by
  refine ⟨reflect b, ?_, ?_⟩
  · simp [reflectAll, hb]
  · simp only [reflect, worldW, worldH]
    split_ifs <;> refine ⟨rfl, ?_, ?_, ?_, ?_⟩ <;> simp only [] at * <;> linarith

theorem reflect_within_world_witness :
    ∃ b₁, (reflectAll [ballAt (-5) 900 12])[0]? = some b₁ ∧ b₁.radius = (ballAt (-5) 900 12).radius ∧
      (ballAt (-5) 900 12).radius ≤ b₁.pos.x ∧ b₁.pos.x ≤ 1000 - (ballAt (-5) 900 12).radius ∧
      (ballAt (-5) 900 12).radius ≤ b₁.pos.y ∧ b₁.pos.y ≤ 700 - (ballAt (-5) 900 12).radius :=
  reflect_within_world [ballAt (-5) 900 12] 0 (ballAt (-5) 900 12) rfl (by norm_num [ballAt])

/-! ## Quadtree: boxes, well-formedness, `query` and `insert` -/

theorem AABB.contains_iff (bx : AABB K) (b : Ball K) :
    bx.contains b = true ↔
      bx.x ≤ b.pos.x ∧ b.pos.x ≤ bx.x + bx.w ∧ bx.y ≤ b.pos.y ∧ b.pos.y ≤ bx.y + bx.h := by
  simp only [AABB.contains, Bool.and_eq_true, decide_eq_true_eq, ge_iff_le, and_assoc]

theorem AABB.intersects_iff (bx o : AABB K) :
    bx.intersects o = true ↔
      o.x ≤ bx.x + bx.w ∧ bx.x ≤ o.x + o.w ∧ o.y ≤ bx.y + bx.h ∧ bx.y ≤ o.y + o.h := by
  simp only [AABB.intersects, Bool.not_eq_true', Bool.or_eq_false_iff, decide_eq_false_iff_not,
    not_lt, gt_iff_lt, and_assoc]

theorem AABB.intersects_of_contains (bx o : AABB K) (b : Ball K)
    (h1 : bx.contains b = true) (h2 : o.contains b = true) : bx.intersects o = true := by
  rw [AABB.contains_iff] at h1 h2
  rw [AABB.intersects_iff]
  obtain ⟨a1, a2, a3, a4⟩ := h1
  obtain ⟨c1, c2, c3, c4⟩ := h2
  exact ⟨le_trans c1 a2, le_trans a1 c2, le_trans c3 a4, le_trans a3 c4⟩

/-- A box sitting on a quadrant of `bx` only contains points of `bx`. -/
theorem AABB.contains_of_quadrant (bx q : AABB K) (b : Ball K)
    (hq : q = ⟨bx.x, bx.y, bx.w / 2, bx.h / 2⟩ ∨ q = ⟨bx.x + bx.w / 2, bx.y, bx.w / 2, bx.h / 2⟩ ∨
      q = ⟨bx.x, bx.y + bx.h / 2, bx.w / 2, bx.h / 2⟩ ∨
      q = ⟨bx.x + bx.w / 2, bx.y + bx.h / 2, bx.w / 2, bx.h / 2⟩)
    (h : q.contains b = true) : bx.contains b = true := by
  rw [AABB.contains_iff] at h ⊢
  rcases hq with rfl | rfl | rfl | rfl <;> simp only at h <;> obtain ⟨a1, a2, a3, a4⟩ := h <;>
    refine ⟨?_, ?_, ?_, ?_⟩ <;> linarith

/-- Every point of `bx` lies in one of the four quadrant boxes. -/
theorem AABB.quadrant_cover (bx : AABB K) (b : Ball K) (h : bx.contains b = true) :
    (⟨bx.x, bx.y, bx.w / 2, bx.h / 2⟩ : AABB K).contains b = true ∨
    (⟨bx.x + bx.w / 2, bx.y, bx.w / 2, bx.h / 2⟩ : AABB K).contains b = true ∨
    (⟨bx.x, bx.y + bx.h / 2, bx.w / 2, bx.h / 2⟩ : AABB K).contains b = true ∨
    (⟨bx.x + bx.w / 2, bx.y + bx.h / 2, bx.w / 2, bx.h / 2⟩ : AABB K).contains b = true := by
  simp only [AABB.contains_iff] at h ⊢
  obtain ⟨a1, a2, a3, a4⟩ := h
  rcases le_total b.pos.x (bx.x + bx.w / 2) with hx | hx <;>
    rcases le_total b.pos.y (bx.y + bx.h / 2) with hy | hy
  · exact Or.inl ⟨a1, hx, a3, hy⟩
  · exact Or.inr (Or.inr (Or.inl ⟨a1, hx, hy, by linarith⟩))
  · exact Or.inr (Or.inl ⟨hx, by linarith, a3, hy⟩)
  · exact Or.inr (Or.inr (Or.inr ⟨hx, by linarith, hy, by linarith⟩))

namespace Quadtree

theorem Inv.box_contains (mem : Nat → Ball K) (cap : Int) :
    ∀ t : Quadtree K, t.Inv mem cap → ∀ p ∈ t.allPoints, t.box.contains (mem p) = true
  | leaf bx c ps, h, p, hp => h.2.2 p hp
  | split bx c ps nw ne sw se, h, p, hp => by
    obtain ⟨-, -, hps, b1, b2, b3, b4, i1, i2, i3, i4⟩ := h
    simp only [allPoints, List.mem_append] at hp
    simp only [box]
    rcases hp with (((hp | hp) | hp) | hp) | hp
    · exact hps p hp
    · have := Inv.box_contains mem cap nw i1 p hp
      rw [b1] at this
      exact AABB.contains_of_quadrant bx _ _ (Or.inl rfl) this
    · have := Inv.box_contains mem cap ne i2 p hp
      rw [b2] at this
      exact AABB.contains_of_quadrant bx _ _ (Or.inr (Or.inl rfl)) this
    · have := Inv.box_contains mem cap sw i3 p hp
      rw [b3] at this
      exact AABB.contains_of_quadrant bx _ _ (Or.inr (Or.inr (Or.inl rfl))) this
    · have := Inv.box_contains mem cap se i4 p hp
      rw [b4] at this
      exact AABB.contains_of_quadrant bx _ _ (Or.inr (Or.inr (Or.inr rfl))) this

theorem filter_nil_of_disjoint (mem : Nat → Ball K) (bx range : AABB K) (ps : List Nat)
    (hps : ∀ p ∈ ps, bx.contains (mem p) = true) (hni : bx.intersects range = false) :
    ps.filter (fun b => range.contains (mem b)) = [] := by
  rw [List.filter_eq_nil_iff]
  intro p hp hc
  have := AABB.intersects_of_contains bx range (mem p) (hps p hp) hc
  rw [hni] at this
  exact Bool.false_ne_true this

/-- On a well-formed tree, `query` appends exactly the stored references whose centre is in
the region, in the order node, `nw`, `ne`, `sw`, `se`. -/
theorem query_eq_filter (mem : Nat → Ball K) (cap : Int) (range : AABB K) :
    ∀ (t : Quadtree K), t.Inv mem cap → ∀ out : List Nat,
      t.query mem range out = out ++ t.allPoints.filter (fun b => range.contains (mem b))
  | leaf bx c ps, h, out => by
    simp only [query, allPoints]
    cases hi : bx.intersects range
    · simp [filter_nil_of_disjoint mem bx range ps h.2.2 hi]
    · simp
  | split bx c ps nw ne sw se, h, out => by
    have hall := Inv.box_contains mem cap _ h
    obtain ⟨-, -, hps, b1, b2, b3, b4, i1, i2, i3, i4⟩ := h
    simp only [query, allPoints]
    cases hi : bx.intersects range
    · have := filter_nil_of_disjoint mem bx range
        (ps ++ nw.allPoints ++ ne.allPoints ++ sw.allPoints ++ se.allPoints) hall hi
      rw [this]
      simp
    · simp only [Bool.not_true, Bool.false_eq_true, if_false]
      rw [query_eq_filter mem cap range se i4, query_eq_filter mem cap range sw i3,
        query_eq_filter mem cap range ne i2, query_eq_filter mem cap range nw i1]
      simp only [List.filter_append, List.append_assoc]

/-- Whatever the memory, `query` appends a sublist of the stored references. -/
theorem query_sublist (mem : Nat → Ball K) (range : AABB K) :
    ∀ (t : Quadtree K) (out : List Nat),
      ∃ L, t.query mem range out = out ++ L ∧ L.Sublist t.allPoints
  | leaf bx c ps, out => by
    simp only [query, allPoints]
    cases hi : bx.intersects range
    · exact ⟨[], by simp, List.nil_sublist _⟩
    · exact ⟨ps.filter fun b => range.contains (mem b), by simp, List.filter_sublist _⟩
  | split bx c ps nw ne sw se, out => by
    simp only [query, allPoints]
    cases hi : bx.intersects range
    · exact ⟨[], by simp, List.nil_sublist _⟩
    · simp only [Bool.not_true, Bool.false_eq_true, if_false]
      obtain ⟨L1, e1, s1⟩ := query_sublist mem range nw
        (out ++ ps.filter fun b => range.contains (mem b))
      rw [e1]
      obtain ⟨L2, e2, s2⟩ := query_sublist mem range ne
        (out ++ (ps.filter fun b => range.contains (mem b)) ++ L1)
      rw [e2]
      obtain ⟨L3, e3, s3⟩ := query_sublist mem range sw
        (out ++ (ps.filter fun b => range.contains (mem b)) ++ L1 ++ L2)
      rw [e3]
      obtain ⟨L4, e4, s4⟩ := query_sublist mem range se
        (out ++ (ps.filter fun b => range.contains (mem b)) ++ L1 ++ L2 ++ L3)
      rw [e4]
      refine ⟨(ps.filter fun b => range.contains (mem b)) ++ L1 ++ L2 ++ L3 ++ L4, ?_, ?_⟩
      · simp only [List.append_assoc]
      · exact ((((List.filter_sublist _).append s1).append s2).append s3).append s4

omit [LinearOrderedField K] in
theorem perm_of_part (X Y : List Nat) (b : Nat)
    (h : ∀ a, X.count a = (b :: Y).count a) : X.Perm (b :: Y) :=
  List.perm_iff_count.mpr h

theorem insert_fresh (mem : Nat → Ball K) (cap : Int) (hcap : 1 ≤ cap) (b f : Nat)
    (bx : AABB K) : InsOK mem cap b 0 (f + 1) (leaf bx cap []) := by
  unfold InsOK
  cases hc : bx.contains (mem b)
  · exact ⟨leaf bx cap [], by simp [insert, box, hc], fun _ => rfl, fun h => by simp [box, hc] at h⟩
  · have hlt : ((([] : List Nat).length : Int) < cap) := by
      simp only [List.length_nil, Nat.cast_zero]
      omega
    refine ⟨leaf bx cap [b], ?_, ?_, ?_⟩
    · simp only [insert, box, hc, points, capacity, hlt, pushPoint]
      simp
    · intro h
      simp [box, hc] at h
    · intro _
      refine ⟨⟨rfl, ?_, ?_⟩, rfl, le_refl _, ?_⟩
      · simp only [List.length_singleton, Nat.cast_one]
        exact hcap
      · intro p hp
        simp only [List.mem_singleton] at hp
        rw [hp]
        exact hc
      · simp [allPoints]

theorem insert_cascade (mem : Nat → Ball K) (cap : Int) (b g f : Nat) (T : Quadtree K)
    (bx : AABB K) (c : Int) (ps : List Nat) (nw ne sw se : Quadtree K)
    (hc : T.box.contains (mem b) = true)
    (hfull : ¬ ((T.points.length : Int) < T.capacity))
    (hT : (if (!T.divided) = true then T.subdivide else T) = split bx c ps nw ne sw se)
    (hbx : T.box = bx)
    (hInv : (split bx c ps nw ne sw se).Inv mem cap)
    (h1 : InsOK mem cap b g f nw) (h2 : InsOK mem cap b g f ne)
    (h3 : InsOK mem cap b g f sw) (h4 : InsOK mem cap b g f se) :
    ∃ t₁, T.insert mem (f + 1) b = some (true, t₁) ∧ t₁.Inv mem cap ∧ t₁.box = bx ∧
      t₁.height ≤ (split bx c ps nw ne sw se).height + g ∧
      t₁.allPoints.Perm (b :: (split bx c ps nw ne sw se).allPoints) := by
  obtain ⟨e1, e2, hps, b1, b2, b3, b4, i1, i2, i3, i4⟩ := hInv
  obtain ⟨nw₁, hn1, hf1, ht1⟩ := h1
  obtain ⟨ne₁, hn2, hf2, ht2⟩ := h2
  obtain ⟨sw₁, hn3, hf3, ht3⟩ := h3
  obtain ⟨se₁, hn4, hf4, ht4⟩ := h4
  rw [hbx] at hc
  have hcov := AABB.quadrant_cover bx (mem b) hc
  rw [← b1, ← b2, ← b3, ← b4] at hcov
  have hins : T.insert mem (f + 1) b =
      match split bx c ps nw ne sw se with
      | leaf _ _ _ => none
      | split bx c ps nw ne sw se =>
        match insert mem f nw b with
        | none => none
        | some (true, nw₁) => some (true, split bx c ps nw₁ ne sw se)
        | some (false, nw₁) =>
          match insert mem f ne b with
          | none => none
          | some (true, ne₁) => some (true, split bx c ps nw₁ ne₁ sw se)
          | some (false, ne₁) =>
            match insert mem f sw b with
            | none => none
            | some (true, sw₁) => some (true, split bx c ps nw₁ ne₁ sw₁ se)
            | some (false, sw₁) =>
              match insert mem f se b with
              | none => none
              | some (true, se₁) => some (true, split bx c ps nw₁ ne₁ sw₁ se₁)
              | some (false, se₁) => some (false, split bx c ps nw₁ ne₁ sw₁ se₁) := by
    rw [← hT]
    simp only [insert, hbx, hc, hfull, Bool.not_true, Bool.false_eq_true, if_false]
  rw [hins]
  simp only []
  cases c1 : nw.box.contains (mem b)
  · rw [c1] at hn1
    have := hf1 c1
    subst this
    rw [hn1]
    simp only []
    cases c2 : ne.box.contains (mem b)
    · rw [c2] at hn2
      have := hf2 c2
      subst this
      rw [hn2]
      simp only []
      cases c3 : sw.box.contains (mem b)
      · rw [c3] at hn3
        have := hf3 c3
        subst this
        rw [hn3]
        simp only []
        cases c4 : se.box.contains (mem b)
        · simp [c1, c2, c3, c4] at hcov
        · rw [c4] at hn4
          obtain ⟨j, jb, jh, jp⟩ := ht4 c4
          rw [hn4]
          refine ⟨_, rfl, ⟨e1, e2, hps, b1, b2, b3, jb.trans b4, i1, i2, i3, j⟩, rfl, ?_, ?_⟩
          · simp only [height]
            omega
          · exact perm_of_part _ _ _ (by simp only [allPoints]; intro a; have := List.perm_iff_count.mp jp a; simp only [List.count_append, List.count_cons] at this ⊢; omega)
      · rw [c3] at hn3
        obtain ⟨j, jb, jh, jp⟩ := ht3 c3
        rw [hn3]
        refine ⟨_, rfl, ⟨e1, e2, hps, b1, b2, jb.trans b3, b4, i1, i2, j, i4⟩, rfl, ?_, ?_⟩
        · simp only [height]
          omega
        · exact perm_of_part _ _ _ (by simp only [allPoints]; intro a; have := List.perm_iff_count.mp jp a; simp only [List.count_append, List.count_cons] at this ⊢; omega)
    · rw [c2] at hn2
      obtain ⟨j, jb, jh, jp⟩ := ht2 c2
      rw [hn2]
      refine ⟨_, rfl, ⟨e1, e2, hps, b1, jb.trans b2, b3, b4, i1, j, i3, i4⟩, rfl, ?_, ?_⟩
      · simp only [height]
        omega
      · exact perm_of_part _ _ _ (by simp only [allPoints]; intro a; have := List.perm_iff_count.mp jp a; simp only [List.count_append, List.count_cons] at this ⊢; omega)
  · rw [c1] at hn1
    obtain ⟨j, jb, jh, jp⟩ := ht1 c1
    rw [hn1]
    refine ⟨_, rfl, ⟨e1, e2, hps, jb.trans b1, b2, b3, b4, j, i2, i3, i4⟩, rfl, ?_, ?_⟩
    · simp only [height]
      omega
    · exact perm_of_part _ _ _ (by simp only [allPoints]; intro a; have := List.perm_iff_count.mp jp a; simp only [List.count_append, List.count_cons] at this ⊢; omega)

/-- With capacity at least 1 and fuel above the height, `insert` into a well-formed tree
returns, and returns whether the box contains the centre. -/
theorem insert_ok (mem : Nat → Ball K) (cap : Int) (hcap : 1 ≤ cap) (b : Nat) :
    ∀ (t : Quadtree K), t.Inv mem cap → ∀ fuel, t.height + 1 ≤ fuel → InsOK mem cap b 1 fuel t
  | leaf bx c ps, hInv, fuel, hfuel => by
    obtain ⟨rfl, hlen, hps⟩ := hInv
    obtain ⟨f, rfl⟩ : ∃ f, fuel = f + 1 := ⟨fuel - 1, by simp only [height] at hfuel; omega⟩
    obtain ⟨f₁, rfl⟩ : ∃ f₁, f = f₁ + 1 := ⟨f - 1, by simp only [height] at hfuel; omega⟩
    cases hc : bx.contains (mem b)
    · exact ⟨leaf bx c ps, by simp [insert, box, hc], fun _ => rfl, fun h => by simp [box, hc] at h⟩
    · by_cases hlt : (ps.length : Int) < c
      · refine ⟨leaf bx c (ps ++ [b]), ?_, ?_, ?_⟩
        · simp [insert, box, hc, points, capacity, hlt, pushPoint]
        · intro h
          simp [box, hc] at h
        · intro _
          refine ⟨⟨rfl, ?_, ?_⟩, rfl, Nat.le_succ _, ?_⟩
          · simp only [List.length_append, List.length_singleton, Nat.cast_add, Nat.cast_one]
            omega
          · intro p hp
            simp only [List.mem_append, List.mem_singleton] at hp
            rcases hp with hp | hp
            · exact hps p hp
            · rw [hp]
              exact hc
          · simp only [allPoints]
            exact List.perm_append_singleton b ps
      · have hfull : (ps.length : Int) = c := by omega
        have hsub : (leaf bx c ps).subdivide.Inv mem c :=
          ⟨rfl, hfull, hps, rfl, rfl, rfl, rfl,
            ⟨rfl, by simp only [List.length_nil, Nat.cast_zero]; omega, fun p hp => by simp at hp⟩,
            ⟨rfl, by simp only [List.length_nil, Nat.cast_zero]; omega, fun p hp => by simp at hp⟩,
            ⟨rfl, by simp only [List.length_nil, Nat.cast_zero]; omega, fun p hp => by simp at hp⟩,
            ⟨rfl, by simp only [List.length_nil, Nat.cast_zero]; omega, fun p hp => by simp at hp⟩⟩
        obtain ⟨t₁, h1, h2, h3, h4, h5⟩ := insert_cascade mem c b 0 (f₁ + 1) (leaf bx c ps)
          bx c ps _ _ _ _ hc hlt rfl rfl hsub
          (insert_fresh mem c hcap b f₁ _) (insert_fresh mem c hcap b f₁ _)
          (insert_fresh mem c hcap b f₁ _) (insert_fresh mem c hcap b f₁ _)
        refine ⟨t₁, ?_, ?_, ?_⟩
        · simp only [box, hc]
          exact h1
        · intro h
          simp [box, hc] at h
        · intro _
          refine ⟨h2, h3, ?_, ?_⟩
          · simp only [height] at h4 ⊢
            omega
          · refine h5.trans ?_
            simp [allPoints]
  | split bx c ps nw ne sw se, hInv, fuel, hfuel => by
    obtain ⟨f, rfl⟩ : ∃ f, fuel = f + 1 := ⟨fuel - 1, by simp only [height] at hfuel; omega⟩
    cases hc : bx.contains (mem b)
    · exact ⟨split bx c ps nw ne sw se, by simp [insert, box, hc], fun _ => rfl,
        fun h => by simp [box, hc] at h⟩
    · have hInv₀ := hInv
      obtain ⟨rfl, hlen, hps, b1, b2, b3, b4, i1, i2, i3, i4⟩ := hInv
      have hlt : ¬ ((ps.length : Int) < c) := by omega
      simp only [height] at hfuel
      obtain ⟨t₁, h1, h2, h3, h4, h5⟩ := insert_cascade mem c b 1 f (split bx c ps nw ne sw se)
        bx c ps nw ne sw se hc hlt rfl rfl hInv₀
        (insert_ok mem c hcap b nw i1 f (by omega)) (insert_ok mem c hcap b ne i2 f (by omega))
        (insert_ok mem c hcap b sw i3 f (by omega)) (insert_ok mem c hcap b se i4 f (by omega))
      refine ⟨t₁, ?_, ?_, ?_⟩
      · simp only [box, hc]
        exact h1
      · intro h
        simp [box, hc] at h
      · intro _
        exact ⟨h2, h3, h4, h5⟩

/-- The loop of inserts from a well-formed tree returns when the fuel covers the final
height; the accepted references are those whose centre is in the box, and the stored
references are the old ones plus the accepted ones. -/
theorem insertAll_ok (mem : Nat → Ball K) (cap : Int) (hcap : 1 ≤ cap) (fuel : Nat) :
    ∀ (bs : List Nat) (t : Quadtree K), t.Inv mem cap → t.height + bs.length ≤ fuel →
      ∃ t₁, insertAll mem fuel t bs
          = some (t₁, bs.filter fun b => t.box.contains (mem b)) ∧
        t₁.Inv mem cap ∧ t₁.box = t.box ∧ t₁.height ≤ t.height + bs.length ∧
        t₁.allPoints.Perm (t.allPoints ++ bs.filter fun b => t.box.contains (mem b))
  | [], t, hInv, _ => ⟨t, by simp [insertAll], hInv, rfl, by simp, by simp⟩
  | b :: bs, t, hInv, hfuel => by
    simp only [List.length_cons] at hfuel
    obtain ⟨t₁, h1, h2, h3⟩ := insert_ok mem cap hcap b t hInv fuel (by omega)
    cases hc : t.box.contains (mem b)
    · have := h2 hc
      subst this
      obtain ⟨t₂, g1, g2, g3, g4, g5⟩ := insertAll_ok mem cap hcap fuel bs t₁ hInv (by omega)
      refine ⟨t₂, ?_, g2, g3, ?_, ?_⟩
      · simp only [insertAll, h1, g1, hc, List.filter_cons_of_neg, Bool.false_eq_true,
          not_false_eq_true, if_false]
      · simp only [List.length_cons]
        omega
      · simpa [hc] using g5
    · obtain ⟨j1, j2, j3, j4⟩ := h3 hc
      obtain ⟨t₂, g1, g2, g3, g4, g5⟩ := insertAll_ok mem cap hcap fuel bs t₁ j1 (by omega)
      refine ⟨t₂, ?_, g2, g3.trans j2, ?_, ?_⟩
      · simp only [insertAll, h1, g1, hc, j2, List.filter_cons_of_pos, if_true]
      · simp only [List.length_cons]
        omega
      · rw [j2] at g5
        refine g5.trans ?_
        simp only [List.filter_cons_of_pos, hc]
        refine (List.Perm.append_right _ j4).trans ?_
        simp only [List.cons_append]
        exact List.perm_middle.symm

omit [LinearOrderedField K] in
theorem box_leaf (bx : AABB K) (c : Int) (ps : List Nat) : (leaf bx c ps).box = bx := rfl

omit [LinearOrderedField K] in
theorem height_leaf (bx : AABB K) (c : Int) (ps : List Nat) : (leaf bx c ps).height = 1 := rfl

omit [LinearOrderedField K] in
theorem allPoints_leaf (bx : AABB K) (c : Int) (ps : List Nat) :
    (leaf bx c ps).allPoints = ps := rfl

theorem leaf_inv (mem : Nat → Ball K) (cap : Int) (hcap : 1 ≤ cap) (bx : AABB K) :
    (leaf bx cap [] : Quadtree K).Inv mem cap :=
  ⟨rfl, by simp only [List.length_nil, Nat.cast_zero]; omega, fun p hp => by simp at hp⟩

/-! ## C6: `query` returns exactly the accepted bodies of the region -/

/-- C6: build a tree from an empty root of capacity at least 1 by inserting the references
`bs` under a fixed memory.  Then `query` appends to `out` a list `L` that is a permutation
of the accepted references whose centre lies in the region: every such reference appears,
no other appears, each as often as it was accepted, hence exactly once when `bs` has no
repetition.  The sign conditions on the boxes are not needed. -/
theorem query_exact (mem : Nat → Ball K) (bx : AABB K) (cap : Int) (hcap : 1 ≤ cap)
    (bs : List Nat) (fuel : Nat) (hfuel : bs.length + 1 ≤ fuel) (range : AABB K)
    (out : List Nat) :
    ∃ t acc, insertAll mem fuel (leaf bx cap []) bs = some (t, acc) ∧
      ∃ L, t.query mem range out = out ++ L ∧
        L.Perm (acc.filter fun b => range.contains (mem b)) ∧
        (∀ b, b ∈ L ↔ b ∈ acc ∧ range.contains (mem b) = true) ∧
        (bs.Nodup → L.Nodup) := by
  obtain ⟨t, h1, h2, -, -, h5⟩ := insertAll_ok mem cap hcap fuel bs (leaf bx cap [])
    (leaf_inv mem cap hcap bx) (by rw [height_leaf]; omega)
  simp only [allPoints_leaf, List.nil_append, box_leaf] at h1 h5
  have hperm : (t.allPoints.filter fun b => range.contains (mem b)).Perm
      ((bs.filter fun b => bx.contains (mem b)).filter fun b => range.contains (mem b)) :=
    h5.filter _
  refine ⟨t, _, h1, _, query_eq_filter mem cap range t h2 out, hperm, ?_, ?_⟩
  · intro b
    rw [hperm.mem_iff, List.mem_filter]
  · intro hnd
    exact hperm.nodup_iff.mpr ((hnd.filter _).filter _)

theorem query_exact_witness :
    ∃ t acc, insertAll (fun i => ballAt i i 1) 4 (leaf ⟨0, 0, 10, 10⟩ 1 []) [0, 1, 2]
        = some (t, acc) ∧
      ∃ L, t.query (fun i => ballAt i i 1) ⟨0, 0, 1, 1⟩ [] = [] ++ L ∧
        L.Perm (acc.filter fun b => (⟨0, 0, 1, 1⟩ : AABB ℚ).contains (ballAt b b 1)) ∧
        (∀ b, b ∈ L ↔ b ∈ acc ∧ (⟨0, 0, 1, 1⟩ : AABB ℚ).contains (ballAt b b 1) = true) ∧
        ([0, 1, 2].Nodup → L.Nodup) :=
  query_exact (fun i => ballAt i i 1) ⟨0, 0, 10, 10⟩ 1 (by decide) [0, 1, 2] 4 (by decide)
    ⟨0, 0, 1, 1⟩ []

/-! ## C7: `insert` accepts exactly the bodies inside the box -/

/-- C7: on every tree built by inserts from an empty node of capacity at least 1, `insert`
returns, and returns `true` exactly when the centre of the body lies inside the node's box;
so a body inside the box is never rejected by all four children. -/
theorem insert_true_iff_contains (mem : Nat → Ball K) (bx : AABB K) (cap : Int)
    (hcap : 1 ≤ cap) (bs : List Nat) (fuel : Nat) (hfuel : bs.length + 1 ≤ fuel) (b : Nat)
    (fuel₁ : Nat) (hfuel₁ : bs.length + 2 ≤ fuel₁) :
    ∃ t acc, insertAll mem fuel (leaf bx cap []) bs = some (t, acc) ∧ t.box = bx ∧
      ∃ t₁, t.insert mem fuel₁ b = some (bx.contains (mem b), t₁) := by
  obtain ⟨t, h1, h2, h3, h4, -⟩ := insertAll_ok mem cap hcap fuel bs (leaf bx cap [])
    (leaf_inv mem cap hcap bx) (by rw [height_leaf]; omega)
  simp only [height_leaf, box_leaf] at h3 h4
  obtain ⟨t₁, g1, -, -⟩ := insert_ok mem cap hcap b t h2 fuel₁ (by omega)
  rw [h3] at g1
  exact ⟨t, _, h1, h3, t₁, g1⟩

theorem insert_true_iff_contains_witness :
    ∃ t acc, insertAll (fun i => ballAt i i 1) 4 (leaf ⟨0, 0, 10, 10⟩ 1 []) [0, 1, 2]
        = some (t, acc) ∧ t.box = ⟨0, 0, 10, 10⟩ ∧
      ∃ t₁, t.insert (fun i => ballAt i i 1) 5 7
        = some ((⟨0, 0, 10, 10⟩ : AABB ℚ).contains (ballAt 7 7 1), t₁) :=
  insert_true_iff_contains (fun i => ballAt i i 1) ⟨0, 0, 10, 10⟩ 1 (by decide) [0, 1, 2] 4
    (by decide) 7 5 (by decide)

end Quadtree

/-! ## Broad phases: traces of the loops -/

omit [LinearOrderedField K] in
theorem set_getD_self (d : Ball K) : ∀ (balls : List (Ball K)) (i : Nat),
    balls.set i (balls.getD i d) = balls
  | [], _ => rfl
  | _ :: _, 0 => rfl
  | a :: l, i + 1 => by
    simp only [List.set_cons_succ, List.getD_cons_succ, set_getD_self d l i]

theorem resolveAt_keep (st : PhaseState K) (i j : Nat) :
    resolveAt keep st i j = (st.1, st.2 ++ [(i, j)]) := by
  simp only [resolveAt, keep, deref, set_getD_self]

/-- The trace of an inner loop whose body either does nothing or resolves `(i, j)`. -/
theorem fold_trace (res : Ball K → Ball K → Ball K × Ball K) (i : Nat)
    (step : PhaseState K → Nat → PhaseState K) (p : Nat → Prop)
    (hstep : ∀ st j, step st j = st ∨ (p j ∧ step st j = resolveAt res st i j)) :
    ∀ (js : List Nat) (st : PhaseState K),
      ∃ L : List Nat, L.Sublist js ∧ (∀ j ∈ L, p j) ∧
        (js.foldl step st).2 = st.2 ++ L.map (Prod.mk i)
  | [], st => ⟨[], List.Sublist.refl _, by simp, by simp⟩
  | j :: js, st => by
    simp only [List.foldl_cons]
    obtain ⟨L, hs, hp, he⟩ := fold_trace res i step p hstep js (step st j)
    rcases hstep st j with h | ⟨hpj, h⟩
    · exact ⟨L, hs.cons j, hp, by rw [he, h]⟩
    · refine ⟨j :: L, hs.cons₂ j, ?_, ?_⟩
      · intro k hk
        rcases List.mem_cons.mp hk with rfl | hk
        · exact hpj
        · exact hp k hk
      · rw [he, h]
        simp [resolveAt]

omit [LinearOrderedField K] in
/-- The trace of an outer loop over distinct `i` whose iterations each add calls `(i, j)`
for distinct `j > i`. -/
theorem outer_trace (iter : PhaseState K → Nat → PhaseState K)
    (hiter : ∀ st i, ∃ L : List Nat, L.Nodup ∧ (∀ j ∈ L, i < j) ∧
      (iter st i).2 = st.2 ++ L.map (Prod.mk i)) :
    ∀ (is : List Nat), is.Nodup → ∀ st : PhaseState K,
      ∃ M : List (Nat × Nat), (is.foldl iter st).2 = st.2 ++ M ∧ M.Nodup ∧
        ∀ q ∈ M, q.1 ∈ is ∧ q.1 < q.2
  | [], _, st => ⟨[], by simp, List.nodup_nil, by simp⟩
  | i :: is, hnd, st => by
    simp only [List.foldl_cons]
    obtain ⟨hi, hnd₁⟩ := List.nodup_cons.mp hnd
    obtain ⟨L, hL, hlt, he⟩ := hiter st i
    obtain ⟨M, hM, hMnd, hMp⟩ := outer_trace iter hiter is hnd₁ (iter st i)
    refine ⟨L.map (Prod.mk i) ++ M, ?_, ?_, ?_⟩
    · rw [hM, he, List.append_assoc]
    · rw [List.nodup_append]
      refine ⟨hL.map (fun a b h => (Prod.mk.inj h).2), hMnd, ?_⟩
      intro q hq1 hq2
      obtain ⟨j, -, rfl⟩ := List.mem_map.mp hq1
      exact hi (hMp _ hq2).1
    · intro q hq
      rcases List.mem_append.mp hq with hq | hq
      · obtain ⟨j, hj, rfl⟩ := List.mem_map.mp hq
        exact ⟨List.mem_cons_self _ _, hlt j hj⟩
      · exact ⟨List.mem_cons_of_mem _ (hMp q hq).1, (hMp q hq).2⟩

theorem bruteStep_cases (res : Ball K → Ball K → Ball K × Ball K) (i : Nat)
    (st : PhaseState K) (j : Nat) :
    bruteStep res i st j = st ∨ (True ∧ bruteStep res i st j = resolveAt res st i j) := by
  unfold bruteStep
  split_ifs
  · exact Or.inr ⟨trivial, rfl⟩
  · exact Or.inl rfl

theorem quadStep_cases (res : Ball K → Ball K → Ball K × Ball K) (i : Nat)
    (st : PhaseState K) (j : Nat) :
    quadStep res i st j = st ∨ (i < j ∧ quadStep res i st j = resolveAt res st i j) := by
  unfold quadStep
  split_ifs with h1 h2 h3
  · exact Or.inl rfl
  · exact Or.inl rfl
  · exact Or.inr ⟨by omega, rfl⟩
  · exact Or.inl rfl

/-- The trace of the brute-force phase has no repetition and only pairs `(i, j)`, `i < j`. -/
theorem brute_trace (res : Ball K → Ball K → Ball K × Ball K) (balls : List (Ball K)) :
    (bruteForcePhase res balls).2.Nodup ∧ ∀ q ∈ (bruteForcePhase res balls).2, q.1 < q.2 := by
  obtain ⟨M, hM, hnd, hp⟩ := outer_trace
    (fun st i => (List.range' (i + 1) (balls.length - (i + 1))).foldl (bruteStep res i) st)
    (by
      intro st i
      obtain ⟨L, hs, -, he⟩ := fold_trace res i (bruteStep res i) (fun _ => True)
        (bruteStep_cases res i) (List.range' (i + 1) (balls.length - (i + 1))) st
      refine ⟨L, hs.nodup (List.nodup_range' _ _), ?_, he⟩
      intro j hj
      have := hs.subset hj
      rw [List.mem_range'_1] at this
      omega)
    (List.range balls.length) (List.nodup_range _) (balls, [])
  have : (bruteForcePhase res balls).2 = M := by
    simp only [bruteForcePhase]
    rw [hM]
    simp
  rw [this]
  exact ⟨hnd, fun q hq => (hp q hq).2⟩

/-- The tree of the quadtree phase exists, is well-formed for the balls it was built from
and stores the indices of the balls inside the world box, each once. -/
theorem buildTree_ok (balls : List (Ball K)) :
    ∃ qt, buildTree balls = some qt ∧ qt.Inv (deref balls) 6 ∧
      qt.allPoints.Perm ((List.range balls.length).filter
        fun b => (⟨0, 0, worldW, worldH⟩ : AABB K).contains (deref balls b)) := by
  obtain ⟨t, h1, h2, -, -, h5⟩ := Quadtree.insertAll_ok (deref balls) 6 (by norm_num)
    (balls.length + 1) (List.range balls.length) (Quadtree.leaf ⟨0, 0, worldW, worldH⟩ 6 [])
    (Quadtree.leaf_inv _ 6 (by norm_num) _)
    (by rw [Quadtree.height_leaf, List.length_range]; omega)
  simp only [Quadtree.allPoints_leaf, List.nil_append, Quadtree.box_leaf] at h1 h5
  exact ⟨t, by simp [buildTree, h1], h2, h5⟩

/-- The trace of the quadtree phase: it is produced, has no repetition and only pairs
`(i, j)` with `i < j`, `i` the body of the query iteration. -/
theorem quad_trace (res : Ball K → Ball K → Ball K × Ball K) (balls : List (Ball K)) :
    ∃ st, quadtreePhase res balls = some st ∧ st.2.Nodup ∧ ∀ q ∈ st.2, q.1 < q.2 := by
  obtain ⟨qt, hqt, -, hperm⟩ := buildTree_ok balls
  have hqnd : qt.allPoints.Nodup :=
    hperm.nodup_iff.mpr ((List.nodup_range _).filter _)
  obtain ⟨M, hM, hnd, hp⟩ := outer_trace (quadIter res qt)
    (by
      intro st i
      obtain ⟨C, hC, hCs⟩ := Quadtree.query_sublist (deref st.1) (queryRange (deref st.1 i)) qt []
      obtain ⟨L, hs, hlt, he⟩ := fold_trace res i (quadStep res i) (fun j => i < j)
        (quadStep_cases res i) C st
      refine ⟨L, hs.nodup (hCs.nodup hqnd), hlt, ?_⟩
      simp only [quadIter, hC, List.nil_append]
      exact he)
    (List.range balls.length) (List.nodup_range _) (balls, [])
  refine ⟨_, by simp only [quadtreePhase, hqt, Option.map_some']; rfl, ?_, ?_⟩
  · rw [hM]
    simpa using hnd
  · rw [hM]
    intro q hq
    simp only [List.nil_append] at hq
    exact (hp q hq).2

omit [LinearOrderedField K] in
theorem count_le_one_of_nodup (q : Nat × Nat) :
    ∀ log : List (Nat × Nat), log.Nodup → log.count q ≤ 1
  | [], _ => by simp
  | x :: l, h => by
    obtain ⟨hx, hl⟩ := List.nodup_cons.mp h
    have ih := count_le_one_of_nodup q l hl
    rw [List.count_cons]
    by_cases hxq : x = q
    · subst hxq
      rw [List.count_eq_zero_of_not_mem hx]
      simp
    · have : (x == q) = false := by simpa using hxq
      rw [this]
      simpa using ih

omit [LinearOrderedField K] in
theorem count_pair_le (log : List (Nat × Nat)) (hnd : log.Nodup) (hlt : ∀ q ∈ log, q.1 < q.2)
    (i j : Nat) : log.count (i, j) + log.count (j, i) ≤ 1 := by
  have h1 := count_le_one_of_nodup (i, j) log hnd
  have h2 := count_le_one_of_nodup (j, i) log hnd
  by_cases hij : (i, j) ∈ log
  · have hji : (j, i) ∉ log := by
      intro h
      have a := hlt _ hij
      have b := hlt _ h
      simp only at a b
      omega
    rw [List.count_eq_zero_of_not_mem hji]
    omega
  · rw [List.count_eq_zero_of_not_mem hij]
    omega

/-! ## Broad phases on a fixed body list -/

theorem precheck_iff (a b : Ball K) :
    precheck a b = true ↔
      |a.pos.x - b.pos.x| ≤ a.radius + b.radius ∧ |a.pos.y - b.pos.y| ≤ a.radius + b.radius := by
  unfold precheck
  simp only []
  split_ifs with h1 h2
  · simp only [Bool.false_eq_true, false_iff, not_and, not_le]
    intro h
    exact absurd h (not_le.mpr h1)
  · simp only [Bool.false_eq_true, false_iff, not_and, not_le]
    intro _
    exact h2
  · simp only [true_iff]
    exact ⟨not_lt.mp h1, not_lt.mp h2⟩

theorem queryRange_contains_iff (a b : Ball K) :
    (queryRange a).contains b = true ↔
      |a.pos.x - b.pos.x| ≤ a.radius + 30 ∧ |a.pos.y - b.pos.y| ≤ a.radius + 30 := by
  rw [AABB.contains_iff]
  simp only [queryRange, abs_le]
  constructor
  · rintro ⟨h1, h2, h3, h4⟩
    refine ⟨⟨?_, ?_⟩, ⟨?_, ?_⟩⟩ <;> linarith
  · rintro ⟨⟨h1, h2⟩, ⟨h3, h4⟩⟩
    refine ⟨?_, ?_, ?_, ?_⟩ <;> linarith

theorem bruteInner_keep (i : Nat) (balls : List (Ball K)) :
    ∀ (js : List Nat) (log : List (Nat × Nat)),
      js.foldl (bruteStep keep i) (balls, log) =
        (balls, log ++ (js.filter fun j => precheck (deref balls i) (deref balls j)).map
          (Prod.mk i))
  | [], log => by simp
  | j :: js, log => by
    simp only [List.foldl_cons, bruteStep, resolveAt_keep]
    cases hp : precheck (deref balls i) (deref balls j)
    · simp only [Bool.false_eq_true, if_false]
      rw [bruteInner_keep i balls js log]
      simp [hp]
    · simp only [if_true]
      rw [bruteInner_keep i balls js]
      simp [hp]

theorem quadInner_keep (i : Nat) (balls : List (Ball K)) :
    ∀ (js : List Nat) (log : List (Nat × Nat)),
      js.foldl (quadStep keep i) (balls, log) =
        (balls, log ++ (js.filter fun j =>
          decide (i < j) && precheck (deref balls i) (deref balls j)).map (Prod.mk i))
  | [], log => by simp
  | j :: js, log => by
    simp only [List.foldl_cons, quadStep, resolveAt_keep]
    by_cases h1 : j = i
    · have : ¬ i < j := by omega
      simp only [h1, if_true]
      rw [quadInner_keep i balls js log]
      simp
    · by_cases h2 : j < i
      · have : ¬ i < j := by omega
        simp only [h1, h2, if_true, if_false]
        rw [quadInner_keep i balls js log]
        simp [this]
      · have h3 : i < j := by omega
        cases hp : precheck (deref balls i) (deref balls j)
        · simp only [h1, h2, if_false, Bool.false_eq_true]
          rw [quadInner_keep i balls js log]
          simp [hp]
        · simp only [h1, h2, if_false, if_true]
          rw [quadInner_keep i balls js]
          simp [hp, h3]

omit [LinearOrderedField K] in
/-- An outer loop whose iterations leave the balls alone and append `F i` to the trace. -/
theorem outer_keep (balls : List (Ball K)) (iter : PhaseState K → Nat → PhaseState K)
    (F : Nat → List (Nat × Nat))
    (hiter : ∀ log i, iter (balls, log) i = (balls, log ++ F i)) :
    ∀ (is : List Nat) (log : List (Nat × Nat)),
      ∃ M, is.foldl iter (balls, log) = (balls, log ++ M) ∧
        ∀ q, q ∈ M ↔ ∃ i ∈ is, q ∈ F i
  | [], log => ⟨[], by simp, by simp⟩
  | i :: is, log => by
    simp only [List.foldl_cons, hiter]
    obtain ⟨M, hM, hq⟩ := outer_keep balls iter F hiter is (log ++ F i)
    refine ⟨F i ++ M, by rw [hM, List.append_assoc], ?_⟩
    intro q
    simp only [List.mem_append, hq, List.mem_cons, exists_eq_or_imp]

/-- On a fixed body list the brute-force phase resolves exactly the pairs `i < j` that pass
the pre-check. -/
theorem brute_keep_mem (balls : List (Ball K)) (i j : Nat) :
    (i, j) ∈ (bruteForcePhase keep balls).2 ↔
      i < j ∧ j < balls.length ∧ precheck (deref balls i) (deref balls j) = true := by
  obtain ⟨M, hM, hq⟩ := outer_keep balls
    (fun st i => (List.range' (i + 1) (balls.length - (i + 1))).foldl (bruteStep keep i) st)
    (fun i => ((List.range' (i + 1) (balls.length - (i + 1))).filter
      fun j => precheck (deref balls i) (deref balls j)).map (Prod.mk i))
    (fun log i => bruteInner_keep i balls _ log) (List.range balls.length) []
  have : (bruteForcePhase keep balls).2 = M := by
    simp only [bruteForcePhase]
    rw [hM]
    simp
  rw [this, hq]
  simp only [List.mem_range, List.mem_map, List.mem_filter, List.mem_range'_1, Prod.mk.injEq]
  constructor
  · rintro ⟨i₁, hi, j₁, ⟨⟨h1, h2⟩, h3⟩, rfl, rfl⟩
    exact ⟨by omega, by omega, h3⟩
  · rintro ⟨h1, h2, h3⟩
    exact ⟨i, by omega, j, ⟨⟨by omega, by omega⟩, h3⟩, rfl, rfl⟩

/-- On a fixed body list the quadtree phase terminates and resolves exactly the pairs
`i < j` for which ball `j` is inside the world box and inside the query region of ball `i`
and passes the pre-check. -/
theorem quad_keep_mem (balls : List (Ball K)) :
    ∃ st, quadtreePhase keep balls = some st ∧ st.1 = balls ∧ ∀ i j, (i, j) ∈ st.2 ↔
      i < j ∧ j < balls.length ∧
        (⟨0, 0, worldW, worldH⟩ : AABB K).contains (deref balls j) = true ∧
        (queryRange (deref balls i)).contains (deref balls j) = true ∧
        precheck (deref balls i) (deref balls j) = true := by
  obtain ⟨qt, hqt, hInv, hperm⟩ := buildTree_ok balls
  obtain ⟨M, hM, hq⟩ := outer_keep balls (quadIter keep qt)
    (fun i => ((qt.allPoints.filter
        fun b => (queryRange (deref balls i)).contains (deref balls b)).filter
      fun j => decide (i < j) && precheck (deref balls i) (deref balls j)).map (Prod.mk i))
    (fun log i => by
      simp only [quadIter]
      rw [Quadtree.query_eq_filter (deref balls) 6 _ qt hInv, List.nil_append]
      exact quadInner_keep i balls _ log)
    (List.range balls.length) []
  refine ⟨(balls, M), ?_, rfl, ?_⟩
  · simp only [quadtreePhase, hqt, Option.map_some']
    rw [hM]
    simp
  · intro i j
    simp only [hq, List.mem_range, List.mem_map, List.mem_filter, Prod.mk.injEq,
      hperm.mem_iff, Bool.and_eq_true, decide_eq_true_eq]
    constructor
    · rintro ⟨i₁, hi, j₁, ⟨⟨⟨h1, h2⟩, h3⟩, h4, h5⟩, rfl, rfl⟩
      exact ⟨h4, h1, h2, h3, h5⟩
    · rintro ⟨h1, h2, h3, h4, h5⟩
      exact ⟨i, by omega, j, ⟨⟨⟨h2, h3⟩, h4⟩, h1, h5⟩, rfl, rfl⟩

theorem inWorld_iff (b : Ball K) :
    (⟨0, 0, worldW, worldH⟩ : AABB K).contains b = true ↔ InWorld b := by
  rw [AABB.contains_iff]
  simp only [InWorld, worldW, worldH, zero_add]

theorem abs_le_of_exact (sqrt : K → K) (x y : K) (h : SqrtExactAt sqrt (x * x + y * y)) :
    |x| ≤ sqrt (x * x + y * y) ∧ |y| ≤ sqrt (x * x + y * y) := by
  obtain ⟨h0, h1⟩ := h
  constructor
  · apply abs_le_of_sq_le_sq' _ h0 |> abs_le.mpr
    nlinarith [mul_self_nonneg y]
  · apply abs_le_of_sq_le_sq' _ h0 |> abs_le.mpr
    nlinarith [mul_self_nonneg x]

/-! ## C8: overlapping pairs inside the query region, in exact arithmetic -/

/-- In exact arithmetic no overlapping pair inside the query region is missed: on a fixed
body list, for `i < j` whose circles overlap (centre distance below the radius sum,
`std::sqrt` exact at the squared distance) and with ball `j` in the world box and in the
query region of ball `i`, the brute-force phase and the quadtree phase both call the
resolver on `(i, j)`.  The quadrants of a box cover it here; in binary32 they need not, and
the run at the far corner of the world, in the last section, misses such pairs. -/
theorem overlapping_pair_resolved (sqrt : K → K) (balls : List (Ball K)) (i j : Nat)
    (hij : i < j) (hj : j < balls.length)
    (hin : InWorld (deref balls j))
    (hex : SqrtExactAt sqrt
      (((deref balls i).pos.sub (deref balls j).pos).x * ((deref balls i).pos.sub (deref balls j).pos).x
        + ((deref balls i).pos.sub (deref balls j).pos).y
          * ((deref balls i).pos.sub (deref balls j).pos).y))
    (hov : len sqrt ((deref balls i).pos.sub (deref balls j).pos)
      < (deref balls i).radius + (deref balls j).radius)
    (hq : (queryRange (deref balls i)).contains (deref balls j) = true) :
    (i, j) ∈ (bruteForcePhase keep balls).2 ∧
      ∃ st, quadtreePhase keep balls = some st ∧ (i, j) ∈ st.2 := by
  obtain ⟨hx, hy⟩ := abs_le_of_exact sqrt _ _ hex
  have hpre : precheck (deref balls i) (deref balls j) = true := by
    rw [precheck_iff]
    simp only [len, Vec.sub] at hov hx hy
    exact ⟨le_of_lt (lt_of_le_of_lt hx hov), le_of_lt (lt_of_le_of_lt hy hov)⟩
  obtain ⟨st, h1, -, h3⟩ := quad_keep_mem balls
  exact ⟨(brute_keep_mem balls i j).mpr ⟨hij, hj, hpre⟩, st, h1,
    (h3 i j).mpr ⟨hij, hj, (inWorld_iff _).mpr hin, hq, hpre⟩⟩

theorem overlapping_pair_resolved_witness :
    (0, 1) ∈ (bruteForcePhase keep closePair).2 ∧
      ∃ st, quadtreePhase keep closePair = some st ∧ (0, 1) ∈ st.2 := by
  have h0 : deref closePair 0 = ballAt 100 100 12 := rfl
  have h1 : deref closePair 1 = ballAt 103 104 12 := rfl
  have hs : ((deref closePair 0).pos.sub (deref closePair 1).pos).x
        * ((deref closePair 0).pos.sub (deref closePair 1).pos).x
      + ((deref closePair 0).pos.sub (deref closePair 1).pos).y
        * ((deref closePair 0).pos.sub (deref closePair 1).pos).y = 25 := by
    rw [h0, h1]
    norm_num [ballAt, Vec.sub]
  apply overlapping_pair_resolved Rat.sqrt closePair 0 1 (by decide) (by decide)
  · rw [h1]
    norm_num [ballAt, InWorld]
  · rw [hs, SqrtExactAt, ratSqrt_25]
    norm_num
  · rw [len, hs, ratSqrt_25, h0, h1]
    norm_num [ballAt]
  · rw [queryRange_contains_iff, h0, h1]
    norm_num [ballAt, abs_le]

/-! ## C9: the two broad phases and the fixed margin -/

/-- In exact arithmetic, on a fixed body list with centres in the world box and every radius
at most the margin 30, the quadtree phase terminates and resolves exactly the pairs the
brute-force phase resolves. -/
theorem phases_agree (balls : List (Ball K))
    (hin : ∀ k < balls.length, InWorld (deref balls k))
    (hr : ∀ k < balls.length, (deref balls k).radius ≤ 30) :
    ∃ st, quadtreePhase keep balls = some st ∧
      ∀ q, q ∈ (bruteForcePhase keep balls).2 ↔ q ∈ st.2 := by
  obtain ⟨st, h1, -, h3⟩ := quad_keep_mem balls
  refine ⟨st, h1, ?_⟩
  rintro ⟨i, j⟩
  rw [brute_keep_mem, h3]
  constructor
  · rintro ⟨a, b, c⟩
    refine ⟨a, b, (inWorld_iff _).mpr (hin j b), ?_, c⟩
    rw [precheck_iff] at c
    rw [queryRange_contains_iff]
    have := hr j b
    exact ⟨by linarith [c.1], by linarith [c.2]⟩
  · rintro ⟨a, b, -, -, c⟩
    exact ⟨a, b, c⟩

theorem phases_agree_witness :
    ∃ st, quadtreePhase keep closePair = some st ∧
      ∀ q, q ∈ (bruteForcePhase keep closePair).2 ↔ q ∈ st.2 := by
  have h0 : deref closePair 0 = ballAt 100 100 12 := rfl
  have h1 : deref closePair 1 = ballAt 103 104 12 := rfl
  have hk : ∀ k < closePair.length, k = 0 ∨ k = 1 := by
    intro k hk
    simp only [closePair, List.length_cons, List.length_nil] at hk
    omega
  apply phases_agree closePair
  · intro k hlt
    rcases hk k hlt with rfl | rfl
    · rw [h0]
      norm_num [ballAt, InWorld]
    · rw [h1]
      norm_num [ballAt, InWorld]
  · intro k hlt
    rcases hk k hlt with rfl | rfl
    · rw [h0]
      norm_num [ballAt]
    · rw [h1]
      norm_num [ballAt]

theorem deref_bigPair_zero : deref bigPair 0 = ballAt 100 100 10 := rfl
theorem deref_bigPair_one : deref bigPair 1 = ballAt 200 100 100 := rfl

/-- C9: the two broad phases do not detect the same pairs.  For two overlapping balls with
positive radii 10 and 100 in the world box, centred at `(100, 100)` and `(200, 100)`, on a
fixed list, the brute-force phase calls the resolver on `(0, 1)`; the quadtree phase returns
and does not: the query region of ball 0 has half-width `10 + 30`, with the fixed margin 30,
and ball 1 is 100 away. -/
theorem phases_disagree :
    (∀ b ∈ bigPair, 0 < b.radius ∧ InWorld b) ∧
      (0, 1) ∈ (bruteForcePhase keep bigPair).2 ∧
      ∃ st, quadtreePhase keep bigPair = some st ∧ (0, 1) ∉ st.2 := by
  refine ⟨?_, ?_, ?_⟩
  · intro b hb
    simp only [bigPair, List.mem_cons, List.mem_singleton, List.not_mem_nil, or_false] at hb
    rcases hb with rfl | rfl <;> norm_num [ballAt, InWorld]
  · rw [brute_keep_mem, precheck_iff, deref_bigPair_zero, deref_bigPair_one]
    refine ⟨by decide, by decide, ?_⟩
    norm_num [ballAt]
  · obtain ⟨st, h1, -, h3⟩ := quad_keep_mem bigPair
    refine ⟨st, h1, ?_⟩
    rw [h3, queryRange_contains_iff, deref_bigPair_zero, deref_bigPair_one]
    rintro ⟨-, -, -, ⟨h, -⟩, -⟩
    norm_num [ballAt] at h

/-! ## C10: every pair is resolved at most once per tick -/

/-- C10: in one collision phase, whatever the resolver does to the balls, both broad phases
call it at most once for each unordered pair (counting the calls `(i, j)` and `(j, i)`
together) and never for a ball with itself; the quadtree phase terminates with a trace, and
a call `(i, j)` of it is made in the query iteration of its first component `i`, which is
the smaller index. -/
theorem resolve_once_per_pair (res : Ball K → Ball K → Ball K × Ball K)
    (balls : List (Ball K)) :
    ((∀ i j, (bruteForcePhase res balls).2.count (i, j)
          + (bruteForcePhase res balls).2.count (j, i) ≤ 1) ∧
      (∀ i, (i, i) ∉ (bruteForcePhase res balls).2)) ∧
    ∃ st, quadtreePhase res balls = some st ∧
      (∀ i j, st.2.count (i, j) + st.2.count (j, i) ≤ 1) ∧
      (∀ i, (i, i) ∉ st.2) ∧
      (∀ i j, (i, j) ∈ st.2 → i < j) := by
  obtain ⟨b1, b2⟩ := brute_trace res balls
  obtain ⟨st, q0, q1, q2⟩ := quad_trace res balls
  refine ⟨⟨count_pair_le _ b1 b2, ?_⟩, st, q0, count_pair_le _ q1 q2, ?_, ?_⟩
  · intro i h
    exact lt_irrefl i (b2 _ h)
  · intro i h
    exact lt_irrefl i (q2 _ h)
  · intro i j h
    exact q2 _ h

/-! ## The locals of `resolveCollision` -/

/-- The function `resolveCollision` written with its named locals. -/
theorem resolveCollision_locals (sqrt : K → K) (a b : Ball K) :
    resolveCollision sqrt a b =
      if penetration sqrt a b > 0 then
        if velAlongNormal sqrt a b > 0 then
          ({ a with pos := a.pos.add ((unitNormal sqrt a b).mul
              (penetration sqrt a b * (b.mass / (a.mass + b.mass)) * (1 / 2))) },
           { b with pos := b.pos.sub ((unitNormal sqrt a b).mul
              (penetration sqrt a b * (a.mass / (a.mass + b.mass)) * (1 / 2))) })
        else
          ({ a with
              pos := a.pos.add ((unitNormal sqrt a b).mul
                (penetration sqrt a b * (b.mass / (a.mass + b.mass)) * (1 / 2)))
              vel := a.vel.add (((unitNormal sqrt a b).mul
                (-(1 + 1) * velAlongNormal sqrt a b / (1 / a.mass + 1 / b.mass))).mul
                  (1 / a.mass)) },
           { b with
              pos := b.pos.sub ((unitNormal sqrt a b).mul
                (penetration sqrt a b * (a.mass / (a.mass + b.mass)) * (1 / 2)))
              vel := b.vel.sub (((unitNormal sqrt a b).mul
                (-(1 + 1) * velAlongNormal sqrt a b / (1 / a.mass + 1 / b.mass))).mul
                  (1 / b.mass)) })
      else (a, b) := rfl

theorem contactDist_eq_len (sqrt : K → K) (a b : Ball K) :
    contactDist sqrt a b = len sqrt (contactNormal sqrt a b) := by
  unfold contactDist contactNormal
  split_ifs <;> rfl

theorem div_len_unit (sqrt : K → K) (n : Vec K)
    (hex : SqrtExactAt sqrt (n.x * n.x + n.y * n.y)) (hd : len sqrt n ≠ 0) :
    dot (n.div (len sqrt n)) (n.div (len sqrt n)) = 1 := by
  obtain ⟨-, h1⟩ := hex
  simp only [len] at hd
  simp only [dot, Vec.div, len]
  field_simp
  linear_combination -h1

/-- With an exact square root at the squared length of the contact normal, `dist` is not
zero and the normal `n_norm` is a unit vector. -/
theorem unitNormal_unit (sqrt : K → K) (a b : Ball K)
    (hex : SqrtExactAt sqrt ((contactNormal sqrt a b).x * (contactNormal sqrt a b).x
      + (contactNormal sqrt a b).y * (contactNormal sqrt a b).y)) :
    contactDist sqrt a b ≠ 0 ∧ dot (unitNormal sqrt a b) (unitNormal sqrt a b) = 1 := by
  have hd : contactDist sqrt a b ≠ 0 := by
    by_cases hz : len sqrt (a.pos.sub b.pos) = 0
    · have hn : contactNormal sqrt a b = ⟨1 / 100, 1 / 100⟩ := if_pos hz
      have hc : contactDist sqrt a b = len sqrt ⟨1 / 100, 1 / 100⟩ := if_pos hz
      rw [hn] at hex
      obtain ⟨-, h1⟩ := hex
      rw [hc]
      simp only [len]
      intro h
      rw [h] at h1
      norm_num at h1
    · have hc : contactDist sqrt a b = len sqrt (a.pos.sub b.pos) := if_neg hz
      rw [hc]
      exact hz
  refine ⟨hd, ?_⟩
  rw [contactDist_eq_len] at hd
  rw [unitNormal, contactDist_eq_len]
  exact div_len_unit sqrt _ hex hd

theorem energy_algebra (am bm avx avy bvx bvy ux uy : K) (ham : am ≠ 0) (hbm : bm ≠ 0)
    (hs : am + bm ≠ 0) (hu : ux * ux + uy * uy = 1) :
    1 / 2 * am *
        ((avx + ux * (-(1 + 1) * ((avx - bvx) * ux + (avy - bvy) * uy) / (1 / am + 1 / bm))
              * (1 / am)) *
            (avx + ux * (-(1 + 1) * ((avx - bvx) * ux + (avy - bvy) * uy) / (1 / am + 1 / bm))
              * (1 / am)) +
          (avy + uy * (-(1 + 1) * ((avx - bvx) * ux + (avy - bvy) * uy) / (1 / am + 1 / bm))
              * (1 / am)) *
            (avy + uy * (-(1 + 1) * ((avx - bvx) * ux + (avy - bvy) * uy) / (1 / am + 1 / bm))
              * (1 / am))) +
      1 / 2 * bm *
        ((bvx - ux * (-(1 + 1) * ((avx - bvx) * ux + (avy - bvy) * uy) / (1 / am + 1 / bm))
              * (1 / bm)) *
            (bvx - ux * (-(1 + 1) * ((avx - bvx) * ux + (avy - bvy) * uy) / (1 / am + 1 / bm))
              * (1 / bm)) +
          (bvy - uy * (-(1 + 1) * ((avx - bvx) * ux + (avy - bvy) * uy) / (1 / am + 1 / bm))
              * (1 / bm)) *
            (bvy - uy * (-(1 + 1) * ((avx - bvx) * ux + (avy - bvy) * uy) / (1 / am + 1 / bm))
              * (1 / bm))) =
      1 / 2 * am * (avx * avx + avy * avy) + 1 / 2 * bm * (bvx * bvx + bvy * bvy) := by
  have hne : 1 / am + 1 / bm ≠ 0 := by
    have : 1 / am + 1 / bm = (am + bm) / (am * bm) := by
      field_simp
      ring
    rw [this]
    exact div_ne_zero hs (mul_ne_zero ham hbm)
  have hia : am * (1 / am) = 1 := mul_one_div_cancel ham
  have hib : bm * (1 / bm) = 1 := mul_one_div_cancel hbm
  have hj : -(1 + 1) * ((avx - bvx) * ux + (avy - bvy) * uy) / (1 / am + 1 / bm)
      * (1 / am + 1 / bm) = -(1 + 1) * ((avx - bvx) * ux + (avy - bvy) * uy) :=
    div_mul_cancel₀ _ hne
  generalize -(1 + 1) * ((avx - bvx) * ux + (avy - bvy) * uy) / (1 / am + 1 / bm) = j at hj ⊢
  generalize 1 / am = ia at hia hj ⊢
  generalize 1 / bm = ib at hib hj ⊢
  linear_combination
    (j * (ux * avx + uy * avy) + 1 / 2 * ia * j ^ 2 * (ux * ux + uy * uy)) * hia
      + (-j * (ux * bvx + uy * bvy) + 1 / 2 * ib * j ^ 2 * (ux * ux + uy * uy)) * hib
      + 1 / 2 * j ^ 2 * (ia + ib) * hu + 1 / 2 * j * hj

/-! ## C17: kinetic energy -/

/-- C17: for positive masses, `resolveCollision` leaves the total kinetic energy
`(1/2) m_a |v_a|^2 + (1/2) m_b |v_b|^2` unchanged, in exact arithmetic: `std::sqrt` is exact
at the squared length of the contact normal `n` (so that `n_norm` is a unit vector). -/
theorem resolveCollision_energy (sqrt : K → K) (a b : Ball K)
    (hma : 0 < a.mass) (hmb : 0 < b.mass)
    (hex : SqrtExactAt sqrt ((contactNormal sqrt a b).x * (contactNormal sqrt a b).x
      + (contactNormal sqrt a b).y * (contactNormal sqrt a b).y)) :
    kineticEnergy (resolveCollision sqrt a b).1 (resolveCollision sqrt a b).2
      = kineticEnergy a b := by
  have hma' : a.mass ≠ 0 := ne_of_gt hma
  have hmb' : b.mass ≠ 0 := ne_of_gt hmb
  have hsum : a.mass + b.mass ≠ 0 := ne_of_gt (add_pos hma hmb)
  obtain ⟨-, hu⟩ := unitNormal_unit sqrt a b hex
  rw [resolveCollision_locals]
  split_ifs
  · rfl
  · simp only [kineticEnergy]
    exact energy_algebra a.mass b.mass a.vel.x a.vel.y b.vel.x b.vel.y
      (unitNormal sqrt a b).x (unitNormal sqrt a b).y hma' hmb' hsum hu
  · rfl

theorem contact_of_ne (sqrt : K → K) (a b : Ball K) (hz : len sqrt (a.pos.sub b.pos) ≠ 0) :
    contactNormal sqrt a b = a.pos.sub b.pos ∧
      contactDist sqrt a b = len sqrt (a.pos.sub b.pos) :=
  ⟨if_neg hz, if_neg hz⟩

theorem resolveCollision_pos (sqrt : K → K) (a b : Ball K) (hp : penetration sqrt a b > 0) :
    (resolveCollision sqrt a b).1.pos = a.pos.add ((unitNormal sqrt a b).mul
        (penetration sqrt a b * (b.mass / (a.mass + b.mass)) * (1 / 2))) ∧
      (resolveCollision sqrt a b).2.pos = b.pos.sub ((unitNormal sqrt a b).mul
        (penetration sqrt a b * (a.mass / (a.mass + b.mass)) * (1 / 2))) := by
  rw [resolveCollision_locals, if_pos hp]
  split_ifs <;> exact ⟨rfl, rfl⟩

/-! ## C16: positional correction -/

/-- C16 (amended): in exact arithmetic, with `std::sqrt` exact at the squared centre
distances before and after the call, for an overlapping, non-coincident pair with positive
masses, with `u = (a.pos - b.pos) / dist` the unit vector from `b` to `a` and `p` the
penetration, `resolveCollision` moves `a` to `a.pos + u * (p * (m_b / (m_a + m_b)) * 0.5)`
and `b` to `b.pos - u * (p * (m_a / (m_a + m_b)) * 0.5)`, and the centre distance after the
call is `dist + p / 2`. -/
theorem resolveCollision_correction (sqrt : K → K) (a b : Ball K)
    (hnc : a.pos ≠ b.pos)
    (hov : len sqrt (a.pos.sub b.pos) < a.radius + b.radius)
    (hma : 0 < a.mass) (hmb : 0 < b.mass)
    (hex : SqrtExactAt sqrt ((a.pos.sub b.pos).x * (a.pos.sub b.pos).x
      + (a.pos.sub b.pos).y * (a.pos.sub b.pos).y))
    (hex₁ : SqrtExactAt sqrt
      (((resolveCollision sqrt a b).1.pos.sub (resolveCollision sqrt a b).2.pos).x
          * ((resolveCollision sqrt a b).1.pos.sub (resolveCollision sqrt a b).2.pos).x
        + ((resolveCollision sqrt a b).1.pos.sub (resolveCollision sqrt a b).2.pos).y
          * ((resolveCollision sqrt a b).1.pos.sub (resolveCollision sqrt a b).2.pos).y)) :
    dot ((a.pos.sub b.pos).div (len sqrt (a.pos.sub b.pos)))
        ((a.pos.sub b.pos).div (len sqrt (a.pos.sub b.pos))) = 1 ∧
      (resolveCollision sqrt a b).1.pos =
        a.pos.add (((a.pos.sub b.pos).div (len sqrt (a.pos.sub b.pos))).mul
          ((a.radius + b.radius - len sqrt (a.pos.sub b.pos))
            * (b.mass / (a.mass + b.mass)) * (1 / 2))) ∧
      (resolveCollision sqrt a b).2.pos =
        b.pos.sub (((a.pos.sub b.pos).div (len sqrt (a.pos.sub b.pos))).mul
          ((a.radius + b.radius - len sqrt (a.pos.sub b.pos))
            * (a.mass / (a.mass + b.mass)) * (1 / 2))) ∧
      len sqrt ((resolveCollision sqrt a b).1.pos.sub (resolveCollision sqrt a b).2.pos) =
        len sqrt (a.pos.sub b.pos)
          + (a.radius + b.radius - len sqrt (a.pos.sub b.pos)) / 2 := by
  have hs := sqDist_pos a.pos b.pos hnc
  have hd0 : 0 ≤ len sqrt (a.pos.sub b.pos) := hex.1
  have hdd : len sqrt (a.pos.sub b.pos) * len sqrt (a.pos.sub b.pos)
      = (a.pos.sub b.pos).x * (a.pos.sub b.pos).x
        + (a.pos.sub b.pos).y * (a.pos.sub b.pos).y := hex.2
  have hz : len sqrt (a.pos.sub b.pos) ≠ 0 := by
    intro h0
    rw [h0, mul_zero] at hdd
    rw [← hdd] at hs
    exact lt_irrefl _ hs
  obtain ⟨hn, hc⟩ := contact_of_ne sqrt a b hz
  have hpen : penetration sqrt a b > 0 := by
    rw [penetration, hc]
    linarith
  obtain ⟨hp1, hp2⟩ := resolveCollision_pos sqrt a b hpen
  rw [unitNormal, penetration, hn, hc] at hp1 hp2
  have hunit := div_len_unit sqrt (a.pos.sub b.pos) hex hz
  refine ⟨hunit, hp1, hp2, ?_⟩
  obtain ⟨h0, h1⟩ := hex₁
  rw [hp1, hp2] at h0 h1
  rw [hp1, hp2]
  have hlen : ∀ v : Vec K, len sqrt v = sqrt (v.x * v.x + v.y * v.y) := fun _ => rfl
  rw [← hlen] at h0 h1
  generalize len sqrt ((a.pos.add (((a.pos.sub b.pos).div (len sqrt (a.pos.sub b.pos))).mul
          ((a.radius + b.radius - len sqrt (a.pos.sub b.pos))
            * (b.mass / (a.mass + b.mass)) * (1 / 2)))).sub
      (b.pos.sub (((a.pos.sub b.pos).div (len sqrt (a.pos.sub b.pos))).mul
          ((a.radius + b.radius - len sqrt (a.pos.sub b.pos))
            * (a.mass / (a.mass + b.mass)) * (1 / 2))))) = L at h0 h1 ⊢
  generalize len sqrt (a.pos.sub b.pos) = d at *
  have hsum : a.mass + b.mass ≠ 0 := ne_of_gt (add_pos hma hmb)
  have hfr : b.mass / (a.mass + b.mass) + a.mass / (a.mass + b.mass) = 1 := by
    field_simp
    ring
  have hpos : 0 ≤ d + (a.radius + b.radius - d) / 2 := by linarith
  have hsq : L * L = (d + (a.radius + b.radius - d) / 2) * (d + (a.radius + b.radius - d) / 2) := by
    rw [h1]
    simp only [Vec.add, Vec.sub, Vec.mul, Vec.div] at hdd ⊢
    generalize b.mass / (a.mass + b.mass) = fb at hfr
    generalize a.mass / (a.mass + b.mass) = fa at hfr
    have hfb : fb = 1 - fa := by linarith
    subst hfb
    field_simp
    linear_combination (-(4 * (2 * d + (a.radius + b.radius - d)) ^ 2)) * hdd
  exact (mul_self_inj_of_nonneg h0 hpos).mp hsq

/-! ## C15: separating bodies keep their velocities -/

/-- C15: for an overlapping pair (`penetration > 0`) whose relative velocity along the
contact normal is strictly positive, `resolveCollision` leaves both velocities unchanged and
still applies the positional correction to both positions. -/
theorem resolveCollision_separating (sqrt : K → K) (a b : Ball K)
    (hp : penetration sqrt a b > 0) (hv : velAlongNormal sqrt a b > 0) :
    (resolveCollision sqrt a b).1.vel = a.vel ∧ (resolveCollision sqrt a b).2.vel = b.vel ∧
      (resolveCollision sqrt a b).1.pos = a.pos.add ((unitNormal sqrt a b).mul
        (penetration sqrt a b * (b.mass / (a.mass + b.mass)) * (1 / 2))) ∧
      (resolveCollision sqrt a b).2.pos = b.pos.sub ((unitNormal sqrt a b).mul
        (penetration sqrt a b * (a.mass / (a.mass + b.mass)) * (1 / 2))) := by
  rw [resolveCollision_locals, if_pos hp, if_pos hv]
  exact ⟨rfl, rfl, rfl, rfl⟩

/-! ## C19: momentum and mass-weighted centre -/

/-- C19: for positive masses, `resolveCollision` preserves the total linear momentum
`m_a v_a + m_b v_b` and the mass-weighted centre `m_a p_a + m_b p_b`. -/
theorem resolveCollision_momentum (sqrt : K → K) (a b : Ball K)
    (hma : 0 < a.mass) (hmb : 0 < b.mass) :
    momentum (resolveCollision sqrt a b).1 (resolveCollision sqrt a b).2 = momentum a b ∧
      massCentre (resolveCollision sqrt a b).1 (resolveCollision sqrt a b).2
        = massCentre a b := by
  have hma' : a.mass ≠ 0 := ne_of_gt hma
  have hmb' : b.mass ≠ 0 := ne_of_gt hmb
  have htot : a.mass + b.mass ≠ 0 := ne_of_gt (add_pos hma hmb)
  rw [resolveCollision_locals]
  generalize unitNormal sqrt a b = u
  generalize velAlongNormal sqrt a b = van
  generalize penetration sqrt a b = p
  obtain ⟨ux, uy⟩ := u
  split_ifs
  · refine ⟨rfl, ?_⟩
    simp only [massCentre, Vec.add, Vec.sub, Vec.mul, Vec.mk.injEq]
    constructor <;> field_simp <;> ring
  · simp only [momentum, massCentre, Vec.add, Vec.sub, Vec.mul, Vec.mk.injEq]
    refine ⟨⟨?_, ?_⟩, ⟨?_, ?_⟩⟩ <;> field_simp <;> ring
  · exact ⟨rfl, rfl⟩

theorem contact_three_four (a b : Ball ℚ) (ha : a.pos = ⟨0, 0⟩) (hb : b.pos = ⟨3, 4⟩) :
    contactNormal Rat.sqrt a b = ⟨-3, -4⟩ ∧ contactDist Rat.sqrt a b = 5 := by
  have hsub : a.pos.sub b.pos = ⟨-3, -4⟩ := by
    rw [ha, hb]
    norm_num [Vec.sub]
  have hl : len Rat.sqrt (a.pos.sub b.pos) = 5 := by
    rw [hsub]
    exact len_three_four
  have hz : len Rat.sqrt (a.pos.sub b.pos) ≠ 0 := by
    rw [hl]
    norm_num
  obtain ⟨h1, h2⟩ := contact_of_ne Rat.sqrt a b hz
  exact ⟨h1.trans hsub, h2.trans hl⟩

theorem resolveCollision_separating_witness :
    (resolveCollision Rat.sqrt apartA apartB).1.vel = apartA.vel ∧
      (resolveCollision Rat.sqrt apartA apartB).2.vel = apartB.vel := by
  obtain ⟨hn, hc⟩ := contact_three_four apartA apartB rfl rfl
  have hp : penetration Rat.sqrt apartA apartB > 0 := by
    rw [penetration, hc]
    norm_num [apartA, apartB]
  have hv : velAlongNormal Rat.sqrt apartA apartB > 0 := by
    rw [velAlongNormal, unitNormal, hn, hc]
    norm_num [apartA, apartB, dot, Vec.sub, Vec.div]
  have h := resolveCollision_separating Rat.sqrt apartA apartB hp hv
  exact ⟨h.1, h.2.1⟩

theorem resolveCollision_momentum_witness :
    momentum (resolveCollision Rat.sqrt headOnA headOnB).1
        (resolveCollision Rat.sqrt headOnA headOnB).2 = momentum headOnA headOnB ∧
      massCentre (resolveCollision Rat.sqrt headOnA headOnB).1
        (resolveCollision Rat.sqrt headOnA headOnB).2 = massCentre headOnA headOnB :=
  resolveCollision_momentum Rat.sqrt headOnA headOnB (by norm_num [headOnA])
    (by norm_num [headOnB])

theorem resolveCollision_energy_witness :
    kineticEnergy (resolveCollision Rat.sqrt headOnA headOnB).1
      (resolveCollision Rat.sqrt headOnA headOnB).2 = kineticEnergy headOnA headOnB := by
  obtain ⟨hn, -⟩ := contact_three_four headOnA headOnB rfl rfl
  apply resolveCollision_energy Rat.sqrt headOnA headOnB (by norm_num [headOnA])
    (by norm_num [headOnB])
  rw [hn]
  have h : ((-3 : ℚ) * -3 + -4 * -4) = 25 := by norm_num
  simp only [h, SqrtExactAt, ratSqrt_25]
  norm_num

theorem resolveCollision_correction_witness :
    len Rat.sqrt ((resolveCollision Rat.sqrt headOnA headOnB).1.pos.sub
        (resolveCollision Rat.sqrt headOnA headOnB).2.pos) =
      len Rat.sqrt (headOnA.pos.sub headOnB.pos)
        + (headOnA.radius + headOnB.radius - len Rat.sqrt (headOnA.pos.sub headOnB.pos)) / 2 := by
  obtain ⟨hn, hc⟩ := contact_three_four headOnA headOnB rfl rfl
  have hsub : headOnA.pos.sub headOnB.pos = ⟨-3, -4⟩ := by
    norm_num [headOnA, headOnB, Vec.sub]
  have hp : penetration Rat.sqrt headOnA headOnB > 0 := by
    rw [penetration, hc]
    norm_num [headOnA, headOnB]
  obtain ⟨hp1, hp2⟩ := resolveCollision_pos Rat.sqrt headOnA headOnB hp
  rw [unitNormal, penetration, hn, hc] at hp1 hp2
  have hq : ((resolveCollision Rat.sqrt headOnA headOnB).1.pos.sub
        (resolveCollision Rat.sqrt headOnA headOnB).2.pos).x
          * ((resolveCollision Rat.sqrt headOnA headOnB).1.pos.sub
            (resolveCollision Rat.sqrt headOnA headOnB).2.pos).x
        + ((resolveCollision Rat.sqrt headOnA headOnB).1.pos.sub
            (resolveCollision Rat.sqrt headOnA headOnB).2.pos).y
          * ((resolveCollision Rat.sqrt headOnA headOnB).1.pos.sub
            (resolveCollision Rat.sqrt headOnA headOnB).2.pos).y = 11 / 2 * (11 / 2) := by
    rw [hp1, hp2]
    norm_num [headOnA, headOnB, Vec.sub, Vec.add, Vec.mul, Vec.div]
  have h := resolveCollision_correction Rat.sqrt headOnA headOnB
    (by
      intro h
      have : (0 : ℚ) = 3 := congrArg Vec.x h
      norm_num at this)
    (by
      rw [hsub, len_three_four]
      norm_num [headOnA, headOnB])
    (by norm_num [headOnA]) (by norm_num [headOnB])
    (by
      rw [hsub]
      have h : ((-3 : ℚ) * -3 + -4 * -4) = 25 := by norm_num
      simp only [h, SqrtExactAt, ratSqrt_25]
      norm_num)
    (by
      rw [hq, SqrtExactAt, ratSqrt_sq _ (by norm_num)]
      norm_num)
  exact h.2.2.2

/-! ## Quadtree: effect and termination of `insert` -/

namespace Quadtree

omit [LinearOrderedField K] in
theorem Extends.refl (b : Nat) (t : Quadtree K) : Extends b false t t :=
  ⟨fun _ s hs => ⟨s, hs, rfl, rfl, Or.inl rfl, fun h => h⟩, fun a => by simp⟩

omit [LinearOrderedField K] in
theorem sub_nil (t : Quadtree K) : t.sub [] = some t := by
  cases t <;> rfl

omit [LinearOrderedField K] in
theorem Extends.push (b : Nat) (t : Quadtree K) : Extends b true t (t.pushPoint b) := by
  constructor
  · intro path s hs
    cases t with
    | leaf bx c ps =>
      cases path with
      | nil =>
        simp only [sub, Option.some.injEq] at hs
        subst hs
        exact ⟨_, rfl, rfl, rfl, Or.inr ⟨rfl, rfl⟩, fun h => h⟩
      | cons d ds => simp [sub] at hs
    | split bx c ps nw ne sw se =>
      cases path with
      | nil =>
        simp only [sub, Option.some.injEq] at hs
        subst hs
        exact ⟨_, rfl, rfl, rfl, Or.inr ⟨rfl, rfl⟩, fun h => h⟩
      | cons d ds =>
        cases d <;> simp only [sub, pushPoint] at hs ⊢ <;>
          exact ⟨s, hs, rfl, rfl, Or.inl rfl, fun h => h⟩
  · intro a
    cases t with
    | leaf bx c ps =>
      simp only [pushPoint, allPoints, List.count_append, List.count_singleton, Bool.toNat_true]
      by_cases h : a = b
      · simp [h]
      · have : ¬ b = a := fun e => h e.symm
        simp [h, this]
    | split bx c ps nw ne sw se =>
      simp only [pushPoint, allPoints, List.count_append, List.count_singleton, Bool.toNat_true]
      by_cases h : a = b
      · simp [h]
        omega
      · have : ¬ b = a := fun e => h e.symm
        simp [h, this]

theorem Extends.subdivide (b : Nat) (t : Quadtree K) (h : t.divided = false) :
    Extends b false t t.subdivide := by
  cases t with
  | split bx c ps nw ne sw se => simp [divided] at h
  | leaf bx c ps =>
    constructor
    · intro path s hs
      cases path with
      | nil =>
        simp only [sub, Option.some.injEq] at hs
        subst hs
        exact ⟨_, rfl, rfl, rfl, Or.inl rfl, fun h => by simp [divided] at h⟩
      | cons d ds => simp [sub] at hs
    · intro a
      simp [Quadtree.subdivide, allPoints, points]

omit [LinearOrderedField K] in
theorem Extends.trans_false (b : Nat) (r : Bool) (t t₀ t₁ : Quadtree K)
    (h0 : Extends b false t t₀) (h1 : Extends b r t₀ t₁) : Extends b r t t₁ := by
  constructor
  · intro path s hs
    obtain ⟨s₀, e0, b0, c0, p0, d0⟩ := h0.1 path s hs
    obtain ⟨s₁, e1, b1, c1, p1, d1⟩ := h1.1 path s₀ e0
    have hp : s₀.points = s.points := by
      rcases p0 with p0 | ⟨p0, -⟩
      · exact p0
      · exact absurd p0 Bool.false_ne_true
    refine ⟨s₁, e1, b1.trans b0, c1.trans c0, ?_, fun h => d1 (d0 h)⟩
    rw [← hp]
    exact p1
  · intro a
    rw [h1.2 a, h0.2 a]
    simp

omit [LinearOrderedField K] in
theorem Extends.split (b : Nat) (r r1 r2 r3 r4 : Bool) (bx : AABB K) (c : Int) (ps : List Nat)
    (nw ne sw se nw₁ ne₁ sw₁ se₁ : Quadtree K)
    (h1 : Extends b r1 nw nw₁) (h2 : Extends b r2 ne ne₁)
    (h3 : Extends b r3 sw sw₁) (h4 : Extends b r4 se se₁)
    (hr : r.toNat = r1.toNat + r2.toNat + r3.toNat + r4.toNat) :
    Extends b r (split bx c ps nw ne sw se) (split bx c ps nw₁ ne₁ sw₁ se₁) := by
  have up : ∀ q : Bool, q.toNat ≤ r.toNat → q = true → r = true := by
    intro q hq hqt
    subst hqt
    cases r
    · simp at hq
    · rfl
  constructor
  · intro path s hs
    cases path with
    | nil =>
      simp only [sub, Option.some.injEq] at hs
      subst hs
      exact ⟨_, rfl, rfl, rfl, Or.inl rfl, fun h => h⟩
    | cons d ds =>
      cases d <;> simp only [sub] at hs ⊢
      · obtain ⟨s₁, e, hb, hc, hp, hd⟩ := h1.1 ds s hs
        exact ⟨s₁, e, hb, hc, hp.imp id (fun ⟨x, y⟩ => ⟨up r1 (by omega) x, y⟩), hd⟩
      · obtain ⟨s₁, e, hb, hc, hp, hd⟩ := h2.1 ds s hs
        exact ⟨s₁, e, hb, hc, hp.imp id (fun ⟨x, y⟩ => ⟨up r2 (by omega) x, y⟩), hd⟩
      · obtain ⟨s₁, e, hb, hc, hp, hd⟩ := h3.1 ds s hs
        exact ⟨s₁, e, hb, hc, hp.imp id (fun ⟨x, y⟩ => ⟨up r3 (by omega) x, y⟩), hd⟩
      · obtain ⟨s₁, e, hb, hc, hp, hd⟩ := h4.1 ds s hs
        exact ⟨s₁, e, hb, hc, hp.imp id (fun ⟨x, y⟩ => ⟨up r4 (by omega) x, y⟩), hd⟩
  · intro a
    simp only [allPoints, List.count_append, h1.2 a, h2.2 a, h3.2 a, h4.2 a]
    by_cases h : a = b
    · simp only [h, if_true]
      omega
    · simp only [h, if_false]
      omega

/-- Whenever `insert` returns, the tree after the call extends the tree before it by `b`. -/
theorem insert_extends (mem : Nat → Ball K) (b : Nat) :
    ∀ (fuel : Nat) (t : Quadtree K) (r : Bool) (t₁ : Quadtree K),
      t.insert mem fuel b = some (r, t₁) → Extends b r t t₁
  | 0, t, r, t₁, h => by simp [insert] at h
  | fuel + 1, t, r, t₁, h => by
    rw [insert] at h
    by_cases hc : (!t.box.contains (mem b)) = true
    · rw [if_pos hc] at h
      simp only [Option.some.injEq, Prod.mk.injEq] at h
      obtain ⟨rfl, rfl⟩ := h
      exact Extends.refl b t
    rw [if_neg hc] at h
    by_cases hlt : (t.points.length : Int) < t.capacity
    · rw [if_pos hlt] at h
      simp only [Option.some.injEq, Prod.mk.injEq] at h
      obtain ⟨rfl, rfl⟩ := h
      exact Extends.push b t
    rw [if_neg hlt] at h
    · have h0 : Extends b false t (if (!t.divided) = true then t.subdivide else t) := by
        split_ifs with hd
        · exact Extends.subdivide b t (by simpa using hd)
        · exact Extends.refl b t
      generalize (if (!t.divided) = true then t.subdivide else t) = T at h h0
      cases T with
      | leaf bx c ps => simp at h
      | split bx c ps nw ne sw se =>
        simp only [] at h
        refine Extends.trans_false b r t _ t₁ h0 ?_
        cases e1 : insert mem fuel nw b with
        | none => simp [e1] at h
        | some p1 =>
          obtain ⟨r1, nw₁⟩ := p1
          have x1 := insert_extends mem b fuel nw r1 nw₁ e1
          cases r1
          · cases e2 : insert mem fuel ne b with
            | none => simp [e1, e2] at h
            | some p2 =>
              obtain ⟨r2, ne₁⟩ := p2
              have x2 := insert_extends mem b fuel ne r2 ne₁ e2
              cases r2
              · cases e3 : insert mem fuel sw b with
                | none => simp [e1, e2, e3] at h
                | some p3 =>
                  obtain ⟨r3, sw₁⟩ := p3
                  have x3 := insert_extends mem b fuel sw r3 sw₁ e3
                  cases r3
                  · cases e4 : insert mem fuel se b with
                    | none => simp [e1, e2, e3, e4] at h
                    | some p4 =>
                      obtain ⟨r4, se₁⟩ := p4
                      have x4 := insert_extends mem b fuel se r4 se₁ e4
                      cases r4
                      · simp only [e1, e2, e3, e4, Option.some.injEq, Prod.mk.injEq] at h
                        obtain ⟨rfl, rfl⟩ := h
                        exact Extends.split b _ _ _ _ _ bx c ps _ _ _ _ _ _ _ _ x1 x2 x3 x4 rfl
                      · simp only [e1, e2, e3, e4, Option.some.injEq, Prod.mk.injEq] at h
                        obtain ⟨rfl, rfl⟩ := h
                        exact Extends.split b _ _ _ _ _ bx c ps _ _ _ _ _ _ _ _ x1 x2 x3 x4 rfl
                  · simp only [e1, e2, e3, Option.some.injEq, Prod.mk.injEq] at h
                    obtain ⟨rfl, rfl⟩ := h
                    exact Extends.split b _ _ _ _ _ bx c ps _ _ _ _ _ _ _ _ x1 x2 x3
                      (Extends.refl b se) rfl
              · simp only [e1, e2, Option.some.injEq, Prod.mk.injEq] at h
                obtain ⟨rfl, rfl⟩ := h
                exact Extends.split b _ _ _ _ _ bx c ps _ _ _ _ _ _ _ _ x1 x2
                  (Extends.refl b sw) (Extends.refl b se) rfl
          · simp only [e1, Option.some.injEq, Prod.mk.injEq] at h
            obtain ⟨rfl, rfl⟩ := h
            exact Extends.split b _ _ _ _ _ bx c ps _ _ _ _ _ _ _ _ x1
              (Extends.refl b ne) (Extends.refl b sw) (Extends.refl b se) rfl

omit [LinearOrderedField K] in
theorem sub_append : ∀ (p q : List Quadrant) (t : Quadtree K),
    t.sub (p ++ q) = (t.sub p).bind fun s => s.sub q
  | [], q, t => by simp [sub_nil]
  | d :: p, q, leaf bx c ps => by
    cases q <;> simp [sub]
  | d :: p, q, split bx c ps nw ne sw se => by
    cases d <;> simp only [List.cons_append, sub] <;> exact sub_append p q _

/-! ## C18: entries never move and subdivision is permanent -/

/-- C18: whenever `insert` of `b` returns `r` and the tree `t₁`, every node of the old tree
is still there at the same path with the same box, its references an initial segment of its
new list (the list is the same, or `b` was appended and `r` is `true`), a divided node is
still divided with the same child boxes; and the stored references are the old ones plus `b`
exactly once when `r` is `true`, nothing when `r` is `false`. -/
theorem insert_entries_stay (mem : Nat → Ball K) (b fuel : Nat) (t : Quadtree K) (r : Bool)
    (t₁ : Quadtree K) (h : t.insert mem fuel b = some (r, t₁)) :
    (∀ path s, t.sub path = some s →
      ∃ s₁, t₁.sub path = some s₁ ∧ s₁.box = s.box ∧ s.points <+: s₁.points ∧
        (s₁.points = s.points ∨ (r = true ∧ s₁.points = s.points ++ [b])) ∧
        (s.divided = true → s₁.divided = true ∧
          ∀ d c, s.sub [d] = some c → ∃ c₁, s₁.sub [d] = some c₁ ∧ c₁.box = c.box)) ∧
    (∀ a, t₁.allPoints.count a = t.allPoints.count a + if a = b then r.toNat else 0) := by
  obtain ⟨h1, h2⟩ := insert_extends mem b fuel t r t₁ h
  refine ⟨?_, h2⟩
  intro path s hs
  obtain ⟨s₁, e, hb, -, hp, hd⟩ := h1 path s hs
  refine ⟨s₁, e, hb, ?_, hp, fun hdiv => ⟨hd hdiv, ?_⟩⟩
  · rcases hp with hp | ⟨-, hp⟩
    · rw [hp]
    · rw [hp]
      exact List.prefix_append _ _
  · intro d c hc
    have hpath : t.sub (path ++ [d]) = some c := by
      rw [sub_append, hs]
      exact hc
    obtain ⟨c₁, e₁, hb₁, -, -, -⟩ := h1 (path ++ [d]) c hpath
    rw [sub_append, e] at e₁
    exact ⟨c₁, e₁, hb₁⟩

/-! ## C11: `insert` preserves well-formedness -/

/-- C11: every tree reached from an empty node of capacity at least 1 by a sequence of
inserts is well-formed (`Inv`): each undivided node holds at most `cap` references, each
divided node holds exactly `cap` and has its four children on the NW, NE, SW, SE quadrants of
its box, and every stored reference has its centre in the box of its node; one more `insert`
returns and keeps the tree well-formed. -/
theorem insert_keeps_wellformed (mem : Nat → Ball K) (bx : AABB K) (cap : Int)
    (hcap : 1 ≤ cap) (bs : List Nat) (fuel : Nat) (hfuel : bs.length + 1 ≤ fuel) :
    ∃ t acc, insertAll mem fuel (leaf bx cap []) bs = some (t, acc) ∧ t.Inv mem cap ∧
      ∀ b fuel₁, bs.length + 2 ≤ fuel₁ →
        ∃ r t₁, t.insert mem fuel₁ b = some (r, t₁) ∧ t₁.Inv mem cap := by
  obtain ⟨t, h1, h2, -, h4, -⟩ := insertAll_ok mem cap hcap fuel bs (leaf bx cap [])
    (leaf_inv mem cap hcap bx) (by rw [height_leaf]; omega)
  rw [height_leaf] at h4
  refine ⟨t, _, h1, h2, ?_⟩
  intro b fuel₁ hf
  obtain ⟨t₁, g1, g2, g3⟩ := insert_ok mem cap hcap b t h2 fuel₁ (by omega)
  refine ⟨_, t₁, g1, ?_⟩
  cases hc : t.box.contains (mem b)
  · rw [g2 hc]
    exact h2
  · exact (g3 hc).1

theorem insert_keeps_wellformed_witness :
    ∃ t acc, insertAll (fun i => ballAt i i 1) 4 (leaf ⟨0, 0, 10, 10⟩ 1 []) [0, 1, 2]
        = some (t, acc) ∧ t.Inv (fun i => ballAt i i 1) 1 := by
  obtain ⟨t, acc, h1, h2, -⟩ := insert_keeps_wellformed (fun i => ballAt i i 1)
    ⟨0, 0, 10, 10⟩ 1 (by decide) [0, 1, 2] 4 (by decide)
  exact ⟨t, acc, h1, h2⟩

/-- The four delegations of `insert` return as soon as the delegated calls return; `P`
relates each child before and after. -/
theorem cascade_returns (mem : Nat → Ball K) (b f : Nat) (T : Quadtree K)
    (bx : AABB K) (c : Int) (ps : List Nat) (nw ne sw se : Quadtree K)
    (P : Quadtree K → Quadtree K → Prop) (hP : ∀ t, P t t)
    (hc : T.box.contains (mem b) = true)
    (hfull : ¬ ((T.points.length : Int) < T.capacity))
    (hT : (if (!T.divided) = true then T.subdivide else T) = split bx c ps nw ne sw se)
    (h1 : ∃ r t₁, insert mem f nw b = some (r, t₁) ∧ P nw t₁)
    (h2 : ∃ r t₁, insert mem f ne b = some (r, t₁) ∧ P ne t₁)
    (h3 : ∃ r t₁, insert mem f sw b = some (r, t₁) ∧ P sw t₁)
    (h4 : ∃ r t₁, insert mem f se b = some (r, t₁) ∧ P se t₁) :
    ∃ r nw₁ ne₁ sw₁ se₁, T.insert mem (f + 1) b = some (r, split bx c ps nw₁ ne₁ sw₁ se₁) ∧
      P nw nw₁ ∧ P ne ne₁ ∧ P sw sw₁ ∧ P se se₁ := by
  obtain ⟨r1, nw₁, e1, p1⟩ := h1
  obtain ⟨r2, ne₁, e2, p2⟩ := h2
  obtain ⟨r3, sw₁, e3, p3⟩ := h3
  obtain ⟨r4, se₁, e4, p4⟩ := h4
  rw [insert, if_neg (by simp [hc]), if_neg hfull, hT]
  simp only [e1, e2, e3, e4]
  cases r1
  · cases r2
    · cases r3
      · cases r4
        · exact ⟨_, _, _, _, _, rfl, p1, p2, p3, p4⟩
        · exact ⟨_, _, _, _, _, rfl, p1, p2, p3, p4⟩
      · exact ⟨_, _, _, _, _, rfl, p1, p2, p3, hP se⟩
    · exact ⟨_, _, _, _, _, rfl, p1, p2, hP sw, hP se⟩
  · exact ⟨_, _, _, _, _, rfl, p1, hP ne, hP sw, hP se⟩

theorem fresh_returns (mem : Nat → Ball K) (b f : Nat) (bx : AABB K) (c : Int) (hc : 1 ≤ c) :
    ∃ r t₁, insert mem (f + 1) (leaf bx c []) b = some (r, t₁) ∧
      (t₁.CapPos ∧ t₁.height ≤ (leaf bx c [] : Quadtree K).height + 0) := by
  rw [insert]
  by_cases h : (!(leaf bx c [] : Quadtree K).box.contains (mem b)) = true
  · rw [if_pos h]
    exact ⟨_, _, rfl, hc, le_refl _⟩
  · have hlt : (((leaf bx c [] : Quadtree K).points.length : Int)
        < (leaf bx c [] : Quadtree K).capacity) := by
      simp only [points, capacity, List.length_nil, Nat.cast_zero]
      omega
    rw [if_neg h, if_pos hlt]
    exact ⟨_, _, rfl, hc, le_refl _⟩

/-- With every capacity at least 1 and fuel above the height, `insert` returns; the tree
keeps its capacities and grows by at most one level. -/
theorem insert_returns (mem : Nat → Ball K) (b : Nat) :
    ∀ (t : Quadtree K), t.CapPos → ∀ fuel, t.height + 1 ≤ fuel →
      ∃ r t₁, t.insert mem fuel b = some (r, t₁) ∧ (t₁.CapPos ∧ t₁.height ≤ t.height + 1)
  | leaf bx c ps, hcap, fuel, hfuel => by
    obtain ⟨f, rfl⟩ : ∃ f, fuel = f + 2 := ⟨fuel - 2, by simp only [height] at hfuel; omega⟩
    by_cases hc : (!(leaf bx c ps : Quadtree K).box.contains (mem b)) = true
    · rw [insert, if_pos hc]
      exact ⟨_, _, rfl, hcap, Nat.le_succ _⟩
    by_cases hlt : (((leaf bx c ps : Quadtree K).points.length : Int)
        < (leaf bx c ps : Quadtree K).capacity)
    · rw [insert, if_neg hc, if_pos hlt]
      exact ⟨_, _, rfl, hcap, Nat.le_succ _⟩
    have hcap₁ : 1 ≤ c := hcap
    obtain ⟨r, nw₁, ne₁, sw₁, se₁, e, p1, p2, p3, p4⟩ := cascade_returns mem b (f + 1)
      (leaf bx c ps) bx c ps _ _ _ _
      (fun t t₁ => t.CapPos → t₁.CapPos ∧ t₁.height ≤ t.height + 0)
      (fun t h => ⟨h, le_refl _⟩) (by simpa using hc) hlt rfl
      (by
        obtain ⟨r, t₁, e, p⟩ := fresh_returns mem b f
          ⟨bx.x, bx.y, bx.w / 2, bx.h / 2⟩ c hcap₁
        exact ⟨r, t₁, e, fun _ => p⟩)
      (by
        obtain ⟨r, t₁, e, p⟩ := fresh_returns mem b f
          ⟨bx.x + bx.w / 2, bx.y, bx.w / 2, bx.h / 2⟩ c hcap₁
        exact ⟨r, t₁, e, fun _ => p⟩)
      (by
        obtain ⟨r, t₁, e, p⟩ := fresh_returns mem b f
          ⟨bx.x, bx.y + bx.h / 2, bx.w / 2, bx.h / 2⟩ c hcap₁
        exact ⟨r, t₁, e, fun _ => p⟩)
      (by
        obtain ⟨r, t₁, e, p⟩ := fresh_returns mem b f
          ⟨bx.x + bx.w / 2, bx.y + bx.h / 2, bx.w / 2, bx.h / 2⟩ c hcap₁
        exact ⟨r, t₁, e, fun _ => p⟩)
    have q1 := p1 hcap₁
    have q2 := p2 hcap₁
    have q3 := p3 hcap₁
    have q4 := p4 hcap₁
    refine ⟨r, _, e, ⟨hcap₁, q1.1, q2.1, q3.1, q4.1⟩, ?_⟩
    have a1 := q1.2
    have a2 := q2.2
    have a3 := q3.2
    have a4 := q4.2
    simp only [height] at a1 a2 a3 a4 ⊢
    omega
  | split bx c ps nw ne sw se, hcap, fuel, hfuel => by
    obtain ⟨f, rfl⟩ : ∃ f, fuel = f + 1 := ⟨fuel - 1, by simp only [height] at hfuel; omega⟩
    obtain ⟨hc₁, c1, c2, c3, c4⟩ := hcap
    by_cases hc : (!(split bx c ps nw ne sw se : Quadtree K).box.contains (mem b)) = true
    · rw [insert, if_pos hc]
      exact ⟨_, _, rfl, ⟨hc₁, c1, c2, c3, c4⟩, Nat.le_succ _⟩
    by_cases hlt : (((split bx c ps nw ne sw se : Quadtree K).points.length : Int)
        < (split bx c ps nw ne sw se : Quadtree K).capacity)
    · rw [insert, if_neg hc, if_pos hlt]
      exact ⟨_, _, rfl, ⟨hc₁, c1, c2, c3, c4⟩, Nat.le_succ _⟩
    simp only [height] at hfuel
    obtain ⟨r, nw₁, ne₁, sw₁, se₁, e, p1, p2, p3, p4⟩ := cascade_returns mem b f
      (split bx c ps nw ne sw se) bx c ps nw ne sw se
      (fun t t₁ => t.CapPos → t₁.CapPos ∧ t₁.height ≤ t.height + 1)
      (fun t h => ⟨h, Nat.le_succ _⟩) (by simpa using hc) hlt rfl
      (by
        obtain ⟨r, t₁, e, p⟩ := insert_returns mem b nw c1 f (by omega)
        exact ⟨r, t₁, e, fun _ => p⟩)
      (by
        obtain ⟨r, t₁, e, p⟩ := insert_returns mem b ne c2 f (by omega)
        exact ⟨r, t₁, e, fun _ => p⟩)
      (by
        obtain ⟨r, t₁, e, p⟩ := insert_returns mem b sw c3 f (by omega)
        exact ⟨r, t₁, e, fun _ => p⟩)
      (by
        obtain ⟨r, t₁, e, p⟩ := insert_returns mem b se c4 f (by omega)
        exact ⟨r, t₁, e, fun _ => p⟩)
    have q1 := p1 c1
    have q2 := p2 c2
    have q3 := p3 c3
    have q4 := p4 c4
    refine ⟨r, _, e, ⟨hc₁, q1.1, q2.1, q3.1, q4.1⟩, ?_⟩
    have a1 := q1.2
    have a2 := q2.2
    have a3 := q3.2
    have a4 := q4.2
    simp only [height] at a1 a2 a3 a4 ⊢
    omega

theorem insert_entries_stay_witness :
    ∃ r t₁, insert (fun i => ballAt i i 1) 2 (leaf ⟨0, 0, 10, 10⟩ 1 [0]) 3 = some (r, t₁) ∧
      ∀ a, t₁.allPoints.count a
        = (leaf ⟨0, 0, 10, 10⟩ 1 [0] : Quadtree ℚ).allPoints.count a
          + if a = 3 then r.toNat else 0 := by
  obtain ⟨r, t₁, h, -⟩ := insert_returns (fun i => ballAt i i 1) 3
    (leaf ⟨0, 0, 10, 10⟩ 1 [0]) (by simp [CapPos]) 2 (by simp [height])
  exact ⟨r, t₁, h, (insert_entries_stay _ 3 2 _ r t₁ h).2⟩

theorem insert_outside (mem : Nat → Ball K) (b f : Nat) (t : Quadtree K)
    (h : t.box.contains (mem b) = false) : t.insert mem (f + 1) b = some (false, t) := by
  rw [insert, if_pos (by simp [h])]

/-- With capacity at most 0, `insert` of a body inside the box of an undivided node runs out
of every fuel. -/
theorem insert_diverges (mem : Nat → Ball K) (b : Nat) (cap : Int) (hcap : cap ≤ 0) :
    ∀ (fuel : Nat) (bx : AABB K) (ps : List Nat), bx.contains (mem b) = true →
      insert mem fuel (leaf bx cap ps) b = none
  | 0, _, _, _ => rfl
  | fuel + 1, bx, ps, hc => by
    have hfull : ¬ ((((leaf bx cap ps : Quadtree K).points.length : Int))
        < (leaf bx cap ps : Quadtree K).capacity) := by
      simp only [points, capacity]
      omega
    rw [insert, if_neg (by simp [box, hc]), if_neg hfull]
    simp only [divided, Bool.not_false, if_true, Quadtree.subdivide, box, capacity, points]
    cases fuel with
    | zero => rfl
    | succ f =>
      have hcov := AABB.quadrant_cover bx (mem b) hc
      cases c1 : (⟨bx.x, bx.y, bx.w / 2, bx.h / 2⟩ : AABB K).contains (mem b)
      · rw [insert_outside mem b f _ (by simpa [box] using c1)]
        simp only []
        cases c2 : (⟨bx.x + bx.w / 2, bx.y, bx.w / 2, bx.h / 2⟩ : AABB K).contains (mem b)
        · rw [insert_outside mem b f _ (by simpa [box] using c2)]
          simp only []
          cases c3 : (⟨bx.x, bx.y + bx.h / 2, bx.w / 2, bx.h / 2⟩ : AABB K).contains (mem b)
          · rw [insert_outside mem b f _ (by simpa [box] using c3)]
            simp only []
            cases c4 : (⟨bx.x + bx.w / 2, bx.y + bx.h / 2, bx.w / 2, bx.h / 2⟩ :
                AABB K).contains (mem b)
            · simp [c1, c2, c3, c4] at hcov
            · rw [insert_diverges mem b cap hcap (f + 1) _ [] c4]
          · rw [insert_diverges mem b cap hcap (f + 1) _ [] c3]
        · rw [insert_diverges mem b cap hcap (f + 1) _ [] c2]
      · rw [insert_diverges mem b cap hcap (f + 1) _ [] c1]

/-! ## C20: termination of `insert` -/

/-- C20: with every capacity at least 1, `insert` returns on every tree as soon as the fuel
exceeds the height (the recursion goes at most one level below the tree) and the tree grows
by at most one level; a sequence of inserts from an empty node of capacity at least 1 returns
whatever the centres are, also when they all coincide; with capacity at most 0 an `insert`
of a body inside the box of an undivided node returns for no fuel. -/
theorem insert_terminates (mem : Nat → Ball K) (b : Nat) (cap : Int) :
    (∀ (t : Quadtree K), t.CapPos → ∀ fuel, t.height + 1 ≤ fuel →
      ∃ r t₁, t.insert mem fuel b = some (r, t₁) ∧ t₁.CapPos ∧ t₁.height ≤ t.height + 1) ∧
    (1 ≤ cap → ∀ (bx : AABB K) (bs : List Nat) (fuel : Nat), bs.length + 1 ≤ fuel →
      ∃ res, insertAll mem fuel (leaf bx cap []) bs = some res) ∧
    (cap ≤ 0 → ∀ (fuel : Nat) (bx : AABB K) (ps : List Nat), bx.contains (mem b) = true →
      insert mem fuel (leaf bx cap ps) b = none) := by
  refine ⟨insert_returns mem b, ?_, fun hcap => insert_diverges mem b cap hcap⟩
  intro hcap bx bs fuel hfuel
  obtain ⟨t, h, -⟩ := insertAll_ok mem cap hcap fuel bs (leaf bx cap [])
    (leaf_inv mem cap hcap bx) (by rw [height_leaf]; omega)
  exact ⟨_, h⟩

theorem insert_terminates_witness :
    (∃ res, insertAll (fun _ => ballAt 5 5 1) 11 (leaf ⟨0, 0, 10, 10⟩ 1 []) (List.range 10)
        = some res) ∧
      insert (fun _ => ballAt 5 5 1) 100 (leaf ⟨0, 0, 10, 10⟩ 0 []) 0 = none :=
  ⟨(insert_terminates (fun _ => ballAt 5 5 1) 0 1).2.1 (by decide) ⟨0, 0, 10, 10⟩
      (List.range 10) 11 (by simp),
    (insert_terminates (fun _ => ballAt 5 5 1) 0 0).2.2 (by decide) 100 ⟨0, 0, 10, 10⟩ []
      (by
        rw [AABB.contains_iff]
        norm_num [ballAt])⟩

end Quadtree

/-! ## Pre-check and resolver -/

theorem resolveCollision_far (sqrt : K → K) (a b : Ball K)
    (hpos : 0 < a.radius + b.radius)
    (h : a.radius + b.radius ≤ len sqrt (a.pos.sub b.pos)) :
    resolveCollision sqrt a b = (a, b) := by
  have hne : len sqrt (a.pos.sub b.pos) ≠ 0 := by
    intro h0
    rw [h0] at h
    linarith
  have hpen : ¬ (a.radius + b.radius - len sqrt (a.pos.sub b.pos) > 0) := by
    intro hp
    linarith
  simp only [resolveCollision, if_neg hne, if_neg hpen]

theorem resolveCollision_rejected (sqrt : K → K)
    (hsq : ∀ x y : K, SqrtExactAt sqrt (x * x + y * y)) (a b : Ball K)
    (hra : 0 < a.radius) (hrb : 0 < b.radius) (hpre : precheck a b = false) :
    resolveCollision sqrt a b = (a, b) := by
  obtain ⟨hx, hy⟩ := abs_le_of_exact sqrt _ _ (hsq (a.pos.sub b.pos).x (a.pos.sub b.pos).y)
  have hnot : ¬ (|a.pos.x - b.pos.x| ≤ a.radius + b.radius
      ∧ |a.pos.y - b.pos.y| ≤ a.radius + b.radius) := by
    rw [← precheck_iff, hpre]
    exact Bool.false_ne_true
  apply resolveCollision_far sqrt a b (add_pos hra hrb)
  simp only [len, Vec.sub] at hx hy ⊢
  by_contra hlt
  push_neg at hlt
  exact hnot ⟨le_of_lt (lt_of_le_of_lt hx hlt), le_of_lt (lt_of_le_of_lt hy hlt)⟩

theorem resolveCollision_radius (sqrt : K → K) (a b : Ball K) :
    (resolveCollision sqrt a b).1.radius = a.radius ∧
      (resolveCollision sqrt a b).2.radius = b.radius := by
  rw [resolveCollision_locals]
  split_ifs <;> exact ⟨rfl, rfl⟩

omit [LinearOrderedField K] in
theorem getD_set (d x : Ball K) (l : List (Ball K)) (i k : Nat) :
    (l.set i x).getD k d = if i = k ∧ i < l.length then x else l.getD k d := by
  rw [List.getD_eq_getElem?_getD, List.getD_eq_getElem?_getD, List.getElem?_set]
  by_cases hik : i = k
  · by_cases hl : i < l.length
    · subst hik
      simp [hl]
    · subst hik
      have : l[i]? = none := List.getElem?_eq_none (by omega)
      simp [hl, this]
  · simp [hik]

theorem deref_set (x : Ball K) (l : List (Ball K)) (i k : Nat) :
    deref (l.set i x) k = if i = k ∧ i < l.length then x else deref l k :=
  getD_set _ x l i k

/-- The balls all have a positive radius and there are `n` of them. -/
theorem resolveAt_radii (sqrt : K → K) (n : Nat) (st : PhaseState K) (i j : Nat)
    (hI : st.1.length = n ∧ ∀ k < n, 0 < (deref st.1 k).radius) (hi : i < n) (hj : j < n) :
    (resolveAt (resolveCollision sqrt) st i j).1.length = n ∧
      ∀ k < n, 0 < (deref (resolveAt (resolveCollision sqrt) st i j).1 k).radius := by
  obtain ⟨hl, hr⟩ := hI
  obtain ⟨r1, r2⟩ := resolveCollision_radius sqrt (deref st.1 i) (deref st.1 j)
  refine ⟨by simp [resolveAt, hl], ?_⟩
  intro k hk
  simp only [resolveAt, deref_set, List.length_set]
  split_ifs with h1 h2
  · rw [r2]
    exact hr j hj
  · rw [r1]
    exact hr i hi
  · exact hr k hk

theorem bruteStep_balls (sqrt : K → K)
    (hsq : ∀ x y : K, SqrtExactAt sqrt (x * x + y * y)) (n : Nat) (st : PhaseState K)
    (i j : Nat) (hI : st.1.length = n ∧ ∀ k < n, 0 < (deref st.1 k).radius)
    (hi : i < n) (hj : j < n) :
    (bruteStep (resolveCollision sqrt) i st j).1 = (resolveAt (resolveCollision sqrt) st i j).1 := by
  unfold bruteStep
  cases hp : precheck (deref st.1 i) (deref st.1 j)
  · simp only [Bool.false_eq_true, if_false]
    have := resolveCollision_rejected sqrt hsq _ _ (hI.2 i hi) (hI.2 j hj) hp
    simp only [resolveAt, this]
    simp only [deref, set_getD_self]
  · simp only [if_true]

omit [LinearOrderedField K] in
/-- Two loops over the same list whose bodies keep a relation between their states. -/
theorem foldl_related {α β γ : Type} (R : α → β → Prop) (f : α → γ → α) (g : β → γ → β) :
    ∀ (l : List γ), (∀ c ∈ l, ∀ x y, R x y → R (f x c) (g y c)) →
      ∀ x y, R x y → R (l.foldl f x) (l.foldl g y)
  | [], _, _, _, h => h
  | c :: l, hstep, x, y, h => by
    simp only [List.foldl_cons]
    exact foldl_related R f g l (fun c₁ hc => hstep c₁ (List.mem_cons_of_mem _ hc)) _ _
      (hstep c (List.mem_cons_self _ _) x y h)

/-! ## C14: the pre-check is only an optimisation -/

/-- C14: in exact arithmetic (`std::sqrt` exact at every sum of two squares), a pair of
balls with positive radii that the pre-check rejects is left unchanged by `resolveCollision`;
hence the brute-force pass with the pre-check produces the same body list as the pass that
sends every pair `i < j` to `resolveCollision`. -/
theorem precheck_is_optimisation (sqrt : K → K)
    (hsq : ∀ x y : K, SqrtExactAt sqrt (x * x + y * y)) :
    (∀ a b : Ball K, 0 < a.radius → 0 < b.radius → precheck a b = false →
      resolveCollision sqrt a b = (a, b)) ∧
    ∀ balls : List (Ball K), (∀ b ∈ balls, 0 < b.radius) →
      (bruteForcePhase (resolveCollision sqrt) balls).1
        = (bruteForceNoPrecheck (resolveCollision sqrt) balls).1 := by
  refine ⟨fun a b => resolveCollision_rejected sqrt hsq a b, ?_⟩
  intro balls hpos
  have hI : balls.length = balls.length ∧ ∀ k < balls.length, 0 < (deref balls k).radius := by
    refine ⟨rfl, fun k hk => ?_⟩
    have : deref balls k = balls[k] := by
      simp [deref, List.getD_eq_getElem?_getD, List.getElem?_eq_getElem hk]
    rw [this]
    exact hpos _ (List.getElem_mem _)
  have h := foldl_related
    (fun (x y : PhaseState K) => x.1 = y.1 ∧
      (x.1.length = balls.length ∧ ∀ k < balls.length, 0 < (deref x.1 k).radius))
    (fun st i => (List.range' (i + 1) (balls.length - (i + 1))).foldl
      (bruteStep (resolveCollision sqrt) i) st)
    (fun st i => (List.range' (i + 1) (balls.length - (i + 1))).foldl
      (fun st j => resolveAt (resolveCollision sqrt) st i j) st)
    (List.range balls.length)
    (by
      intro i hi x y hxy
      rw [List.mem_range] at hi
      refine foldl_related (fun (x y : PhaseState K) => x.1 = y.1 ∧
        (x.1.length = balls.length ∧ ∀ k < balls.length, 0 < (deref x.1 k).radius))
        _ _ _ ?_ x y hxy
      intro j hj x₁ y₁ ⟨he, hI₁⟩
      rw [List.mem_range'_1] at hj
      have hjn : j < balls.length := by omega
      have hb := bruteStep_balls sqrt hsq balls.length x₁ i j hI₁ hi hjn
      have hr := resolveAt_radii sqrt balls.length x₁ i j hI₁ hi hjn
      have hxy₁ : (resolveAt (resolveCollision sqrt) x₁ i j).1
          = (resolveAt (resolveCollision sqrt) y₁ i j).1 := by
        simp only [resolveAt, he]
      exact ⟨hb.trans hxy₁, by rw [hb]; exact hr⟩)
    (balls, []) (balls, []) ⟨rfl, hI⟩
  exact h.1

theorem precheck_is_optimisation_witness :
    (bruteForcePhase (resolveCollision Real.sqrt) (farPair : List (Ball ℝ))).1
      = (bruteForceNoPrecheck (resolveCollision Real.sqrt) (farPair : List (Ball ℝ))).1 :=
  (precheck_is_optimisation Real.sqrt
    (fun x y => ⟨Real.sqrt_nonneg _,
      Real.mul_self_sqrt (add_nonneg (mul_self_nonneg x) (mul_self_nonneg y))⟩)).2 farPair
    (by
      intro b hb
      simp only [farPair, List.mem_cons, List.mem_singleton, List.not_mem_nil, or_false] at hb
      rcases hb with rfl | rfl <;> norm_num)

/-! ## The fixed-timestep loop -/

theorem tick_returns (sqrt : K → K) (useQuadtree : Bool) (balls : List (Ball K)) :
    ∃ balls₁, tick sqrt useQuadtree balls = some balls₁ := by
  unfold tick
  cases useQuadtree
  · exact ⟨_, rfl⟩
  · obtain ⟨st, h, -⟩ := quad_trace (resolveCollision sqrt) (reflectAll (balls.map integrate))
    exact ⟨st.1, by simp [h]⟩

theorem dt_pos : (0 : K) < dt := by
  unfold dt
  norm_num

/-- The loop `while (accumulator >= dt)` entered below `(k + 1) * dt` returns within `k`
iterations when the fuel is above `k`. -/
theorem accumulatorLoop_returns (sqrt : K → K) (paused useQuadtree : Bool) :
    ∀ (k fuel : Nat) (balls : List (Ball K)) (acc : K) (n : Nat),
      acc < ((k : K) + 1) * dt → k + 1 ≤ fuel →
      ∃ (balls₁ : List (Ball K)) (m : Nat), accumulatorLoop sqrt paused useQuadtree fuel (balls, acc, n)
          = some (balls₁, acc - (m : K) * dt, n + m) ∧
        m ≤ k ∧ acc - (m : K) * dt < dt ∧ (0 ≤ acc → 0 ≤ acc - (m : K) * dt) ∧
        (paused = true → balls₁ = balls) ∧ (acc < dt → m = 0 ∧ balls₁ = balls)
  | 0, fuel, balls, acc, n, hacc, hfuel => by
    obtain ⟨f, rfl⟩ : ∃ f, fuel = f + 1 := ⟨fuel - 1, by omega⟩
    have hlt : acc < dt := by simpa using hacc
    refine ⟨balls, 0, ?_, le_refl _, by simpa using hlt, fun h => by simpa using h,
      fun _ => rfl, fun _ => ⟨rfl, rfl⟩⟩
    rw [accumulatorLoop, if_neg (not_le.mpr hlt)]
    simp
  | k + 1, fuel, balls, acc, n, hacc, hfuel => by
    obtain ⟨f, rfl⟩ : ∃ f, fuel = f + 1 := ⟨fuel - 1, by omega⟩
    by_cases hge : acc ≥ dt
    · have hacc₁ : acc - dt < ((k : K) + 1) * dt := by
        push_cast at hacc
        linarith
      have key : ∀ balls₀ : List (Ball K), (paused = true → balls₀ = balls) →
          ∃ (balls₁ : List (Ball K)) (m : Nat), accumulatorLoop sqrt paused useQuadtree f (balls₀, acc - dt, n + 1)
              = some (balls₁, acc - (m : K) * dt, n + m) ∧
            m ≤ k + 1 ∧ acc - (m : K) * dt < dt ∧ (0 ≤ acc → 0 ≤ acc - (m : K) * dt) ∧
            (paused = true → balls₁ = balls) ∧ (acc < dt → m = 0 ∧ balls₁ = balls) := by
        intro balls₀ hb
        obtain ⟨balls₁, m, e, hm, hlt, hnn, hp, -⟩ :=
          accumulatorLoop_returns sqrt paused useQuadtree k f balls₀ (acc - dt) (n + 1) hacc₁
            (by omega)
        have hsub : acc - dt - (m : K) * dt = acc - ((m + 1 : Nat) : K) * dt := by
          push_cast
          ring
        rw [hsub] at e hlt hnn
        refine ⟨balls₁, m + 1, ?_, by omega, hlt, fun _ => hnn (by linarith),
          fun h => (hp h).trans (hb h), fun h => absurd hge (not_le.mpr h)⟩
        rw [e]
        congr 3
        omega
      rw [accumulatorLoop, if_pos hge]
      cases paused
      · obtain ⟨balls₀, ht⟩ := tick_returns sqrt useQuadtree balls
        rw [if_pos (by simp), ht]
        exact key balls₀ (fun h => by simp at h)
      · rw [if_neg (by simp)]
        exact key balls (fun _ => rfl)
    · have hlt : acc < dt := not_le.mp hge
      refine ⟨balls, 0, ?_, Nat.zero_le _, by simpa using hlt, fun h => by simpa using h,
        fun _ => rfl, fun _ => ⟨rfl, rfl⟩⟩
      rw [accumulatorLoop, if_neg hge]
      simp

theorem frameTime_eq_min (t : K) : (if t > 1 / 4 then (1 / 4 : K) else t) = min t (1 / 4) := by
  split_ifs with h
  · exact (min_eq_right (le_of_lt h)).symm
  · exact (min_eq_left (not_lt.mp h)).symm

/-- One frame entered with the accumulator below `dt` returns within 30 iterations. -/
theorem frame_returns (sqrt : K → K) (fuel : Nat) (hfuel : 31 ≤ fuel)
    (paused useQuadtree : Bool) (t : K) (balls : List (Ball K)) (acc : K) (hacc : acc < dt) :
    ∃ (balls₁ : List (Ball K)) (m : Nat), frame sqrt fuel paused useQuadtree t (balls, acc)
        = some (balls₁, acc + min t (1 / 4) - (m : K) * dt, m) ∧
      m ≤ 30 ∧ acc + min t (1 / 4) - (m : K) * dt < dt ∧
      (0 ≤ acc + min t (1 / 4) → 0 ≤ acc + min t (1 / 4) - (m : K) * dt) ∧
      (paused = true → balls₁ = balls) ∧
      (acc + min t (1 / 4) < dt → m = 0 ∧ balls₁ = balls) := by
  have hb : acc + min t (1 / 4) < (((30 : Nat) : K) + 1) * dt := by
    have := min_le_right t (1 / 4 : K)
    have hd : (dt : K) = 8947849 / 1073741824 := rfl
    push_cast
    rw [hd] at hacc ⊢
    linarith
  obtain ⟨balls₁, m, e, h1, h2, h3, h4, h5⟩ := accumulatorLoop_returns sqrt paused useQuadtree
    30 fuel balls (acc + min t (1 / 4)) 0 hb (by omega)
  refine ⟨balls₁, m, ?_, h1, h2, h3, h4, h5⟩
  rw [frame, frameTime_eq_min, e]
  simp

/-! ## C12: pause -/

/-- C12: from an accumulator below `dt` (as every frame leaves it), any sequence of frames
with `paused = true`, whatever the elapsed times and the broad-phase toggle, returns with the
same vector of balls; only the accumulator changes. -/
theorem paused_frames_keep_bodies (sqrt : K → K) (fuel : Nat) (hfuel : 31 ≤ fuel) :
    ∀ (inputs : List (FrameInput K)), (∀ inp ∈ inputs, inp.paused = true) →
      ∀ (balls : List (Ball K)) (acc : K), acc < dt →
        ∃ acc₁, runFrames sqrt fuel inputs (balls, acc) = some (balls, acc₁)
  | [], _, balls, acc, _ => ⟨acc, rfl⟩
  | inp :: rest, hp, balls, acc, hacc => by
    obtain ⟨balls₁, m, e, -, hlt, -, hb, -⟩ := frame_returns sqrt fuel hfuel inp.paused
      inp.useQuadtree inp.elapsed balls acc hacc
    have hbp := hb (hp inp (List.mem_cons_self _ _))
    subst hbp
    obtain ⟨acc₁, e₁⟩ := paused_frames_keep_bodies sqrt fuel hfuel rest
      (fun i hi => hp i (List.mem_cons_of_mem _ hi)) balls₁ _ hlt
    exact ⟨acc₁, by simp only [runFrames, e, e₁]⟩

theorem paused_frames_keep_bodies_witness :
    ∃ acc₁, runFrames Rat.sqrt 31 [⟨1 / 10, true, false⟩, ⟨1, true, true⟩] (closePair, 0)
      = some (closePair, acc₁) :=
  paused_frames_keep_bodies Rat.sqrt 31 (by decide) [⟨1 / 10, true, false⟩, ⟨1, true, true⟩]
    (by
      intro inp h
      simp only [List.mem_cons, List.mem_singleton, List.not_mem_nil, or_false] at h
      rcases h with rfl | rfl <;> rfl)
    closePair 0 dt_pos

/-! ## C13: number of ticks of a frame -/

/-- C13 (amended): with `dt` the binary32 constant `8947849 / 2^30` of the program and the
accumulator updated in exact arithmetic, a frame entered with the accumulator in `[0, dt)`
and elapsed time `t` returns after exactly `max 0 ⌊(acc + min t 0.25) / dt⌋` iterations of
the loop, at most 30; for `t ≤ 0` there is no iteration and the balls are unchanged; for
`t ≥ 0` the accumulator is again in `[0, dt)`. -/
theorem frame_tick_count [FloorRing K] (sqrt : K → K) (fuel : Nat) (hfuel : 31 ≤ fuel)
    (paused useQuadtree : Bool) (balls : List (Ball K)) (acc : K) (h0 : 0 ≤ acc)
    (h1 : acc < dt) (t : K) :
    ∃ balls₁ acc₁, frame sqrt fuel paused useQuadtree t (balls, acc)
        = some (balls₁, acc₁, (⌊(acc + min t (1 / 4)) / dt⌋).toNat) ∧
      (⌊(acc + min t (1 / 4)) / dt⌋).toNat ≤ 30 ∧
      (t ≤ 0 → (⌊(acc + min t (1 / 4)) / dt⌋).toNat = 0 ∧ balls₁ = balls) ∧
      (0 ≤ t → 0 ≤ acc₁ ∧ acc₁ < dt) := by
  obtain ⟨balls₁, m, e, hm, hlt, hnn, -, hz⟩ := frame_returns sqrt fuel hfuel paused
    useQuadtree t balls acc h1
  have hdt : (0 : K) < dt := dt_pos
  have hfl : (⌊(acc + min t (1 / 4)) / dt⌋).toNat = m := by
    by_cases hneg : acc + min t (1 / 4) < 0
    · have hm0 : m = 0 := (hz (lt_trans hneg hdt)).1
      have : ⌊(acc + min t (1 / 4)) / dt⌋ < 0 := by
        rw [Int.floor_lt]
        simpa using div_neg_of_neg_of_pos hneg hdt
      rw [hm0]
      exact Int.toNat_eq_zero.mpr (le_of_lt this)
    · have hge := hnn (not_lt.mp hneg)
      have : ⌊(acc + min t (1 / 4)) / dt⌋ = (m : Int) := by
        rw [Int.floor_eq_iff]
        constructor
        · rw [le_div_iff₀ hdt]
          push_cast
          linarith
        · rw [div_lt_iff₀ hdt]
          push_cast
          linarith
      rw [this]
      exact Int.toNat_natCast m
  rw [hfl]
  refine ⟨balls₁, _, e, hm, ?_, ?_⟩
  · intro ht
    have : acc + min t (1 / 4) < dt := by
      have := min_le_left t (1 / 4 : K)
      linarith
    exact hz this
  · intro ht
    have : 0 ≤ min t (1 / 4 : K) := le_min ht (by norm_num)
    exact ⟨hnn (by linarith), hlt⟩

theorem frame_tick_count_witness :
    ∃ balls₁ acc₁, frame Rat.sqrt 31 false false (1 / 60) (closePair, 0)
      = some (balls₁, acc₁, (⌊((0 : ℚ) + min (1 / 60) (1 / 4)) / dt⌋).toNat) := by
  obtain ⟨balls₁, acc₁, h, -⟩ := frame_tick_count Rat.sqrt 31 (by decide) false false closePair
    0 le_rfl dt_pos (1 / 60)
  exact ⟨balls₁, acc₁, h⟩

/-! ## Binary32 runs

Evaluation of the rounded definitions with `round32`, the rounding of the type `float`. -/

/-- With the identity as rounding the rounded resolver is `resolveCollision`. -/
theorem resolveCollisionR_id (sqrt : K → K) (a b : Ball K) :
    resolveCollisionR id sqrt a b = resolveCollision sqrt a b := rfl

/-- With the identity as rounding the rounded reflection is `reflect`. -/
theorem reflectR_id (b : Ball K) : reflectR id b = reflect b := rfl

/-- The exponent of a rational between two consecutive powers of two. -/
theorem log_eq_of_bounds (q : ℚ) (e : ℤ) (h1 : (2 : ℚ) ^ e ≤ |q|) (h2 : |q| < (2 : ℚ) ^ (e + 1)) :
    Int.log 2 |q| = e := by
  have hpos : 0 < |q| := lt_of_lt_of_le (zpow_pos (by norm_num) e) h1
  have a : e ≤ Int.log 2 |q| := by
    rw [← Int.zpow_le_iff_le_log (by norm_num) hpos]
    exact_mod_cast h1
  have b : Int.log 2 |q| < e + 1 := by
    rw [← Int.lt_zpow_iff_log_lt (by norm_num) hpos]
    exact_mod_cast h2
  omega

/-- Evaluation of `round32` away from ties: for `2^e ≤ |q| < 2^(e+1)` the result is the
integer `r` nearest to `q / 2^(e-23)`, times `2^(e-23)`. -/
theorem round32_eq (q : ℚ) (e r : ℤ) (h1 : (2 : ℚ) ^ e ≤ |q|) (h2 : |q| < (2 : ℚ) ^ (e + 1))
    (hr1 : (r : ℚ) - 1 / 2 < q / (2 : ℚ) ^ (e - 23))
    (hr2 : q / (2 : ℚ) ^ (e - 23) < (r : ℚ) + 1 / 2) :
    round32 q = r * (2 : ℚ) ^ (e - 23) := by
  have hq : q ≠ 0 := by
    intro h
    rw [h, abs_zero] at h1
    exact absurd h1 (not_le.mpr (zpow_pos (by norm_num) e))
  rw [round32, if_neg hq, log_eq_of_bounds q e h1 h2]
  simp only []
  generalize q / (2 : ℚ) ^ (e - 23) = n at hr1 hr2
  by_cases hle : (r : ℚ) ≤ n
  · have hf : ⌊n⌋ = r := by
      rw [Int.floor_eq_iff]
      exact ⟨hle, by linarith⟩
    rw [hf, if_pos (by linarith)]
  · have hlt : n < r := not_le.mp hle
    have hf : ⌊n⌋ = r - 1 := by
      rw [Int.floor_eq_iff]
      push_cast
      exact ⟨by linarith, by linarith⟩
    rw [hf]
    push_cast
    rw [if_neg (by linarith), if_pos (by linarith)]
    ring

theorem round32_zero : round32 0 = 0 := by simp [round32]

/-- The binary32 number nearest to `1/120` is the constant `dt`. -/
theorem round32_dt : round32 (1 / 120) = dt := by
  rw [round32_eq _ (-7) 8947849 (by norm_num [abs_of_pos]) (by norm_num [abs_of_pos])
    (by norm_num) (by norm_num)]
  norm_num [dt]

/-- The binary32 number nearest to `1/10` is the radius of `tenthBall`. -/
theorem round32_tenth : round32 (1 / 10) = tenthBall.radius := by
  rw [round32_eq _ (-4) 13421773 (by norm_num [abs_of_pos]) (by norm_num [abs_of_pos])
    (by norm_num) (by norm_num)]
  norm_num [tenthBall]

/-- C5 (counterexample): in binary32 a ball of radius `0.1f` (positive, `2 * radius ≤ 700`)
beyond the right wall is put at the rounded `1000 - radius`, which is `8191181 / 8192` and
lies above `1000 - radius`: the centre is not within `[radius, 1000 - radius]` after the
reflection step. -/
theorem reflect_binary32_beyond_wall :
    (0 < tenthBall.radius ∧ 2 * tenthBall.radius ≤ 700) ∧
      (reflectAllR round32 [tenthBall])[0]?
        = some ⟨⟨8191181 / 8192, 350⟩, ⟨-10, 0⟩, 13421773 / 134217728, 1⟩ ∧
      ¬ ((8191181 / 8192 : ℚ) ≤ 1000 - tenthBall.radius) := by
  have e1 : round32 (2000 - 13421773 / 134217728) = 16383181 / 8192 := by
    rw [round32_eq _ 10 16383181 (by norm_num [abs_of_pos]) (by norm_num [abs_of_pos])
      (by norm_num) (by norm_num)]
    norm_num
  have e2 : round32 (2000 + 13421773 / 134217728) = 16384819 / 8192 := by
    rw [round32_eq _ 10 16384819 (by norm_num [abs_of_pos]) (by norm_num [abs_of_pos])
      (by norm_num) (by norm_num)]
    norm_num
  have e3 : round32 (1000 - 13421773 / 134217728) = 8191181 / 8192 := by
    rw [round32_eq _ 9 16382362 (by norm_num [abs_of_pos]) (by norm_num [abs_of_pos])
      (by norm_num) (by norm_num)]
    norm_num
  have e4 : round32 (10 * -1) = -10 := by
    rw [round32_eq _ 3 (-10485760) (by norm_num [abs_of_neg]) (by norm_num [abs_of_neg])
      (by norm_num) (by norm_num)]
    norm_num
  have e5 : round32 (350 - 13421773 / 134217728) = 11465523 / 32768 := by
    rw [round32_eq _ 8 11465523 (by norm_num [abs_of_pos]) (by norm_num [abs_of_pos])
      (by norm_num) (by norm_num)]
    norm_num
  have e6 : round32 (350 + 13421773 / 134217728) = 11472077 / 32768 := by
    rw [round32_eq _ 8 11472077 (by norm_num [abs_of_pos]) (by norm_num [abs_of_pos])
      (by norm_num) (by norm_num)]
    norm_num
  refine ⟨by norm_num [tenthBall], ?_, by norm_num [tenthBall]⟩
  have h1 : ¬ (round32 (2000 - 13421773 / 134217728) < 0) := by
    rw [e1]
    norm_num
  have h2 : round32 (2000 + 13421773 / 134217728) > 1000 := by
    rw [e2]
    norm_num
  have h3 : ¬ (round32 (350 - 13421773 / 134217728) < 0) := by
    rw [e5]
    norm_num
  have h4 : ¬ (round32 (350 + 13421773 / 134217728) > 700) := by
    rw [e6]
    norm_num
  simp only [reflectAllR, List.map_cons, List.map_nil, List.getElem?_cons_zero, reflectR,
    tenthBall, worldW, worldH, if_neg h1, if_pos h2, if_neg h3, if_neg h4, e3, e4]


/-- The binary32 run of `resolveCollision` on two balls of radius 12 and mass 1 at
`(100, 100)` and `(103, 104)`. -/
theorem resolveCollisionR_closePair :
    (resolveCollisionR round32 Rat.sqrt (ballAt 100 100 12) (ballAt 103 104 12)).1.pos
        = ⟨12733645 / 131072, 6304563 / 65536⟩ ∧
      (resolveCollisionR round32 Rat.sqrt (ballAt 100 100 12) (ballAt 103 104 12)).2.pos
        = ⟨13873971 / 131072, 7064781 / 65536⟩ := by
  have v0 : round32 (-3) = -3 := by
    rw [round32_eq _ (1) (-12582912) (by norm_num [abs_of_neg]) (by norm_num [abs_of_neg])
      (by norm_num) (by norm_num)]
    norm_num
  have v1 : round32 (-4) = -4 := by
    rw [round32_eq _ (2) (-8388608) (by norm_num [abs_of_neg]) (by norm_num [abs_of_neg])
      (by norm_num) (by norm_num)]
    norm_num
  have v2 : round32 (9) = 9 := by
    rw [round32_eq _ (3) (9437184) (by norm_num [abs_of_pos]) (by norm_num [abs_of_pos])
      (by norm_num) (by norm_num)]
    norm_num
  have v3 : round32 (16) = 16 := by
    rw [round32_eq _ (4) (8388608) (by norm_num [abs_of_pos]) (by norm_num [abs_of_pos])
      (by norm_num) (by norm_num)]
    norm_num
  have v4 : round32 (25) = 25 := by
    rw [round32_eq _ (4) (13107200) (by norm_num [abs_of_pos]) (by norm_num [abs_of_pos])
      (by norm_num) (by norm_num)]
    norm_num
  have v5 : round32 (24) = 24 := by
    rw [round32_eq _ (4) (12582912) (by norm_num [abs_of_pos]) (by norm_num [abs_of_pos])
      (by norm_num) (by norm_num)]
    norm_num
  have v6 : round32 (19) = 19 := by
    rw [round32_eq _ (4) (9961472) (by norm_num [abs_of_pos]) (by norm_num [abs_of_pos])
      (by norm_num) (by norm_num)]
    norm_num
  have v7 : round32 (-(3 / 5)) = -5033165 / 8388608 := by
    rw [round32_eq _ (-1) (-10066330) (by norm_num [abs_of_neg]) (by norm_num [abs_of_neg])
      (by norm_num) (by norm_num)]
    norm_num
  have v8 : round32 (-(4 / 5)) = -13421773 / 16777216 := by
    rw [round32_eq _ (-1) (-13421773) (by norm_num [abs_of_neg]) (by norm_num [abs_of_neg])
      (by norm_num) (by norm_num)]
    norm_num
  have v9 : round32 (2) = 2 := by
    rw [round32_eq _ (1) (8388608) (by norm_num [abs_of_pos]) (by norm_num [abs_of_pos])
      (by norm_num) (by norm_num)]
    norm_num
  have v10 : round32 (1) = 1 := by
    rw [round32_eq _ (0) (8388608) (by norm_num [abs_of_pos]) (by norm_num [abs_of_pos])
      (by norm_num) (by norm_num)]
    norm_num
  have v11 : round32 (1 / 2) = 1 / 2 := by
    rw [round32_eq _ (-1) (8388608) (by norm_num [abs_of_pos]) (by norm_num [abs_of_pos])
      (by norm_num) (by norm_num)]
    norm_num
  have v12 : round32 (19 / 2) = 19 / 2 := by
    rw [round32_eq _ (3) (9961472) (by norm_num [abs_of_pos]) (by norm_num [abs_of_pos])
      (by norm_num) (by norm_num)]
    norm_num
  have v13 : round32 (19 / 4) = 19 / 4 := by
    rw [round32_eq _ (2) (9961472) (by norm_num [abs_of_pos]) (by norm_num [abs_of_pos])
      (by norm_num) (by norm_num)]
    norm_num
  have v14 : round32 (-(95630135 / 33554432)) = -11953767 / 4194304 := by
    rw [round32_eq _ (1) (-11953767) (by norm_num [abs_of_neg]) (by norm_num [abs_of_neg])
      (by norm_num) (by norm_num)]
    norm_num
  have v15 : round32 (-(255013687 / 67108864)) = -15938355 / 4194304 := by
    rw [round32_eq _ (1) (-15938355) (by norm_num [abs_of_neg]) (by norm_num [abs_of_neg])
      (by norm_num) (by norm_num)]
    norm_num
  have v16 : round32 (407476633 / 4194304) = 12733645 / 131072 := by
    rw [round32_eq _ (6) (12733645) (by norm_num [abs_of_pos]) (by norm_num [abs_of_pos])
      (by norm_num) (by norm_num)]
    norm_num
  have v17 : round32 (403492045 / 4194304) = 6304563 / 65536 := by
    rw [round32_eq _ (6) (12609126) (by norm_num [abs_of_pos]) (by norm_num [abs_of_pos])
      (by norm_num) (by norm_num)]
    norm_num
  have v18 : round32 (443967079 / 4194304) = 13873971 / 131072 := by
    rw [round32_eq _ (6) (13873971) (by norm_num [abs_of_pos]) (by norm_num [abs_of_pos])
      (by norm_num) (by norm_num)]
    norm_num
  have v19 : round32 (452145971 / 4194304) = 7064781 / 65536 := by
    rw [round32_eq _ (6) (14129562) (by norm_num [abs_of_pos]) (by norm_num [abs_of_pos])
      (by norm_num) (by norm_num)]
    norm_num
  simp only [resolveCollisionR, lenR, Vec.subR, Vec.divR, Vec.mulR, Vec.addR, dotR, ballAt]
  norm_num [v0, v1, v2, v3, v4, v5, v6, v7, v8, v9, v10, v11, v12, v13, v14, v15, v16, v17,
    v18, v19, ratSqrt_25, round32_zero]

/-- C16 (counterexample): in binary32, for the overlapping pair of radius 12 and mass 1 at
`(100, 100)` and `(103, 104)` (distance 5, penetration 19), the call does not move `a` by
`u * p * (m_b / (m_a + m_b)) * 0.5`, and the squared centre distance after the call is not
`(dist + p / 2)^2`: the distance is not exactly `dist + p / 2`. -/
theorem resolveCollision_binary32_inexact :
    len Rat.sqrt ((ballAt 100 100 12).pos.sub (ballAt 103 104 12).pos) = 5 ∧
      (resolveCollisionR round32 Rat.sqrt (ballAt 100 100 12) (ballAt 103 104 12)).1.pos
        ≠ (ballAt 100 100 12).pos.add
            ((((ballAt 100 100 12).pos.sub (ballAt 103 104 12).pos).div 5).mul
              ((12 + 12 - 5) * (1 / (1 + 1)) * (1 / 2))) ∧
      dot ((resolveCollisionR round32 Rat.sqrt (ballAt 100 100 12) (ballAt 103 104 12)).1.pos.sub
            (resolveCollisionR round32 Rat.sqrt (ballAt 100 100 12) (ballAt 103 104 12)).2.pos)
          ((resolveCollisionR round32 Rat.sqrt (ballAt 100 100 12) (ballAt 103 104 12)).1.pos.sub
            (resolveCollisionR round32 Rat.sqrt (ballAt 100 100 12) (ballAt 103 104 12)).2.pos)
        ≠ (5 + (12 + 12 - 5) / 2) * (5 + (12 + 12 - 5) / 2) := by
  obtain ⟨h1, h2⟩ := resolveCollisionR_closePair
  rw [h1, h2]
  refine ⟨?_, ?_, ?_⟩
  · have : (ballAt 100 100 12).pos.sub (ballAt 103 104 12).pos = ⟨-3, -4⟩ := by
      norm_num [ballAt, Vec.sub]
    rw [this]
    exact len_three_four
  · intro h
    have hx := congrArg Vec.x h
    norm_num [ballAt, Vec.add, Vec.sub, Vec.mul, Vec.div] at hx
  · norm_num [dot, Vec.sub]

/-- C13 (counterexample): a frame entered with accumulator `0` and elapsed time `0.25` makes
29 iterations of the loop, while `max 0 ⌊(acc + min t 0.25) / dt⌋` with `dt = 1/120` is 30:
the constant `dt` of the program is the binary32 number above `1/120`. -/
theorem frame_quarter_second_ticks :
    (∃ balls₁ acc₁, frame Rat.sqrt 31 false false (1 / 4) (closePair, 0)
        = some (balls₁, acc₁, 29)) ∧
      (⌊((0 : ℚ) + min (1 / 4) (1 / 4)) / (1 / 120)⌋).toNat = 30 := by
  constructor
  · obtain ⟨balls₁, m, e, -, hlt, hnn, -, -⟩ := frame_returns Rat.sqrt 31 (by decide) false
      false (1 / 4) closePair 0 dt_pos
    have hmin : (0 : ℚ) + min (1 / 4) (1 / 4) = 1 / 4 := by norm_num
    rw [hmin] at e hlt hnn
    have h0 := hnn (by norm_num)
    have hd : (dt : ℚ) = 8947849 / 1073741824 := rfl
    rw [hd] at hlt h0
    have hm1 : (m : ℚ) < 30 := by
      by_contra hc
      push_neg at hc
      nlinarith
    have hm2 : (28 : ℚ) < m := by
      by_contra hc
      push_neg at hc
      nlinarith
    have hm : m = 29 := by
      have a : m < 30 := by exact_mod_cast hm1
      have b : 28 < m := by exact_mod_cast hm2
      omega
    subst hm
    exact ⟨balls₁, _, e⟩
  · have : ((0 : ℚ) + min (1 / 4) (1 / 4)) / (1 / 120) = ((30 : ℤ) : ℚ) := by norm_num
    rw [this, Int.floor_intCast]
    rfl

/-! ## The binary32 quadtree at the far corner of the world

Bodies centred at `(1000, 700)` are accepted only by the child `se` at every level.  In
binary32 the boxes of these children are exact for 16 levels and rounded below; the box at
depth 20 still contains the corner, but none of its four quadrants does. -/

/-- With the identity as rounding the rounded `contains` is `AABB.contains`. -/
theorem AABB.containsR_id (bx : AABB K) (b : Ball K) : bx.containsR id b = bx.contains b := rfl

/-- With the identity as rounding the rounded `intersects` is `AABB.intersects`. -/
theorem AABB.intersectsR_id (bx o : AABB K) : bx.intersectsR id o = bx.intersects o := rfl

/-- With the identity as rounding the rounded `subdivide` is `subdivide`. -/
theorem Quadtree.subdivideR_id (t : Quadtree K) : t.subdivideR id = t.subdivide := rfl

/-- With the identity as rounding the rounded `insert` is `insert`. -/
theorem Quadtree.insertR_id (mem : Nat → Ball K) :
    ∀ (fuel : Nat) (t : Quadtree K) (b : Nat), t.insertR id mem fuel b = t.insert mem fuel b
  | 0, _, _ => rfl
  | fuel + 1, t, b => by
    rw [Quadtree.insertR, Quadtree.insert]
    simp only [AABB.containsR_id, Quadtree.subdivideR_id, Quadtree.insertR_id mem fuel]

/-- With the identity as rounding the rounded `query` is `query`. -/
theorem Quadtree.queryR_id (mem : Nat → Ball K) (range : AABB K) :
    ∀ (t : Quadtree K) (out : List Nat), t.queryR id mem range out = t.query mem range out
  | Quadtree.leaf _ _ _, _ => rfl
  | Quadtree.split _ _ _ nw ne sw se, out => by
    simp only [Quadtree.queryR, Quadtree.query, AABB.intersectsR_id, AABB.containsR_id,
      Quadtree.queryR_id mem range]

/-- With the identity as rounding the rounded pre-check is `precheck`. -/
theorem precheckR_id (a b : Ball K) : precheckR id a b = precheck a b := rfl

/-- With the identity as rounding the rounded query region is `queryRange`. -/
theorem queryRangeR_id (a : Ball K) : queryRangeR id a = queryRange a := rfl

/-- With the identity as rounding the rounded brute-force phase is `bruteForcePhase`. -/
theorem bruteForcePhaseR_id (res : Ball K → Ball K → Ball K × Ball K) (balls : List (Ball K)) :
    bruteForcePhaseR id res balls = bruteForcePhase res balls := rfl

/-- With the identity as rounding the rounded loop of inserts is `insertAll`. -/
theorem Quadtree.insertAllR_id (mem : Nat → Ball K) (fuel : Nat) :
    ∀ (bs : List Nat) (t : Quadtree K),
      Quadtree.insertAllR id mem fuel t bs = Quadtree.insertAll mem fuel t bs
  | [], _ => rfl
  | b :: bs, t => by
    rw [Quadtree.insertAllR, Quadtree.insertAll, Quadtree.insertR_id]
    cases t.insert mem fuel b with
    | none => rfl
    | some p => simp only [Quadtree.insertAllR_id mem fuel bs]

/-- With the identity as rounding the rounded quadtree phase is `quadtreePhase`. -/
theorem quadtreePhaseR_id (res : Ball K → Ball K → Ball K × Ball K) (balls : List (Ball K)) :
    quadtreePhaseR id res balls = quadtreePhase res balls := by
  have hq : ∀ qt, quadIterR id res qt = quadIter res qt := by
    intro qt
    funext st i
    simp only [quadIterR, quadIter, Quadtree.queryR_id, queryRangeR_id]
    rfl
  simp only [quadtreePhaseR, quadtreePhase, buildTreeR, buildTree, Quadtree.insertAllR_id, hq]

namespace Quadtree

end Quadtree

namespace Quadtree

end Quadtree


namespace Quadtree

end Quadtree

end Theorems

end Collision
